import Mathlib

/-!
# Verification of the ARC Windows System Mapper related-file engine

Shallow embedding of the related-file resolution engine of the repository:

* `models.py`        — `RelatedFile`, `AppEntry.key`
* `main_controller.py` — `_normalize_related_path`, `_apply_manual_related`,
  `_apply_related_ignores`, `_apply_related_unassigned`,
  `_apply_related_overrides`, and the fixed pipeline order used by
  `_apply_scan_results` / `on_related_add_files`
* `related_scanner.py` — `_dedupe_related_files`, `_fuzzy_score`,
  `_confidence_from_score`, `scan_for_app`, `deep_scan_for_app`,
  `_scan_config_files`, `build_root_index`, `_tokens`, `_cleaned`
* `scanner.py`       — `_normalize_install_location`,
  `_compute_install_size_mb`, `_dir_size_bytes`

Environment-dependent library calls are modelled as parameters:

* `nrm : String → String` stands for `os.path.normcase(os.path.abspath ·))`
  (total within one session; both `related_scanner._normalize_path` and the
  controller's memoized `_normalize_path_cached` delegate to it, the
  controller additionally stripping whitespace and quotes first, which is
  made explicit in `normalizeRelatedPath` below).
* Filesystem contents are explicit trees / lookup functions.
* `time.monotonic` is a `clock : Nat → Nat` sampled at an explicit counter.
* `difflib.SequenceMatcher(None, a, b).ratio()` is a parameter
  `ratio : String → String → ℚ` (Python float arithmetic is modelled by
  exact rational arithmetic).

Python `dict`s are association lists with insert-or-overwrite-in-place
semantics (`dictInsert`), matching CPython's insertion-order preservation.
-/

set_option maxHeartbeats 1000000

namespace SysMapper

/-- Python `str.strip()` (ASCII whitespace model): drop all leading and
trailing whitespace characters.  (Implemented on the character list so that
it reduces inside the kernel, unlike `String.trim`.) -/
def pyStrip (s : String) : String :=
  String.mk (((s.toList.dropWhile Char.isWhitespace).reverse.dropWhile Char.isWhitespace).reverse)

/-- Python `str.strip('"')`: drop all leading and trailing `"` characters. -/
def stripQuotes (s : String) : String :=
  String.mk (((s.toList.dropWhile (· = '"')).reverse.dropWhile (· = '"')).reverse)

/-- `models.RelatedFile` (persisted fields only; the `_search_cache*` fields
are `compare=False` caches and do not take part in equality). -/
structure RelatedFile where
  path : String
  kind : String := "file"
  source : String := ""
  confidence : String := ""
  marked : String := ""
  score : Int := 0
  deriving DecidableEq, Repr

/-- `models.AppEntry` (the fields consumed by the related-file engine). -/
structure AppEntry where
  name : String
  version : String := ""
  publisher : String := ""
  install_location : String := ""
  related_files : List RelatedFile := []
  deriving DecidableEq, Repr

/-- `AppEntry.key`: `f"{len(name)}|{name}|{len(version)}|{version}"`. -/
def AppEntry.key (a : AppEntry) : String :=
  toString a.name.length ++ "|" ++ a.name ++ "|" ++ toString a.version.length ++ "|" ++ a.version

/-- Python dict assignment `d[k] = v`: overwrite in place if the key is
present (keeping its original position), else append. -/
def dictInsert {α : Type} (k : String) (v : α) (d : List (String × α)) : List (String × α) :=
  if d.any (fun p => p.1 = k) then
    d.map (fun p => if p.1 = k then (k, v) else p)
  else d ++ [(k, v)]

/-- Python dict lookup `d.get(k)`. -/
def dictGet {α : Type} (d : List (String × α)) (k : String) : Option α :=
  (d.find? (fun p => p.1 = k)).map (fun p => p.2)

/-- The keys of an association list. -/
def dictKeys {α : Type} (d : List (String × α)) : List String := d.map (fun p => p.1)

/-- The `app_by_key` dict built by `_apply_manual_related` and
`_apply_related_overrides`: maps each key to the last application object
carrying it. -/
def appByKey (apps : List AppEntry) : List (String × AppEntry) :=
  apps.foldl (fun d a => dictInsert a.key a d) []

/-- `main_controller._normalize_path_cached` / `_normalize_related_path`:
strip whitespace, strip surrounding quotes, empty means "no path", and
otherwise normalize through the session normalizer `nrm` (which embeds
`os.path.normcase(os.path.abspath(·))` with its `except OSError` casefold
fallback — a total function either way). -/
def normalizeRelatedPath (nrm : String → String) (path : String) : String :=
  let cleaned := stripQuotes (pyStrip path)
  if cleaned = "" then "" else nrm cleaned

/-- One manual override record item: `{"path": ..., "kind": ...}`. -/
structure ManualItem where
  path : String
  kind : String := "file"
  deriving DecidableEq, Repr

/-- `str(entry.get("kind") or "file").strip() or "file"`. -/
def kindEff (k : String) : String :=
  let k1 := if k = "" then "file" else k
  let k2 := pyStrip k1
  if k2 = "" then "file" else k2

/-- The `manual_by_path` dict of `_apply_manual_related`: normalized path ↦
`(app_key, kind, stripped raw path)`, built over the manual records in
order, skipping records whose application key is not among `appKeys`,
skipping blank paths and paths normalizing to the empty string; later
records overwrite earlier ones at the same normalized path. -/
def manualByPath (nrm : String → String) (manual : List (String × List ManualItem))
    (appKeys : List String) : List (String × (String × String × String)) :=
  manual.foldl
    (fun d g =>
      if appKeys.contains g.1 then
        g.2.foldl
          (fun d it =>
            let p := pyStrip it.path
            if p = "" then d
            else
              let norm := normalizeRelatedPath nrm p
              if norm = "" then d else dictInsert norm (g.1, kindEff it.kind, p) d)
          d
      else d)
    []

/-- The keep-filter of `_apply_manual_related`'s first loop over one
application's related files: drop entries with an empty normalized path,
drop entries at a manually-owned path unless this application is the owner
and the entry's source is `"manual"`, and collapse duplicate normalized
paths (`seen`). -/
def manualKeep (nrm : String → String) (mbp : List (String × (String × String × String)))
    (appKey : String) (seen : List String) : List RelatedFile → List RelatedFile
  | [] => []
  | r :: rs =>
    let norm := normalizeRelatedPath nrm r.path
    if norm = "" then manualKeep nrm mbp appKey seen rs
    else
      match dictGet mbp norm with
      | some owner =>
          if owner.1 ≠ appKey then manualKeep nrm mbp appKey seen rs
          else if r.source ≠ "manual" then manualKeep nrm mbp appKey seen rs
          else if seen.contains norm then manualKeep nrm mbp appKey seen rs
          else r :: manualKeep nrm mbp appKey (norm :: seen) rs
      | none =>
          if seen.contains norm then manualKeep nrm mbp appKey seen rs
          else r :: manualKeep nrm mbp appKey (norm :: seen) rs

/-- Update the last element of a list satisfying `p` (Python's
`app_by_key` maps a key to the last object carrying it). -/
def updateLastBy {α : Type} (p : α → Bool) (f : α → α) (l : List α) : List α :=
  (go l.reverse).reverse
where
  go : List α → List α
    | [] => []
    | a :: as => if p a then f a :: as else a :: go as

/-- One step of `_apply_manual_related`'s second loop: for the manual record
`(norm, (appKey, kind, raw))`, append a fresh manual `RelatedFile` to the
owning application unless it already has an entry at that normalized path. -/
def manualAppend (nrm : String → String) (norm : String) (rec : String × String × String)
    (apps : List AppEntry) : List AppEntry :=
  updateLastBy (fun a => a.key = rec.1)
    (fun a =>
      if a.related_files.any (fun r => normalizeRelatedPath nrm r.path = norm) then a
      else
        { a with
          related_files := a.related_files ++
            [{ path := rec.2.2, kind := rec.2.1, source := "manual",
               confidence := "High", marked := "keep", score := 0 }] })
    apps

/-- `main_controller._apply_manual_related` as a pure function of the manual
override records and the application list. -/
def applyManualRelated (nrm : String → String) (manual : List (String × List ManualItem))
    (apps : List AppEntry) : List AppEntry :=
  if manual = [] then apps
  else
    let abk := appByKey apps
    if abk = [] then apps
    else
      let mbp := manualByPath nrm manual (dictKeys abk)
      if mbp = [] then apps
      else
        let apps2 := apps.map (fun a =>
          { a with related_files := manualKeep nrm mbp a.key [] a.related_files })
        mbp.foldl (fun acc p => manualAppend nrm p.1 p.2 acc) apps2

/-- The per-record normalized-path set of `_apply_related_ignores` /
`_apply_related_unassigned` (a Python set; only membership matters). -/
def groupNorms (nrm : String → String) (items : List String) : List String :=
  (items.filter (fun p => p ≠ "")).map (normalizeRelatedPath nrm)

/-- `main_controller._apply_related_ignores`: per application, drop entries
whose normalized path is in that application's ignore set unless the entry's
source is `"manual"`. -/
def applyRelatedIgnores (nrm : String → String) (ignore : List (String × List String))
    (apps : List AppEntry) : List AppEntry :=
  if ignore = [] then apps
  else
    let ignoreNorms := ignore.foldl
      (fun d g => let ns := groupNorms nrm g.2; if ns = [] then d else dictInsert g.1 ns d) []
    if ignoreNorms = [] then apps
    else
      apps.map (fun a =>
        match dictGet ignoreNorms a.key with
        | none => a
        | some ns =>
          { a with
            related_files := a.related_files.filter (fun r =>
              ¬(normalizeRelatedPath nrm r.path ≠ "" ∧
                ns.contains (normalizeRelatedPath nrm r.path) ∧ r.source ≠ "manual")) })

/-- `main_controller._apply_related_unassigned`: identical removal semantics
to `_apply_related_ignores`, applied from the unassignment record set. -/
def applyRelatedUnassigned (nrm : String → String) (unassigned : List (String × List String))
    (apps : List AppEntry) : List AppEntry :=
  if unassigned = [] then apps
  else
    let unassignedNorms := unassigned.foldl
      (fun d g => let ns := groupNorms nrm g.2; if ns = [] then d else dictInsert g.1 ns d) []
    if unassignedNorms = [] then apps
    else
      apps.map (fun a =>
        match dictGet unassignedNorms a.key with
        | none => a
        | some ns =>
          { a with
            related_files := a.related_files.filter (fun r =>
              ¬(normalizeRelatedPath nrm r.path ≠ "" ∧
                ns.contains (normalizeRelatedPath nrm r.path) ∧ r.source ≠ "manual")) })

/-- The `path_lookup` dict of `_apply_related_overrides`: first related file
per normalized path across all applications in order. -/
def pathLookup (nrm : String → String) (apps : List AppEntry) :
    List (String × RelatedFile) :=
  apps.foldl
    (fun d a =>
      a.related_files.foldl
        (fun d r =>
          let n := normalizeRelatedPath nrm r.path
          if n = "" then d
          else if d.any (fun p => p.1 = n) then d else d ++ [(n, r)])
        d)
    []

/-- Append `v` to the bucket of `k` (the bucket exists: `new_lists` and
`seen_by_app` are pre-initialized with every application key). -/
def bucketAppend {α : Type} (k : String) (v : α) (d : List (String × List α)) :
    List (String × List α) :=
  d.map (fun p => if p.1 = k then (p.1, p.2 ++ [v]) else p)

/-- First loop of `_apply_related_overrides`: redistribute every
application's entries into `new_lists`, skipping empty normalized paths,
entries reassigned to a different key, and per-key duplicates. -/
def overridesLoop1 (nrm : String → String) (ovr : List (String × String))
    (apps : List AppEntry)
    (st : List (String × List RelatedFile) × List (String × List String)) :
    List (String × List RelatedFile) × List (String × List String) :=
  apps.foldl
    (fun st a =>
      a.related_files.foldl
        (fun st r =>
          let n := normalizeRelatedPath nrm r.path
          if n = "" then st
          else
            match dictGet ovr n with
            | some t =>
                if t ≠ "" ∧ t ≠ a.key then st
                else if ((dictGet st.2 a.key).getD []).contains n then st
                else (bucketAppend a.key r st.1, bucketAppend a.key n st.2)
            | none =>
                if ((dictGet st.2 a.key).getD []).contains n then st
                else (bucketAppend a.key r st.1, bucketAppend a.key n st.2))
        st)
    st

/-- Second loop of `_apply_related_overrides`: attach each reassigned path's
record to its target application, if the target exists, the path was
discovered somewhere, and the target does not already hold it. -/
def overridesLoop2 (pl : List (String × RelatedFile)) (appKeys : List String)
    (ovr : List (String × String))
    (st : List (String × List RelatedFile) × List (String × List String)) :
    List (String × List RelatedFile) × List (String × List String) :=
  ovr.foldl
    (fun st p =>
      if appKeys.contains p.2 then
        match dictGet pl p.1 with
        | some r =>
            if ((dictGet st.2 p.2).getD []).contains p.1 then st
            else (bucketAppend p.2 r st.1, bucketAppend p.2 p.1 st.2)
        | none => st
      else st)
    st

/-- `main_controller._apply_related_overrides` as a pure function of the
reassignment records (`related_overrides : Dict[norm, target_key]`). -/
def applyRelatedOverrides (nrm : String → String) (ovr : List (String × String))
    (apps : List AppEntry) : List AppEntry :=
  if ovr = [] then apps
  else
    let abk := appByKey apps
    if abk = [] then apps
    else
      let pl := pathLookup nrm apps
      let init : List (String × List RelatedFile) × List (String × List String) :=
        ((dictKeys abk).map (fun k => (k, [])), (dictKeys abk).map (fun k => (k, [])))
      let st := overridesLoop2 pl (dictKeys abk) ovr (overridesLoop1 nrm ovr apps init)
      apps.map (fun a => { a with related_files := (dictGet st.1 a.key).getD [] })

/-- The override compositor as invoked by `_apply_scan_results` (lines
572–575), `on_related_add_files` (1578–1581) and every other
re-materialization site: manual layer, then reassignments, then ignores,
then unassignments. -/
def applyScanPipeline (nrm : String → String)
    (manual : List (String × List ManualItem)) (ovr : List (String × String))
    (ignore unassigned : List (String × List String))
    (apps : List AppEntry) : List AppEntry :=
  applyRelatedUnassigned nrm unassigned
    (applyRelatedIgnores nrm ignore
      (applyRelatedOverrides nrm ovr
        (applyManualRelated nrm manual apps)))

/-! ### Association-list (Python dict) lemmas -/

theorem dictInsert_ne_nil {α : Type} (k : String) (v : α) (d : List (String × α)) :
    dictInsert k v d ≠ [] := by
  unfold dictInsert
  split
  · rename_i h
    intro hmap
    rw [List.map_eq_nil_iff] at hmap
    subst hmap
    simp at h
  · simp

theorem dictKeys_dictInsert_of_mem {α : Type} {k : String} {d : List (String × α)}
    (h : d.any (fun p => p.1 = k)) (v : α) :
    dictKeys (dictInsert k v d) = dictKeys d := by
  unfold dictInsert
  rw [if_pos h]
  unfold dictKeys
  rw [List.map_map]
  apply List.map_congr_left
  intro p _
  by_cases hp : p.1 = k
  · simp [hp]
  · simp [hp]

theorem dictKeys_dictInsert_of_not_mem {α : Type} {k : String} {d : List (String × α)}
    (h : ¬ d.any (fun p => p.1 = k)) (v : α) :
    dictKeys (dictInsert k v d) = dictKeys d ++ [k] := by
  unfold dictInsert
  rw [if_neg h]
  simp [dictKeys]

theorem mem_dictKeys_dictInsert {α : Type} {K k : String} {v : α} {d : List (String × α)} :
    K ∈ dictKeys (dictInsert k v d) ↔ K = k ∨ K ∈ dictKeys d := by
  by_cases h : d.any (fun p => p.1 = k)
  · rw [dictKeys_dictInsert_of_mem h]
    constructor
    · exact Or.inr
    · rintro (rfl | hk)
      · simp only [List.any_eq_true, decide_eq_true_eq] at h
        obtain ⟨p, hp, hpk⟩ := h
        exact hpk ▸ List.mem_map_of_mem _ hp
      · exact hk
  · rw [dictKeys_dictInsert_of_not_mem h]
    simp [or_comm]

theorem dictGet_dictInsert_self {α : Type} (k : String) (v : α) (d : List (String × α)) :
    dictGet (dictInsert k v d) k = some v := by
  unfold dictInsert
  split
  · rename_i h
    induction d with
    | nil => simp at h
    | cons p d ih =>
        by_cases hp : p.1 = k
        · simp [dictGet, List.find?, hp]
        · simp only [List.any_cons, Bool.or_eq_true, decide_eq_true_eq] at h
          rcases h with h | h
          · exact absurd h hp
          · simp only [List.map_cons, if_neg hp]
            rw [dictGet] at ih ⊢
            simp only [List.find?]
            have : (decide (p.1 = k)) = false := by simp [hp]
            rw [this]
            exact ih h
  · induction d with
    | nil => simp [dictGet, List.find?]
    | cons p d ih =>
        rename_i h
        simp only [List.any_cons, Bool.or_eq_true, decide_eq_true_eq, not_or] at h
        simp only [List.cons_append]
        rw [dictGet] at ih ⊢
        simp only [List.find?]
        have : (decide (p.1 = k)) = false := by simp [h.1]
        rw [this]
        exact ih (by simpa using h.2)

theorem dictGet_map_overwrite {α : Type} {k k' : String} (hne : k' ≠ k) (v : α)
    (d : List (String × α)) :
    dictGet (d.map (fun p => if p.1 = k then (k, v) else p)) k' = dictGet d k' := by
  induction d with
  | nil => simp [dictGet]
  | cons p d ih =>
      by_cases hp : p.1 = k
      · simp only [List.map_cons, if_pos hp]
        rw [dictGet, dictGet]
        simp only [List.find?]
        have h1 : (decide (k = k')) = false := by simp [Ne.symm hne]
        have h2 : (decide (p.1 = k')) = false := by simp [hp ▸ Ne.symm hne]
        rw [h1, h2]
        exact ih
      · simp only [List.map_cons, if_neg hp]
        rw [dictGet, dictGet]
        simp only [List.find?]
        by_cases hp' : p.1 = k'
        · simp [hp']
        · have h2 : (decide (p.1 = k')) = false := by simp [hp']
          rw [h2]
          exact ih

theorem dictGet_dictInsert_ne {α : Type} {k k' : String} (hne : k' ≠ k) (v : α)
    (d : List (String × α)) :
    dictGet (dictInsert k v d) k' = dictGet d k' := by
  unfold dictInsert
  split
  · exact dictGet_map_overwrite hne v d
  · rw [dictGet, dictGet, List.find?_append]
    have : List.find? (fun p => p.1 = k') [(k, v)] = none := by
      simp [List.find?, hne.symm]
    rw [this]
    cases List.find? (fun p => p.1 = k') d <;> simp

theorem dictGet_eq_none_iff {α : Type} {d : List (String × α)} {k : String} :
    dictGet d k = none ↔ k ∉ dictKeys d := by
  rw [dictGet, Option.map_eq_none', List.find?_eq_none]
  constructor
  · intro h hk
    simp only [dictKeys, List.mem_map] at hk
    obtain ⟨p, hp, hpk⟩ := hk
    exact absurd (by simp [hpk]) (h p hp)
  · intro h p hp
    simp only [decide_eq_true_eq]
    intro hpk
    exact h (by simpa only [dictKeys, List.mem_map] using ⟨p, hp, hpk⟩)

theorem mem_of_dictGet {α : Type} {d : List (String × α)} {k : String} {v : α}
    (h : dictGet d k = some v) : (k, v) ∈ d := by
  rw [dictGet, Option.map_eq_some'] at h
  obtain ⟨p, hp, hpv⟩ := h
  have hmem := List.mem_of_find?_eq_some hp
  have hkey := List.find?_some hp
  simp only [decide_eq_true_eq] at hkey
  have : p = (k, v) := by
    cases p
    simp only at hpv hkey
    simp [hkey, hpv]
  exact this ▸ hmem

theorem dictGet_isSome_of_mem {α : Type} {d : List (String × α)} {k : String} {v : α}
    (h : (k, v) ∈ d) : (dictGet d k).isSome := by
  induction d with
  | nil => simp at h
  | cons p d ih =>
      rw [dictGet]
      simp only [List.find?]
      by_cases hp : p.1 = k
      · simp [hp]
      · have : (decide (p.1 = k)) = false := by simp [hp]
        rw [this]
        rcases List.mem_cons.mp h with rfl | h
        · simp at hp
        · exact ih h

theorem dictGet_of_mem_nodup {α : Type} {d : List (String × α)} {k : String} {v : α}
    (h : (k, v) ∈ d) (hnd : (dictKeys d).Nodup) : dictGet d k = some v := by
  induction d with
  | nil => simp at h
  | cons p d ih =>
      simp only [dictKeys, List.map_cons, List.nodup_cons] at hnd
      rw [dictGet]
      simp only [List.find?]
      rcases List.mem_cons.mp h with rfl | h
      · simp
      · have hp : p.1 ≠ k := by
          intro hk
          exact hnd.1 (hk ▸ (by simpa only [dictKeys, List.mem_map] using ⟨(k, v), h, rfl⟩))
        have : (decide (p.1 = k)) = false := by simp [hp]
        rw [this]
        exact ih h hnd.2

theorem dictKeys_nodup_dictInsert {α : Type} {d : List (String × α)}
    (hnd : (dictKeys d).Nodup) (k : String) (v : α) :
    (dictKeys (dictInsert k v d)).Nodup := by
  by_cases h : d.any (fun p => p.1 = k)
  · rw [dictKeys_dictInsert_of_mem h]
    exact hnd
  · rw [dictKeys_dictInsert_of_not_mem h]
    rw [List.nodup_append]
    refine ⟨hnd, List.nodup_singleton _, ?_⟩
    intro x hx hx1
    simp only [List.mem_singleton] at hx1
    subst hx1
    simp only [List.any_eq_true, decide_eq_true_eq] at h
    simp only [dictKeys, List.mem_map] at hx
    obtain ⟨p, hp, hpk⟩ := hx
    exact h ⟨p, hp, hpk⟩

theorem appByKey_ne_nil {apps : List AppEntry} (h : apps ≠ []) : appByKey apps ≠ [] := by
  unfold appByKey
  cases apps with
  | nil => exact absurd rfl h
  | cons a as =>
      rw [List.foldl_cons]
      have : ∀ (l : List AppEntry) (d : List (String × AppEntry)), d ≠ [] →
          l.foldl (fun d a => dictInsert a.key a d) d ≠ [] := by
        intro l
        induction l with
        | nil => intro d hd; exact hd
        | cons b bs ih =>
            intro d _
            rw [List.foldl_cons]
            exact ih _ (dictInsert_ne_nil _ _ _)
      exact this as _ (dictInsert_ne_nil _ _ _)

theorem mem_dictKeys_appByKey {apps : List AppEntry} {K : String} :
    K ∈ dictKeys (appByKey apps) ↔ ∃ a ∈ apps, a.key = K := by
  unfold appByKey
  have : ∀ (l : List AppEntry) (d : List (String × AppEntry)),
      (K ∈ dictKeys (l.foldl (fun d a => dictInsert a.key a d) d) ↔
        K ∈ dictKeys d ∨ ∃ a ∈ l, a.key = K) := by
    intro l
    induction l with
    | nil => simp
    | cons b bs ih =>
        intro d
        rw [List.foldl_cons, ih]
        rw [mem_dictKeys_dictInsert]
        constructor
        · rintro ((rfl | h) | h)
          · exact Or.inr ⟨b, List.mem_cons_self _ _, rfl⟩
          · exact Or.inl h
          · obtain ⟨a, ha, hk⟩ := h
            exact Or.inr ⟨a, List.mem_cons_of_mem _ ha, hk⟩
        · rintro (h | ⟨a, ha, hk⟩)
          · exact Or.inl (Or.inr h)
          · rcases List.mem_cons.mp ha with rfl | ha
            · exact Or.inl (Or.inl hk.symm)
            · exact Or.inr ⟨a, ha, hk⟩
  rw [this]
  simp [dictKeys]

/-! ### Normalized-path views and basic facts -/

/-- The normalized path of one related-file record. -/
def normOf (nrm : String → String) (r : RelatedFile) : String :=
  normalizeRelatedPath nrm r.path

/-- The normalized paths of an application's related files. -/
def normsOf (nrm : String → String) (a : AppEntry) : List String :=
  a.related_files.map (normOf nrm)

theorem key_set_related (a : AppEntry) (l : List RelatedFile) :
    ({ a with related_files := l } : AppEntry).key = a.key := rfl

theorem key_ne_empty (a : AppEntry) : a.key ≠ "" := by
  intro h
  have h2 : a.key.length = 0 := by rw [h]; rfl
  unfold AppEntry.key at h2
  simp only [String.length_append] at h2
  have h3 : "|".length = 1 := rfl
  omega

theorem foldl_induction {α β : Type} (f : α → β → α) (P : α → Prop)
    (hf : ∀ a b, P a → P (f a b)) :
    ∀ (l : List β) (a : α), P a → P (l.foldl f a) := by
  intro l
  induction l with
  | nil => intro a ha; exact ha
  | cons b bs ih => intro a ha; exact ih _ (hf a b ha)

theorem mem_dictInsert {α : Type} {k : String} {v : α} {d : List (String × α)} {x : String × α}
    (hx : x ∈ dictInsert k v d) : x = (k, v) ∨ x ∈ d := by
  unfold dictInsert at hx
  split at hx
  · rcases List.mem_map.mp hx with ⟨p, hp, hpx⟩
    by_cases hk : p.1 = k
    · rw [if_pos hk] at hpx
      exact Or.inl hpx.symm
    · rw [if_neg hk] at hpx
      exact Or.inr (hpx ▸ hp)
  · rcases List.mem_append.mp hx with h | h
    · exact Or.inr h
    · simp only [List.mem_singleton] at h
      exact Or.inl h

theorem any_key_eq_contains {α : Type} (d : List (String × α)) (k : String) :
    d.any (fun p => p.1 = k) = (dictKeys d).contains k := by
  induction d with
  | nil => rfl
  | cons p d ih =>
      simp only [List.any_cons, dictKeys, List.map_cons, List.contains_cons] at *
      rw [ih]
      congr 1
      by_cases h : p.1 = k
      · have h1 : (decide (p.1 = k)) = true := by simp [h]
        have h2 : (k == p.1) = true := by simp [beq_iff_eq, h]
        rw [h1, h2]
      · have h1 : (decide (p.1 = k)) = false := by simp [h]
        have h2 : (k == p.1) = false := by
          simp only [beq_eq_false_iff_ne, ne_eq]
          exact fun hh => h hh.symm
        rw [h1, h2]

/-- `dictKeys` of an insert, as an `insKey` step. -/
def insKey (k : String) (ks : List String) : List String :=
  if ks.contains k then ks else ks ++ [k]

theorem dictKeys_dictInsert_eq_insKey {α : Type} (k : String) (v : α) (d : List (String × α)) :
    dictKeys (dictInsert k v d) = insKey k (dictKeys d) := by
  unfold insKey
  by_cases h : d.any (fun p => p.1 = k)
  · rw [dictKeys_dictInsert_of_mem h, if_pos (by rw [← any_key_eq_contains]; exact h)]
  · rw [dictKeys_dictInsert_of_not_mem h, if_neg (by rw [← any_key_eq_contains]; simpa using h)]

theorem dictKeys_appByKey_eq (apps : List AppEntry) :
    dictKeys (appByKey apps) = (apps.map AppEntry.key).foldl (fun ks k => insKey k ks) [] := by
  suffices h : ∀ (l : List AppEntry) (d : List (String × AppEntry)),
      dictKeys (l.foldl (fun d a => dictInsert a.key a d) d) =
        (l.map AppEntry.key).foldl (fun ks k => insKey k ks) (dictKeys d) by
    exact h apps []
  intro l
  induction l with
  | nil => intro d; rfl
  | cons a as ih =>
      intro d
      rw [List.foldl_cons, List.map_cons, List.foldl_cons, ih, dictKeys_dictInsert_eq_insKey]

theorem dictKeys_appByKey_congr {apps apps' : List AppEntry}
    (h : apps.map AppEntry.key = apps'.map AppEntry.key) :
    dictKeys (appByKey apps) = dictKeys (appByKey apps') := by
  rw [dictKeys_appByKey_eq, dictKeys_appByKey_eq, h]

/-! ### The ignore/unassign layers as per-application filters -/

/-- The effective per-application record dict of `_apply_related_ignores` /
`_apply_related_unassigned`. -/
def removeDict (nrm : String → String) (g : List (String × List String)) :
    List (String × List String) :=
  g.foldl
    (fun d grp => let ns := groupNorms nrm grp.2; if ns = [] then d else dictInsert grp.1 ns d) []

/-- The per-application action of a removal layer. -/
def removeApp (nrm : String → String) (d : List (String × List String)) (a : AppEntry) :
    AppEntry :=
  match dictGet d a.key with
  | none => a
  | some ns =>
    { a with
      related_files := a.related_files.filter (fun r =>
        ¬(normalizeRelatedPath nrm r.path ≠ "" ∧
          ns.contains (normalizeRelatedPath nrm r.path) ∧ r.source ≠ "manual")) }

theorem removeApp_of_none {nrm : String → String} {d : List (String × List String)}
    {a : AppEntry} (h : dictGet d a.key = none) : removeApp nrm d a = a := by
  unfold removeApp
  rw [h]

theorem removeApp_of_some (nrm : String → String) {d : List (String × List String)}
    {a : AppEntry} {ns : List String} (h : dictGet d a.key = some ns) :
    removeApp nrm d a =
      { a with
        related_files := a.related_files.filter (fun r =>
          ¬(normalizeRelatedPath nrm r.path ≠ "" ∧
            ns.contains (normalizeRelatedPath nrm r.path) ∧ r.source ≠ "manual")) } := by
  unfold removeApp
  rw [h]

theorem removeApp_key (nrm : String → String) (d : List (String × List String)) (a : AppEntry) :
    (removeApp nrm d a).key = a.key := by
  unfold removeApp
  cases dictGet d a.key <;> rfl

theorem map_removeApp_nil (nrm : String → String) (apps : List AppEntry) :
    apps.map (removeApp nrm []) = apps := by
  have h : ∀ a, removeApp nrm [] a = a := fun a => removeApp_of_none rfl
  rw [List.map_congr_left (fun a _ => (h a : removeApp nrm [] a = id a))]
  exact List.map_id apps

theorem applyRelatedIgnores_eq_map (nrm : String → String)
    (g : List (String × List String)) (apps : List AppEntry) :
    applyRelatedIgnores nrm g apps = apps.map (removeApp nrm (removeDict nrm g)) := by
  unfold applyRelatedIgnores
  by_cases hg : g = []
  · rw [if_pos hg, hg]
    unfold removeDict
    rw [List.foldl_nil, map_removeApp_nil]
  · rw [if_neg hg]
    by_cases hd : removeDict nrm g = []
    · rw [show g.foldl (fun d grp => let ns := groupNorms nrm grp.2; if ns = [] then d else dictInsert grp.1 ns d) [] = removeDict nrm g from rfl, if_pos hd, hd, map_removeApp_nil]
    · rw [show g.foldl (fun d grp => let ns := groupNorms nrm grp.2; if ns = [] then d else dictInsert grp.1 ns d) [] = removeDict nrm g from rfl, if_neg hd]
      rfl

theorem applyRelatedUnassigned_eq_map (nrm : String → String)
    (g : List (String × List String)) (apps : List AppEntry) :
    applyRelatedUnassigned nrm g apps = apps.map (removeApp nrm (removeDict nrm g)) := by
  unfold applyRelatedUnassigned
  by_cases hg : g = []
  · rw [if_pos hg, hg]
    unfold removeDict
    rw [List.foldl_nil, map_removeApp_nil]
  · rw [if_neg hg]
    by_cases hd : removeDict nrm g = []
    · rw [show g.foldl (fun d grp => let ns := groupNorms nrm grp.2; if ns = [] then d else dictInsert grp.1 ns d) [] = removeDict nrm g from rfl, if_pos hd, hd, map_removeApp_nil]
    · rw [show g.foldl (fun d grp => let ns := groupNorms nrm grp.2; if ns = [] then d else dictInsert grp.1 ns d) [] = removeDict nrm g from rfl, if_neg hd]
      rfl

theorem removeApp_idem (nrm : String → String) (d : List (String × List String)) (a : AppEntry) :
    removeApp nrm d (removeApp nrm d a) = removeApp nrm d a := by
  cases h : dictGet d a.key with
  | none => rw [removeApp_of_none h, removeApp_of_none h]
  | some ns =>
      rw [removeApp_of_some nrm h]
      rw [removeApp_of_some nrm (by rw [key_set_related]; exact h)]
      simp only
      congr 1
      rw [List.filter_filter]
      apply List.filter_congr
      intro r _
      simp

theorem removeApp_comm (nrm : String → String) (d₁ d₂ : List (String × List String))
    (a : AppEntry) :
    removeApp nrm d₁ (removeApp nrm d₂ a) = removeApp nrm d₂ (removeApp nrm d₁ a) := by
  cases h1 : dictGet d₁ a.key with
  | none =>
      have e1 : removeApp nrm d₁ a = a := removeApp_of_none h1
      cases h2 : dictGet d₂ a.key with
      | none =>
          have e2 : removeApp nrm d₂ a = a := removeApp_of_none h2
          rw [e2, e1, e2]
      | some ns₂ =>
          rw [e1, removeApp_of_some nrm h2]
          exact removeApp_of_none (by rw [key_set_related]; exact h1)
  | some ns₁ =>
      have e1 := removeApp_of_some nrm h1
      cases h2 : dictGet d₂ a.key with
      | none =>
          have e2 : removeApp nrm d₂ a = a := removeApp_of_none h2
          rw [e2, e1]
          exact (removeApp_of_none (by rw [key_set_related]; exact h2)).symm
      | some ns₂ =>
          have e2 := removeApp_of_some nrm h2
          rw [e1, e2]
          rw [removeApp_of_some nrm (by rw [key_set_related]; exact h1)]
          rw [removeApp_of_some nrm (by rw [key_set_related]; exact h2)]
          simp only
          congr 1
          rw [List.filter_filter, List.filter_filter]
          apply List.filter_congr
          intro r _
          rw [Bool.and_comm]

/-! ### `updateLastBy` and the last element satisfying a predicate -/

/-- The last element of `l` satisfying `p` (the object Python's
`app_by_key` dict maps the key to). -/
def lastWith {α : Type} (p : α → Bool) (l : List α) : Option α := l.reverse.find? p

theorem go_of_find?_none {α : Type} {p : α → Bool} {f : α → α} {l : List α}
    (h : l.find? p = none) : updateLastBy.go p f l = l := by
  induction l with
  | nil => rfl
  | cons a as ih =>
      rw [List.find?_cons] at h
      rcases hpa : p a with _ | _
      · rw [hpa] at h
        rw [updateLastBy.go, if_neg (by simp [hpa])]
        rw [ih h]
      · rw [hpa] at h
        simp at h

theorem go_of_find?_some {α : Type} {p : α → Bool} (f : α → α) {l : List α} {a : α}
    (h : l.find? p = some a) :
    ∃ l₁ l₂, l = l₁ ++ a :: l₂ ∧ (∀ b ∈ l₁, p b = false) ∧
      updateLastBy.go p f l = l₁ ++ f a :: l₂ := by
  induction l with
  | nil => simp at h
  | cons x xs ih =>
      rw [List.find?_cons] at h
      rcases hpx : p x with _ | _
      · rw [hpx] at h
        simp only at h
        obtain ⟨l₁, l₂, hdec, hl₁, hgo⟩ := ih h
        refine ⟨x :: l₁, l₂, by rw [hdec]; rfl, ?_, ?_⟩
        · intro b hb
          rcases List.mem_cons.mp hb with rfl | hb
          · exact hpx
          · exact hl₁ b hb
        · rw [updateLastBy.go, if_neg (by simp [hpx]), hgo]
          rfl
      · rw [hpx] at h
        simp only [Option.some_inj] at h
        subst h
        refine ⟨[], xs, rfl, by simp, ?_⟩
        rw [updateLastBy.go, if_pos hpx]
        rfl

theorem updateLastBy_of_none {α : Type} {p : α → Bool} (f : α → α) {l : List α}
    (h : lastWith p l = none) : updateLastBy p f l = l := by
  unfold updateLastBy
  rw [go_of_find?_none h, List.reverse_reverse]

theorem updateLastBy_of_some {α : Type} {p : α → Bool} (f : α → α) {l : List α} {a : α}
    (h : lastWith p l = some a) :
    ∃ l₁ l₂, l = l₁ ++ a :: l₂ ∧ (∀ b ∈ l₂, p b = false) ∧
      updateLastBy p f l = l₁ ++ f a :: l₂ := by
  obtain ⟨m₁, m₂, hdec, hm₁, hgo⟩ := go_of_find?_some f h
  refine ⟨m₂.reverse, m₁.reverse, ?_, ?_, ?_⟩
  · have : l.reverse.reverse = (m₁ ++ a :: m₂).reverse := by rw [hdec]
    rw [List.reverse_reverse] at this
    rw [this]
    simp
  · intro b hb
    exact hm₁ b (List.mem_reverse.mp hb)
  · unfold updateLastBy
    rw [hgo]
    simp

theorem lastWith_mem {α : Type} {p : α → Bool} {l : List α} {a : α}
    (h : lastWith p l = some a) : a ∈ l ∧ p a = true :=
  ⟨List.mem_reverse.mp (List.mem_of_find?_eq_some h), List.find?_some h⟩

theorem lastWith_isSome {α : Type} {p : α → Bool} {l : List α}
    (h : ∃ a ∈ l, p a = true) : (lastWith p l).isSome := by
  unfold lastWith
  rw [List.find?_isSome]
  obtain ⟨a, ha, hpa⟩ := h
  exact ⟨a, List.mem_reverse.mpr ha, hpa⟩

theorem lastWith_map_key {k : String} {g : AppEntry → AppEntry}
    (hg : ∀ a, (g a).key = a.key) (apps : List AppEntry) :
    lastWith (fun x => x.key = k) (apps.map g) =
      (lastWith (fun x => x.key = k) apps).map g := by
  unfold lastWith
  rw [← List.map_reverse, List.find?_map]
  congr 1
  have hfun : ((fun x : AppEntry => decide (x.key = k)) ∘ g) =
      (fun x : AppEntry => decide (x.key = k)) := by
    funext a
    simp only [Function.comp_apply, hg a]
  rw [hfun]

/-! ### `manualKeep` (phase one of the manual layer) -/

theorem manualKeep_sublist (nrm : String → String)
    (mbp : List (String × (String × String × String))) (k : String) :
    ∀ (l : List RelatedFile) (seen : List String),
      List.Sublist (manualKeep nrm mbp k seen l) l := by
  intro l
  induction l with
  | nil => intro seen; exact List.Sublist.refl _
  | cons r rs ih =>
      intro seen
      rw [manualKeep]
      by_cases hn : normalizeRelatedPath nrm r.path = ""
      · rw [if_pos hn]
        exact (ih seen).cons r
      · rw [if_neg hn]
        cases hm : dictGet mbp (normalizeRelatedPath nrm r.path) with
        | some owner =>
            dsimp only
            by_cases h1 : owner.1 ≠ k
            · rw [if_pos h1]; exact (ih seen).cons r
            · rw [if_neg h1]
              by_cases h2 : r.source ≠ "manual"
              · rw [if_pos h2]; exact (ih seen).cons r
              · rw [if_neg h2]
                by_cases h3 : seen.contains (normalizeRelatedPath nrm r.path)
                · rw [if_pos h3]; exact (ih seen).cons r
                · rw [if_neg h3]; exact (ih _).cons₂ r
        | none =>
            dsimp only
            by_cases h3 : seen.contains (normalizeRelatedPath nrm r.path)
            · rw [if_pos h3]; exact (ih seen).cons r
            · rw [if_neg h3]; exact (ih _).cons₂ r

theorem manualKeep_mem (nrm : String → String)
    (mbp : List (String × (String × String × String))) (k : String) :
    ∀ (l : List RelatedFile) (seen : List String) (r : RelatedFile),
      r ∈ manualKeep nrm mbp k seen l →
        r ∈ l ∧ normOf nrm r ≠ "" ∧ ¬ seen.contains (normOf nrm r) ∧
          (∀ rec, dictGet mbp (normOf nrm r) = some rec → rec.1 = k ∧ r.source = "manual") := by
  intro l
  induction l with
  | nil => intro seen r hr; rw [manualKeep] at hr; simp at hr
  | cons x xs ih =>
      intro seen r hr
      rw [manualKeep] at hr
      by_cases hn : normalizeRelatedPath nrm x.path = ""
      · rw [if_pos hn] at hr
        obtain ⟨h1, h2, h3, h4⟩ := ih seen r hr
        exact ⟨List.mem_cons_of_mem _ h1, h2, h3, h4⟩
      · rw [if_neg hn] at hr
        cases hm : dictGet mbp (normalizeRelatedPath nrm x.path) with
        | some owner =>
            rw [hm] at hr
            dsimp only at hr
            by_cases h1 : owner.1 ≠ k
            · rw [if_pos h1] at hr
              obtain ⟨ha, hb, hc, hd⟩ := ih seen r hr
              exact ⟨List.mem_cons_of_mem _ ha, hb, hc, hd⟩
            · rw [if_neg h1] at hr
              by_cases h2 : x.source ≠ "manual"
              · rw [if_pos h2] at hr
                obtain ⟨ha, hb, hc, hd⟩ := ih seen r hr
                exact ⟨List.mem_cons_of_mem _ ha, hb, hc, hd⟩
              · rw [if_neg h2] at hr
                by_cases h3 : seen.contains (normalizeRelatedPath nrm x.path)
                · rw [if_pos h3] at hr
                  obtain ⟨ha, hb, hc, hd⟩ := ih seen r hr
                  exact ⟨List.mem_cons_of_mem _ ha, hb, hc, hd⟩
                · rw [if_neg h3] at hr
                  rcases List.mem_cons.mp hr with rfl | hr
                  · push_neg at h1 h2
                    refine ⟨List.mem_cons_self _ _, hn, h3, ?_⟩
                    intro rec hrec
                    rw [show normOf nrm r = normalizeRelatedPath nrm r.path from rfl] at hrec
                    rw [hrec] at hm
                    cases hm
                    exact ⟨h1, h2⟩
                  · obtain ⟨ha, hb, hc, hd⟩ := ih _ r hr
                    have hc' : ¬ seen.contains (normOf nrm r) := by
                      intro hcon
                      exact hc (by
                        simp only [List.contains_cons, Bool.or_eq_true]
                        exact Or.inr hcon)
                    exact ⟨List.mem_cons_of_mem _ ha, hb, hc', hd⟩
        | none =>
            rw [hm] at hr
            dsimp only at hr
            by_cases h3 : seen.contains (normalizeRelatedPath nrm x.path)
            · rw [if_pos h3] at hr
              obtain ⟨ha, hb, hc, hd⟩ := ih seen r hr
              exact ⟨List.mem_cons_of_mem _ ha, hb, hc, hd⟩
            · rw [if_neg h3] at hr
              rcases List.mem_cons.mp hr with rfl | hr
              · refine ⟨List.mem_cons_self _ _, hn, h3, ?_⟩
                intro rec hrec
                rw [show normOf nrm r = normalizeRelatedPath nrm r.path from rfl] at hrec
                rw [hrec] at hm
                cases hm
              · obtain ⟨ha, hb, hc, hd⟩ := ih _ r hr
                have hc' : ¬ seen.contains (normOf nrm r) := by
                  intro hcon
                  exact hc (by
                    simp only [List.contains_cons, Bool.or_eq_true]
                    exact Or.inr hcon)
                exact ⟨List.mem_cons_of_mem _ ha, hb, hc', hd⟩

theorem manualKeep_nodup (nrm : String → String)
    (mbp : List (String × (String × String × String))) (k : String) :
    ∀ (l : List RelatedFile) (seen : List String),
      ((manualKeep nrm mbp k seen l).map (normOf nrm)).Nodup := by
  intro l
  induction l with
  | nil => intro seen; rw [manualKeep]; simp
  | cons x xs ih =>
      intro seen
      rw [manualKeep]
      by_cases hn : normalizeRelatedPath nrm x.path = ""
      · rw [if_pos hn]; exact ih seen
      · rw [if_neg hn]
        cases hm : dictGet mbp (normalizeRelatedPath nrm x.path) with
        | some owner =>
            dsimp only
            by_cases h1 : owner.1 ≠ k
            · rw [if_pos h1]; exact ih seen
            · rw [if_neg h1]
              by_cases h2 : x.source ≠ "manual"
              · rw [if_pos h2]; exact ih seen
              · rw [if_neg h2]
                by_cases h3 : seen.contains (normalizeRelatedPath nrm x.path)
                · rw [if_pos h3]; exact ih seen
                · rw [if_neg h3]
                  rw [List.map_cons, List.nodup_cons]
                  refine ⟨?_, ih _⟩
                  intro hcon
                  rcases List.mem_map.mp hcon with ⟨r, hr, hnr⟩
                  have := (manualKeep_mem nrm mbp k xs _ r hr).2.2.1
                  rw [hnr] at this
                  exact this (by
                    simp only [List.contains_cons, Bool.or_eq_true]
                    exact Or.inl (by simp [show normOf nrm x = normalizeRelatedPath nrm x.path from rfl]))
        | none =>
            dsimp only
            by_cases h3 : seen.contains (normalizeRelatedPath nrm x.path)
            · rw [if_pos h3]; exact ih seen
            · rw [if_neg h3]
              rw [List.map_cons, List.nodup_cons]
              refine ⟨?_, ih _⟩
              intro hcon
              rcases List.mem_map.mp hcon with ⟨r, hr, hnr⟩
              have := (manualKeep_mem nrm mbp k xs _ r hr).2.2.1
              rw [hnr] at this
              exact this (by
                simp only [List.contains_cons, Bool.or_eq_true]
                exact Or.inl (by simp [show normOf nrm x = normalizeRelatedPath nrm x.path from rfl]))

theorem manualKeep_fix (nrm : String → String)
    (mbp : List (String × (String × String × String))) (k : String) :
    ∀ (l : List RelatedFile) (seen : List String),
      (∀ r ∈ l, normOf nrm r ≠ "" ∧ ¬ seen.contains (normOf nrm r) ∧
        (∀ rec, dictGet mbp (normOf nrm r) = some rec → rec.1 = k ∧ r.source = "manual")) →
      (l.map (normOf nrm)).Nodup →
      manualKeep nrm mbp k seen l = l := by
  intro l
  induction l with
  | nil => intro seen _ _; rfl
  | cons x xs ih =>
      intro seen hall hnodup
      obtain ⟨hn, hseen, howner⟩ := hall x (List.mem_cons_self _ _)
      rw [List.map_cons, List.nodup_cons] at hnodup
      rw [manualKeep]
      rw [if_neg (show ¬ normalizeRelatedPath nrm x.path = "" from hn)]
      have hrest : ∀ r ∈ xs, normOf nrm r ≠ "" ∧
          ¬ (normOf nrm x :: seen).contains (normOf nrm r) ∧
          (∀ rec, dictGet mbp (normOf nrm r) = some rec → rec.1 = k ∧ r.source = "manual") := by
        intro r hr
        obtain ⟨ha, hb, hc⟩ := hall r (List.mem_cons_of_mem _ hr)
        refine ⟨ha, ?_, hc⟩
        intro hcon
        simp only [List.contains_cons, Bool.or_eq_true] at hcon
        rcases hcon with hcon | hcon
        · rw [beq_iff_eq] at hcon
          exact hnodup.1 (hcon ▸ List.mem_map_of_mem _ hr)
        · exact hb hcon
      cases hm : dictGet mbp (normalizeRelatedPath nrm x.path) with
      | some owner =>
          obtain ⟨ho1, ho2⟩ := howner owner hm
          dsimp only
          rw [if_neg (by simp [ho1]), if_neg (by simp [ho2]),
            if_neg (show ¬ seen.contains (normalizeRelatedPath nrm x.path) = true from hseen)]
          exact congrArg (List.cons x) (ih _ hrest hnodup.2)
      | none =>
          dsimp only
          rw [if_neg (show ¬ seen.contains (normalizeRelatedPath nrm x.path) = true from hseen)]
          exact congrArg (List.cons x) (ih _ hrest hnodup.2)

/-! ### The reassignment layer: step views and state lemmas -/

/-- The state threaded through `_apply_related_overrides`:
(`new_lists`, `seen_by_app`). -/
def OvState : Type := List (String × List RelatedFile) × List (String × List String)

/-- One file step of the first loop of `_apply_related_overrides`, for the
application key `K`. -/
def ovStep (nrm : String → String) (ovr : List (String × String)) (K : String)
    (st : List (String × List RelatedFile) × List (String × List String)) (r : RelatedFile) :
    List (String × List RelatedFile) × List (String × List String) :=
  let n := normalizeRelatedPath nrm r.path
  if n = "" then st
  else
    match dictGet ovr n with
    | some t =>
        if t ≠ "" ∧ t ≠ K then st
        else if ((dictGet st.2 K).getD []).contains n then st
        else (bucketAppend K r st.1, bucketAppend K n st.2)
    | none =>
        if ((dictGet st.2 K).getD []).contains n then st
        else (bucketAppend K r st.1, bucketAppend K n st.2)

theorem overridesLoop1_eq (nrm : String → String) (ovr : List (String × String))
    (apps : List AppEntry)
    (st : List (String × List RelatedFile) × List (String × List String)) :
    overridesLoop1 nrm ovr apps st =
      apps.foldl (fun st a => a.related_files.foldl (ovStep nrm ovr a.key) st) st := rfl

/-- One override step of the second loop of `_apply_related_overrides`. -/
def ovStep2 (pl : List (String × RelatedFile)) (appKeys : List String)
    (st : List (String × List RelatedFile) × List (String × List String))
    (p : String × String) :
    List (String × List RelatedFile) × List (String × List String) :=
  if appKeys.contains p.2 then
    match dictGet pl p.1 with
    | some r =>
        if ((dictGet st.2 p.2).getD []).contains p.1 then st
        else (bucketAppend p.2 r st.1, bucketAppend p.2 p.1 st.2)
    | none => st
  else st

theorem overridesLoop2_eq (pl : List (String × RelatedFile)) (appKeys : List String)
    (ovr : List (String × String))
    (st : List (String × List RelatedFile) × List (String × List String)) :
    overridesLoop2 pl appKeys ovr st = ovr.foldl (ovStep2 pl appKeys) st := rfl

/-- One file step of the `path_lookup` construction. -/
def pathStep (nrm : String → String) (d : List (String × RelatedFile)) (r : RelatedFile) :
    List (String × RelatedFile) :=
  let n := normalizeRelatedPath nrm r.path
  if n = "" then d
  else if d.any (fun p => p.1 = n) then d else d ++ [(n, r)]

theorem pathLookup_eq (nrm : String → String) (apps : List AppEntry) :
    pathLookup nrm apps = apps.foldl (fun d a => a.related_files.foldl (pathStep nrm) d) [] := rfl

theorem foldl_induction_mem {α β : Type} (f : α → β → α) (P : α → Prop) :
    ∀ (l : List β), (∀ a b, b ∈ l → P a → P (f a b)) → ∀ (a : α), P a → P (l.foldl f a) := by
  intro l
  induction l with
  | nil => intro _ a ha; exact ha
  | cons b bs ih =>
      intro hf a ha
      exact ih (fun a c hc => hf a c (List.mem_cons_of_mem _ hc)) _
        (hf a b (List.mem_cons_self _ _) ha)

theorem foldl_id_of_steps {α β : Type} (f : α → β → α) (l : List β) (a : α)
    (h : ∀ b ∈ l, f a b = a) : l.foldl f a = a := by
  induction l with
  | nil => rfl
  | cons b bs ih =>
      rw [List.foldl_cons, h b (List.mem_cons_self _ _)]
      exact ih (fun c hc => h c (List.mem_cons_of_mem _ hc))

theorem dictGet_isSome_iff {α : Type} {d : List (String × α)} {k : String} :
    (dictGet d k).isSome ↔ k ∈ dictKeys d := by
  constructor
  · intro h
    by_contra hk
    rw [← dictGet_eq_none_iff] at hk
    rw [hk] at h
    simp at h
  · intro h
    cases hd : dictGet d k with
    | none => exact absurd h (dictGet_eq_none_iff.mp hd)
    | some v => rfl

theorem dictKeys_appByKey_nodup (apps : List AppEntry) :
    (dictKeys (appByKey apps)).Nodup := by
  unfold appByKey
  exact foldl_induction _ (fun d => (dictKeys d).Nodup)
    (fun d a hd => dictKeys_nodup_dictInsert hd _ _) apps [] (by simp [dictKeys])

theorem dictKeys_bucketAppend {α : Type} (k : String) (v : α) (d : List (String × List α)) :
    dictKeys (bucketAppend k v d) = dictKeys d := by
  unfold bucketAppend dictKeys
  rw [List.map_map]
  apply List.map_congr_left
  intro p _
  by_cases hp : p.1 = k
  · simp [hp]
  · simp [hp]

theorem dictGet_bucketAppend_self {α : Type} (k : String) (v : α)
    (d : List (String × List α)) :
    dictGet (bucketAppend k v d) k = (dictGet d k).map (fun l => l ++ [v]) := by
  induction d with
  | nil => simp [bucketAppend, dictGet]
  | cons p d ih =>
      unfold bucketAppend at ih ⊢
      rw [List.map_cons, dictGet, dictGet]
      simp only [List.find?]
      by_cases hp : p.1 = k
      · rw [if_pos hp]
        simp only
        have : (decide (p.1 = k)) = true := by simp [hp]
        rw [this]
        simp
      · rw [if_neg hp]
        have : (decide (p.1 = k)) = false := by simp [hp]
        rw [this]
        rw [dictGet, dictGet] at ih
        exact ih

theorem dictGet_bucketAppend_ne {α : Type} {k k' : String} (h : k' ≠ k) (v : α)
    (d : List (String × List α)) :
    dictGet (bucketAppend k v d) k' = dictGet d k' := by
  induction d with
  | nil => rfl
  | cons p d ih =>
      unfold bucketAppend at ih ⊢
      rw [List.map_cons, dictGet, dictGet]
      simp only [List.find?]
      by_cases hp : p.1 = k
      · rw [if_pos hp]
        have h2 : (decide (p.1 = k')) = false := by
          simp only [decide_eq_false_iff_not]
          rw [hp]
          exact fun hc => h hc.symm
        rw [h2]
        rw [dictGet, dictGet] at ih
        exact ih
      · rw [if_neg hp]
        by_cases hp' : p.1 = k'
        · have h1 : (decide (p.1 = k')) = true := by simp [hp']
          rw [h1]
        · have h1 : (decide (p.1 = k')) = false := by simp [hp']
          rw [h1]
          rw [dictGet, dictGet] at ih
          exact ih

theorem mem_getD_bucketAppend {α : Type} (k : String) (v : α) (d : List (String × List α))
    (K : String) {x : α} (hx : x ∈ ((dictGet d K).getD [])) :
    x ∈ ((dictGet (bucketAppend k v d) K).getD []) := by
  by_cases h : K = k
  · subst h
    rw [dictGet_bucketAppend_self]
    cases hd : dictGet d K with
    | none => rw [hd] at hx; simp at hx
    | some l =>
        rw [hd] at hx
        simp only [Option.getD_some] at hx
        exact List.mem_append_left _ hx
  · rw [dictGet_bucketAppend_ne h]
    exact hx

theorem dictGet_const_nil {α : Type} (KS : List String) (K : String) :
    dictGet (KS.map (fun k => (k, ([] : List α)))) K =
      if K ∈ KS then some [] else none := by
  induction KS with
  | nil => simp [dictGet]
  | cons k ks ih =>
      rw [List.map_cons, dictGet]
      simp only [List.find?]
      by_cases h : k = K
      · subst h
        simp
      · have hd : (decide (k = K)) = false := by simp [h]
        rw [hd]
        rw [dictGet] at ih
        rw [ih]
        by_cases hK : K ∈ ks
        · rw [if_pos hK, if_pos (List.mem_cons_of_mem _ hK)]
        · rw [if_neg hK, if_neg (by
            intro hc
            rcases List.mem_cons.mp hc with h' | h'
            · exact h h'.symm
            · exact hK h')]

theorem dictKeys_const_nil {α : Type} (KS : List String) :
    dictKeys (KS.map (fun k => (k, ([] : List α)))) = KS := by
  induction KS with
  | nil => rfl
  | cons k ks ih =>
      unfold dictKeys at ih ⊢
      rw [List.map_cons, List.map_cons, ih]

theorem pathLookup_mem (nrm : String → String) (apps : List AppEntry) :
    ∀ q ∈ pathLookup nrm apps,
      q.1 ≠ "" ∧ normOf nrm q.2 = q.1 ∧ ∃ a ∈ apps, q.2 ∈ a.related_files := by
  rw [pathLookup_eq]
  refine foldl_induction_mem _
    (fun d : List (String × RelatedFile) => ∀ q ∈ d,
      q.1 ≠ "" ∧ normOf nrm q.2 = q.1 ∧ ∃ a ∈ apps, q.2 ∈ a.related_files)
    apps ?_ [] ?_
  · intro d a ha hP
    refine foldl_induction_mem _
      (fun d : List (String × RelatedFile) => ∀ q ∈ d,
        q.1 ≠ "" ∧ normOf nrm q.2 = q.1 ∧ ∃ a ∈ apps, q.2 ∈ a.related_files)
      a.related_files ?_ d hP
    · intro d r hr hP q hq
      unfold pathStep at hq
      by_cases hn : normalizeRelatedPath nrm r.path = ""
      · rw [if_pos hn] at hq
        exact hP q hq
      · rw [if_neg hn] at hq
        by_cases hdup : d.any (fun p => p.1 = normalizeRelatedPath nrm r.path)
        · rw [if_pos hdup] at hq
          exact hP q hq
        · rw [if_neg hdup] at hq
          rcases List.mem_append.mp hq with hq | hq
          · exact hP q hq
          · simp only [List.mem_singleton] at hq
            subst hq
            exact ⟨hn, rfl, a, ha, hr⟩
  · intro q hq
    simp at hq

theorem contains_iff_mem {l : List String} {x : String} : l.contains x = true ↔ x ∈ l :=
  List.elem_iff

/-- The running invariant of the `_apply_related_overrides` state: both dicts
cover exactly the application keys `KS`; `seen_by_app` mirrors the normalized
paths of `new_lists` bucket-wise without duplicates; and each bucket entry has
a nonempty normalized path, is override-compatible with its bucket, and stems
from a record of `apps` (owned there or explicitly reassigned here). -/
def OvInv (nrm : String → String) (ovr : List (String × String)) (KS : List String)
    (apps : List AppEntry)
    (st : List (String × List RelatedFile) × List (String × List String)) : Prop :=
  dictKeys st.1 = KS ∧ dictKeys st.2 = KS ∧
  (∀ K l, dictGet st.1 K = some l →
    dictGet st.2 K = some (l.map (normOf nrm)) ∧
    (l.map (normOf nrm)).Nodup ∧
    ∀ r ∈ l, normOf nrm r ≠ "" ∧
      (∀ t, dictGet ovr (normOf nrm r) = some t → t = "" ∨ t = K) ∧
      (∃ a ∈ apps, r ∈ a.related_files ∧
        (a.key = K ∨ dictGet ovr (normOf nrm r) = some K)))

/-- Appending a compatible record `r` with normalized path `n` to bucket `K`
preserves the invariant. -/
theorem OvInv_append {nrm : String → String} {ovr : List (String × String)}
    {KS : List String} {apps : List AppEntry}
    {st : List (String × List RelatedFile) × List (String × List String)}
    {K : String} {r : RelatedFile}
    (hinv : OvInv nrm ovr KS apps st)
    (hn : normOf nrm r ≠ "")
    (hcompat : ∀ t, dictGet ovr (normOf nrm r) = some t → t = "" ∨ t = K)
    (hprov : ∃ a ∈ apps, r ∈ a.related_files ∧
      (a.key = K ∨ dictGet ovr (normOf nrm r) = some K))
    (hfresh : ¬ ((dictGet st.2 K).getD []).contains (normOf nrm r) = true) :
    OvInv nrm ovr KS apps (bucketAppend K r st.1, bucketAppend K (normOf nrm r) st.2) := by
  obtain ⟨hk1, hk2, hmain⟩ := hinv
  refine ⟨by rw [dictKeys_bucketAppend]; exact hk1,
    by rw [dictKeys_bucketAppend]; exact hk2, ?_⟩
  intro K' l' hl'
  by_cases hK : K' = K
  · subst hK
    rw [dictGet_bucketAppend_self] at hl'
    cases hget : dictGet st.1 K' with
    | none => rw [hget] at hl'; simp at hl'
    | some l =>
        rw [hget] at hl'
        simp only [Option.map_some'] at hl'
        obtain ⟨hseen, hnodup, hall⟩ := hmain K' l hget
        have hl'' : l' = l ++ [r] := by
          injection hl' with h
          exact h.symm
        subst hl''
        have hfresh' : normOf nrm r ∉ l.map (normOf nrm) := by
          intro hc
          apply hfresh
          rw [hseen]
          simp only [Option.getD_some]
          exact contains_iff_mem.mpr hc
        refine ⟨?_, ?_, ?_⟩
        · rw [dictGet_bucketAppend_self, hseen]
          simp only [Option.map_some']
          rw [List.map_append]
          rfl
        · rw [List.map_append]
          simp only [List.map_cons, List.map_nil]
          rw [List.nodup_append]
          exact ⟨hnodup, List.nodup_singleton _,
            fun x hx hx1 => by
              simp only [List.mem_singleton] at hx1
              exact hfresh' (hx1 ▸ hx)⟩
        · intro r' hr'
          rcases List.mem_append.mp hr' with hr' | hr'
          · exact hall r' hr'
          · simp only [List.mem_singleton] at hr'
            subst hr'
            exact ⟨hn, hcompat, hprov⟩
  · rw [dictGet_bucketAppend_ne hK] at hl'
    obtain ⟨hseen, hnodup, hall⟩ := hmain K' l' hl'
    exact ⟨by rw [dictGet_bucketAppend_ne hK]; exact hseen, hnodup, hall⟩

/-- One file step of the first loop preserves the invariant, when the file
belongs to the application being redistributed. -/
theorem OvInv_ovStep {nrm : String → String} {ovr : List (String × String)}
    {KS : List String} {apps : List AppEntry}
    {st : List (String × List RelatedFile) × List (String × List String)}
    {a : AppEntry} (ha : a ∈ apps) {r : RelatedFile} (hr : r ∈ a.related_files)
    (hinv : OvInv nrm ovr KS apps st) :
    OvInv nrm ovr KS apps (ovStep nrm ovr a.key st r) := by
  unfold ovStep
  by_cases hn : normalizeRelatedPath nrm r.path = ""
  · rw [if_pos hn]; exact hinv
  · rw [if_neg hn]
    cases hov : dictGet ovr (normalizeRelatedPath nrm r.path) with
    | some t =>
        dsimp only
        by_cases ht : t ≠ "" ∧ t ≠ a.key
        · rw [if_pos ht]; exact hinv
        · rw [if_neg ht]
          by_cases hseen : ((dictGet st.2 a.key).getD []).contains
              (normalizeRelatedPath nrm r.path)
          · rw [if_pos hseen]; exact hinv
          · rw [if_neg hseen]
            push_neg at ht
            refine OvInv_append hinv hn ?_ ⟨a, ha, hr, Or.inl rfl⟩ hseen
            intro t' ht'
            rw [show normOf nrm r = normalizeRelatedPath nrm r.path from rfl, hov] at ht'
            injection ht' with h
            subst h
            by_cases h0 : t = ""
            · exact Or.inl h0
            · exact Or.inr (ht h0)
    | none =>
        dsimp only
        by_cases hseen : ((dictGet st.2 a.key).getD []).contains
            (normalizeRelatedPath nrm r.path)
        · rw [if_pos hseen]; exact hinv
        · rw [if_neg hseen]
          refine OvInv_append hinv hn ?_ ⟨a, ha, hr, Or.inl rfl⟩ hseen
          intro t' ht'
          rw [show normOf nrm r = normalizeRelatedPath nrm r.path from rfl, hov] at ht'
          cases ht'

/-- One override step of the second loop preserves the invariant, when the
override record is one of the dict's (unique-keyed) pairs and `pl` is the
`path_lookup` of `apps`. -/
theorem OvInv_ovStep2 {nrm : String → String} {ovr : List (String × String)}
    {KS : List String} {apps : List AppEntry}
    {st : List (String × List RelatedFile) × List (String × List String)}
    {p : String × String}
    (hovr : (ovr.map Prod.fst).Nodup) (hp : p ∈ ovr)
    (hinv : OvInv nrm ovr KS apps st) :
    OvInv nrm ovr KS apps (ovStep2 (pathLookup nrm apps) KS st p) := by
  unfold ovStep2
  by_cases hk : KS.contains p.2
  · rw [if_pos hk]
    cases hpl : dictGet (pathLookup nrm apps) p.1 with
    | none => exact hinv
    | some r =>
        dsimp only
        by_cases hseen : ((dictGet st.2 p.2).getD []).contains p.1
        · rw [if_pos hseen]; exact hinv
        · rw [if_neg hseen]
          obtain ⟨hne, hnorm, a, ha, hra⟩ :=
            pathLookup_mem nrm apps (p.1, r) (mem_of_dictGet hpl)
          have hget : dictGet ovr p.1 = some p.2 := by
            have : (p.1, p.2) ∈ ovr := by
              cases p
              exact hp
            exact dictGet_of_mem_nodup this (by
              unfold dictKeys
              exact hovr)
          have hr1 : normOf nrm r = p.1 := hnorm
          have := OvInv_append hinv (hr1 ▸ hne)
            (by
              intro t ht
              rw [hr1, hget] at ht
              injection ht with h
              exact Or.inr h.symm)
            ⟨a, ha, hra, Or.inr (by rw [hr1]; exact hget)⟩
            (by rw [hr1]; exact hseen)
          rw [hr1] at this
          exact this
  · rw [if_neg hk]; exact hinv

/-- The pre-initialized state satisfies the invariant. -/
theorem OvInv_init (nrm : String → String) (ovr : List (String × String))
    (KS : List String) (apps : List AppEntry) :
    OvInv nrm ovr KS apps
      (KS.map (fun k => (k, [])), KS.map (fun k => (k, []))) := by
  refine ⟨dictKeys_const_nil KS, dictKeys_const_nil KS, ?_⟩
  intro K l hl
  rw [dictGet_const_nil] at hl
  by_cases hK : K ∈ KS
  · rw [if_pos hK] at hl
    injection hl with h
    subst h
    refine ⟨?_, by simp, by simp⟩
    rw [dictGet_const_nil, if_pos hK]
    rfl
  · rw [if_neg hK] at hl
    cases hl

/-- The first loop of `_apply_related_overrides` preserves the invariant. -/
theorem OvInv_loop1 {nrm : String → String} {ovr : List (String × String)}
    {KS : List String} {apps : List AppEntry}
    {st : List (String × List RelatedFile) × List (String × List String)}
    (hinv : OvInv nrm ovr KS apps st) :
    OvInv nrm ovr KS apps (overridesLoop1 nrm ovr apps st) := by
  rw [overridesLoop1_eq]
  refine foldl_induction_mem _ (OvInv nrm ovr KS apps) apps ?_ st hinv
  intro st a ha hst
  refine foldl_induction_mem _ (OvInv nrm ovr KS apps) a.related_files ?_ st hst
  intro st r hr hst
  exact OvInv_ovStep ha hr hst

/-- The second loop of `_apply_related_overrides` preserves the invariant. -/
theorem OvInv_loop2 {nrm : String → String} {ovr : List (String × String)}
    {KS : List String} {apps : List AppEntry}
    {st : List (String × List RelatedFile) × List (String × List String)}
    (hovr : (ovr.map Prod.fst).Nodup)
    (hinv : OvInv nrm ovr KS apps st) :
    OvInv nrm ovr KS apps (overridesLoop2 (pathLookup nrm apps) KS ovr st) := by
  rw [overridesLoop2_eq]
  refine foldl_induction_mem _ (OvInv nrm ovr KS apps) ovr ?_ st hinv
  intro st p hp hst
  exact OvInv_ovStep2 hovr hp hst

/-- The final `_apply_related_overrides` state (both loops over the
pre-initialized per-key dicts). -/
def ovFinal (nrm : String → String) (ovr : List (String × String)) (apps : List AppEntry) :
    List (String × List RelatedFile) × List (String × List String) :=
  overridesLoop2 (pathLookup nrm apps) (dictKeys (appByKey apps)) ovr
    (overridesLoop1 nrm ovr apps
      ((dictKeys (appByKey apps)).map (fun k => (k, [])),
       (dictKeys (appByKey apps)).map (fun k => (k, []))))

theorem applyRelatedOverrides_eq (nrm : String → String) (ovr : List (String × String))
    (apps : List AppEntry) (h1 : ovr ≠ []) (h2 : apps ≠ []) :
    applyRelatedOverrides nrm ovr apps = apps.map (fun a =>
      { a with related_files := (dictGet (ovFinal nrm ovr apps).1 a.key).getD [] }) := by
  simp only [applyRelatedOverrides]
  rw [if_neg h1, if_neg (appByKey_ne_nil h2)]
  rfl

theorem OvInv_final (nrm : String → String) (ovr : List (String × String))
    (apps : List AppEntry) (hovr : (ovr.map Prod.fst).Nodup) :
    OvInv nrm ovr (dictKeys (appByKey apps)) apps (ovFinal nrm ovr apps) :=
  OvInv_loop2 hovr (OvInv_loop1 (OvInv_init nrm ovr (dictKeys (appByKey apps)) apps))

theorem ovStep_keys2 (nrm : String → String) (ovr : List (String × String)) (K : String)
    (st : List (String × List RelatedFile) × List (String × List String)) (r : RelatedFile) :
    dictKeys (ovStep nrm ovr K st r).2 = dictKeys st.2 := by
  unfold ovStep
  by_cases hn : normalizeRelatedPath nrm r.path = ""
  · rw [if_pos hn]
  · rw [if_neg hn]
    cases dictGet ovr (normalizeRelatedPath nrm r.path) with
    | some t =>
        dsimp only
        by_cases ht : t ≠ "" ∧ t ≠ K
        · rw [if_pos ht]
        · rw [if_neg ht]
          by_cases hs : ((dictGet st.2 K).getD []).contains (normalizeRelatedPath nrm r.path)
          · rw [if_pos hs]
          · rw [if_neg hs]
            exact dictKeys_bucketAppend _ _ _
    | none =>
        dsimp only
        by_cases hs : ((dictGet st.2 K).getD []).contains (normalizeRelatedPath nrm r.path)
        · rw [if_pos hs]
        · rw [if_neg hs]
          exact dictKeys_bucketAppend _ _ _

theorem seen_mono_ovStep {nrm : String → String} {ovr : List (String × String)} {K : String}
    {st : List (String × List RelatedFile) × List (String × List String)} {r : RelatedFile}
    {K0 n : String} (h : n ∈ ((dictGet st.2 K0).getD [])) :
    n ∈ ((dictGet (ovStep nrm ovr K st r).2 K0).getD []) := by
  unfold ovStep
  by_cases hn : normalizeRelatedPath nrm r.path = ""
  · rw [if_pos hn]; exact h
  · rw [if_neg hn]
    cases dictGet ovr (normalizeRelatedPath nrm r.path) with
    | some t =>
        dsimp only
        by_cases ht : t ≠ "" ∧ t ≠ K
        · rw [if_pos ht]; exact h
        · rw [if_neg ht]
          by_cases hs : ((dictGet st.2 K).getD []).contains (normalizeRelatedPath nrm r.path)
          · rw [if_pos hs]; exact h
          · rw [if_neg hs]
            exact mem_getD_bucketAppend _ _ _ _ h
    | none =>
        dsimp only
        by_cases hs : ((dictGet st.2 K).getD []).contains (normalizeRelatedPath nrm r.path)
        · rw [if_pos hs]; exact h
        · rw [if_neg hs]
          exact mem_getD_bucketAppend _ _ _ _ h

theorem seen_mono_ovStep2 {pl : List (String × RelatedFile)} {KS : List String}
    {st : List (String × List RelatedFile) × List (String × List String)} {p : String × String}
    {K0 n : String} (h : n ∈ ((dictGet st.2 K0).getD [])) :
    n ∈ ((dictGet (ovStep2 pl KS st p).2 K0).getD []) := by
  unfold ovStep2
  by_cases hk : KS.contains p.2
  · rw [if_pos hk]
    cases dictGet pl p.1 with
    | none => exact h
    | some r =>
        dsimp only
        by_cases hs : ((dictGet st.2 p.2).getD []).contains p.1
        · rw [if_pos hs]; exact h
        · rw [if_neg hs]
          exact mem_getD_bucketAppend _ _ _ _ h
  · rw [if_neg hk]; exact h

theorem seen_mono_inner {nrm : String → String} {ovr : List (String × String)} {K : String}
    (rs : List RelatedFile)
    {st : List (String × List RelatedFile) × List (String × List String)}
    {K0 n : String} (h : n ∈ ((dictGet st.2 K0).getD [])) :
    n ∈ ((dictGet (rs.foldl (ovStep nrm ovr K) st).2 K0).getD []) := by
  refine foldl_induction _
    (fun st' : List (String × List RelatedFile) × List (String × List String) =>
      n ∈ ((dictGet st'.2 K0).getD [])) ?_ rs st h
  intro st' r hst
  show n ∈ ((dictGet (ovStep nrm ovr K st' r).2 K0).getD [])
  exact seen_mono_ovStep hst

theorem seen_mono_loop1 {nrm : String → String} {ovr : List (String × String)}
    (apps : List AppEntry)
    {st : List (String × List RelatedFile) × List (String × List String)}
    {K0 n : String} (h : n ∈ ((dictGet st.2 K0).getD [])) :
    n ∈ ((dictGet (overridesLoop1 nrm ovr apps st).2 K0).getD []) := by
  rw [overridesLoop1_eq]
  refine foldl_induction _
    (fun st' : List (String × List RelatedFile) × List (String × List String) =>
      n ∈ ((dictGet st'.2 K0).getD [])) ?_ apps st h
  intro st' a hst
  show n ∈ ((dictGet (a.related_files.foldl (ovStep nrm ovr a.key) st').2 K0).getD [])
  exact seen_mono_inner a.related_files hst

theorem seen_mono_loop2 {pl : List (String × RelatedFile)} {KS : List String}
    (ovr : List (String × String))
    {st : List (String × List RelatedFile) × List (String × List String)}
    {K0 n : String} (h : n ∈ ((dictGet st.2 K0).getD [])) :
    n ∈ ((dictGet (overridesLoop2 pl KS ovr st).2 K0).getD []) := by
  rw [overridesLoop2_eq]
  refine foldl_induction _
    (fun st' : List (String × List RelatedFile) × List (String × List String) =>
      n ∈ ((dictGet st'.2 K0).getD [])) ?_ ovr st h
  intro st' p hst
  show n ∈ ((dictGet (ovStep2 pl KS st' p).2 K0).getD [])
  exact seen_mono_ovStep2 hst

theorem keys2_inner (nrm : String → String) (ovr : List (String × String)) (K : String)
    (rs : List RelatedFile)
    (st : List (String × List RelatedFile) × List (String × List String)) :
    dictKeys (rs.foldl (ovStep nrm ovr K) st).2 = dictKeys st.2 := by
  refine foldl_induction _
    (fun st' : List (String × List RelatedFile) × List (String × List String) =>
      dictKeys st'.2 = dictKeys st.2) ?_ rs st rfl
  intro st' r hst
  show dictKeys (ovStep nrm ovr K st' r).2 = dictKeys st.2
  rw [ovStep_keys2]
  exact hst

theorem ovStep_presence {nrm : String → String} {ovr : List (String × String)} {K : String}
    {st : List (String × List RelatedFile) × List (String × List String)} {r : RelatedFile}
    {n : String} (hn : n ≠ "") (hnorm : normOf nrm r = n)
    (hov : dictGet ovr n = none) (hK : K ∈ dictKeys st.2) :
    n ∈ ((dictGet (ovStep nrm ovr K st r).2 K).getD []) := by
  unfold ovStep
  rw [show normalizeRelatedPath nrm r.path = n from hnorm]
  rw [if_neg hn, hov]
  dsimp only
  by_cases hs : ((dictGet st.2 K).getD []).contains n
  · rw [if_pos hs]
    exact contains_iff_mem.mp hs
  · rw [if_neg hs]
    have hsome : (dictGet st.2 K).isSome := dictGet_isSome_iff.mpr hK
    cases hget : dictGet st.2 K with
    | none => rw [hget] at hsome; simp at hsome
    | some s =>
        show n ∈ (dictGet (bucketAppend K n st.2) K).getD []
        rw [dictGet_bucketAppend_self, hget]
        simp only [Option.map_some', Option.getD_some]
        exact List.mem_append_right _ (List.mem_singleton.mpr rfl)

theorem loop1_inner_presence {nrm : String → String} {ovr : List (String × String)} {K : String}
    {rs : List RelatedFile} {r0 : RelatedFile} (hr0 : r0 ∈ rs)
    {n : String} (hn : n ≠ "") (hnorm : normOf nrm r0 = n) (hov : dictGet ovr n = none) :
    ∀ (st : List (String × List RelatedFile) × List (String × List String)),
      K ∈ dictKeys st.2 →
      n ∈ ((dictGet (rs.foldl (ovStep nrm ovr K) st).2 K).getD []) := by
  induction rs with
  | nil => cases hr0
  | cons r rs ih =>
      intro st hK
      rw [List.foldl_cons]
      rcases List.mem_cons.mp hr0 with rfl | hr0
      · exact seen_mono_inner rs (ovStep_presence hn hnorm hov hK)
      · exact ih hr0 _ (by rw [ovStep_keys2]; exact hK)

theorem loop1_presence {nrm : String → String} {ovr : List (String × String)}
    {apps : List AppEntry} {a0 : AppEntry} (ha0 : a0 ∈ apps)
    {n : String} (hn : n ≠ "") (hmem : n ∈ normsOf nrm a0) (hov : dictGet ovr n = none) :
    ∀ (st : List (String × List RelatedFile) × List (String × List String)),
      a0.key ∈ dictKeys st.2 →
      n ∈ ((dictGet (overridesLoop1 nrm ovr apps st).2 a0.key).getD []) := by
  induction apps with
  | nil => cases ha0
  | cons a as ih =>
      intro st hK
      rw [overridesLoop1_eq, List.foldl_cons]
      rcases List.mem_cons.mp ha0 with rfl | ha0
      · obtain ⟨r0, hr0, hr0n⟩ := List.mem_map.mp hmem
        have hinner := loop1_inner_presence hr0 hn hr0n hov st hK
        exact foldl_induction _
          (fun st' : List (String × List RelatedFile) × List (String × List String) =>
            n ∈ ((dictGet st'.2 a0.key).getD []))
          (fun st' b hst => seen_mono_inner b.related_files hst) as _ hinner
      · have := ih ha0 (a.related_files.foldl (ovStep nrm ovr a.key) st)
          (by rw [keys2_inner]; exact hK)
        rw [overridesLoop1_eq] at this
        exact this

/-- Presence through the reassignment layer: a nonempty normalized path held
by an application and not targeted by any reassignment record stays on that
application's key. -/
theorem O_presence {nrm : String → String} {ovr : List (String × String)}
    {apps : List AppEntry} (hovr : (ovr.map Prod.fst).Nodup)
    {a0 : AppEntry} (ha0 : a0 ∈ apps) {n : String}
    (hn : n ≠ "") (hmem : n ∈ normsOf nrm a0) (hov : dictGet ovr n = none) :
    ∃ a' ∈ applyRelatedOverrides nrm ovr apps, a'.key = a0.key ∧ n ∈ normsOf nrm a' := by
  by_cases h1 : ovr = []
  · refine ⟨a0, ?_, rfl, hmem⟩
    unfold applyRelatedOverrides
    rw [if_pos h1]
    exact ha0
  · have h2 : apps ≠ [] := by
      intro hc
      rw [hc] at ha0
      cases ha0
    rw [applyRelatedOverrides_eq nrm ovr apps h1 h2]
    refine ⟨_, List.mem_map_of_mem _ ha0, key_set_related _ _, ?_⟩
    have hKS : a0.key ∈ dictKeys (appByKey apps) :=
      mem_dictKeys_appByKey.mpr ⟨a0, ha0, rfl⟩
    have hseen1 := loop1_presence ha0 hn hmem hov
      ((dictKeys (appByKey apps)).map (fun k => (k, [])),
       (dictKeys (appByKey apps)).map (fun k => (k, [])))
      (by
        show a0.key ∈ dictKeys
          ((dictKeys (appByKey apps)).map (fun k => (k, ([] : List String))))
        rw [dictKeys_const_nil]
        exact hKS)
    have hseen2 : n ∈ ((dictGet (ovFinal nrm ovr apps).2 a0.key).getD []) := by
      unfold ovFinal
      exact seen_mono_loop2 ovr hseen1
    obtain ⟨hk1, hk2, hmain⟩ := OvInv_final nrm ovr apps hovr
    have hbsome : (dictGet (ovFinal nrm ovr apps).1 a0.key).isSome := by
      rw [dictGet_isSome_iff, hk1]
      exact hKS
    cases hget : dictGet (ovFinal nrm ovr apps).1 a0.key with
    | none => rw [hget] at hbsome; simp at hbsome
    | some l =>
        obtain ⟨hseen, _, _⟩ := hmain a0.key l hget
        rw [hseen] at hseen2
        simp only [Option.getD_some] at hseen2
        exact hseen2

/-- Cross-application exclusivity of nonempty normalized paths. -/
def DisjointNorms (nrm : String → String) (apps : List AppEntry) : Prop :=
  ∀ a ∈ apps, ∀ b ∈ apps, a.key ≠ b.key →
    ∀ n, n ≠ "" → n ∈ normsOf nrm a → n ∉ normsOf nrm b

theorem applyRelatedOverrides_entries {nrm : String → String} {ovr : List (String × String)}
    {apps : List AppEntry} (hovr : (ovr.map Prod.fst).Nodup) :
    ∀ a' ∈ applyRelatedOverrides nrm ovr apps, ∀ r ∈ a'.related_files,
      ∃ a ∈ apps, r ∈ a.related_files := by
  by_cases h1 : ovr = []
  · intro a' ha' r hr
    unfold applyRelatedOverrides at ha'
    rw [if_pos h1] at ha'
    exact ⟨a', ha', hr⟩
  · by_cases h2 : apps = []
    · intro a' ha' r hr
      subst h2
      unfold applyRelatedOverrides at ha'
      rw [if_neg h1] at ha'
      simp only [appByKey, List.foldl_nil, if_pos rfl] at ha'
      cases ha'
    · intro a' ha' r hr
      rw [applyRelatedOverrides_eq nrm ovr apps h1 h2] at ha'
      obtain ⟨a, ha, rfl⟩ := List.mem_map.mp ha'
      obtain ⟨_, _, hmain⟩ := OvInv_final nrm ovr apps hovr
      simp only at hr
      cases hget : dictGet (ovFinal nrm ovr apps).1 a.key with
      | none => rw [hget] at hr; simp at hr
      | some l =>
          rw [hget] at hr
          simp only [Option.getD_some] at hr
          obtain ⟨_, _, hall⟩ := hmain a.key l hget
          obtain ⟨_, _, x, hx, hrx, _⟩ := hall r hr
          exact ⟨x, hx, hrx⟩

theorem applyRelatedOverrides_disjoint {nrm : String → String} {ovr : List (String × String)}
    {apps : List AppEntry} (hovr : (ovr.map Prod.fst).Nodup)
    (hdisj : DisjointNorms nrm apps) :
    DisjointNorms nrm (applyRelatedOverrides nrm ovr apps) := by
  by_cases h1 : ovr = []
  · unfold applyRelatedOverrides
    rw [if_pos h1]
    exact hdisj
  · by_cases h2 : apps = []
    · subst h2
      unfold applyRelatedOverrides
      rw [if_neg h1]
      simp only [appByKey, List.foldl_nil, if_pos rfl]
      intro a ha
      cases ha
    · rw [applyRelatedOverrides_eq nrm ovr apps h1 h2]
      intro a' ha' b' hb' hne n hn hna hnb
      obtain ⟨a, ha, rfl⟩ := List.mem_map.mp ha'
      obtain ⟨b, hb, rfl⟩ := List.mem_map.mp hb'
      rw [key_set_related, key_set_related] at hne
      obtain ⟨_, _, hmain⟩ := OvInv_final nrm ovr apps hovr
      unfold normsOf at hna hnb
      simp only at hna hnb
      cases hgeta : dictGet (ovFinal nrm ovr apps).1 a.key with
      | none => rw [hgeta] at hna; simp at hna
      | some la =>
        cases hgetb : dictGet (ovFinal nrm ovr apps).1 b.key with
        | none => rw [hgetb] at hnb; simp at hnb
        | some lb =>
            rw [hgeta] at hna
            rw [hgetb] at hnb
            simp only [Option.getD_some] at hna hnb
            obtain ⟨ra, hra, hran⟩ := List.mem_map.mp hna
            obtain ⟨rb, hrb, hrbn⟩ := List.mem_map.mp hnb
            obtain ⟨_, _, halla⟩ := hmain a.key la hgeta
            obtain ⟨_, _, hallb⟩ := hmain b.key lb hgetb
            obtain ⟨_, hcompata, xa, hxa, hrxa, hgoa⟩ := halla ra hra
            obtain ⟨_, hcompatb, xb, hxb, hrxb, hgob⟩ := hallb rb hrb
            rw [hran] at hcompata hgoa
            rw [hrbn] at hcompatb hgob
            rcases hgoa with hgoa | hgoa
            · rcases hgob with hgob | hgob
              · -- both inherited in place: contradicts base exclusivity
                have hxne : xa.key ≠ xb.key := by
                  rw [hgoa, hgob]
                  exact hne
                exact hdisj xa hxa xb hxb hxne n hn
                  (hran ▸ List.mem_map_of_mem _ hrxa)
                  (hrbn ▸ List.mem_map_of_mem _ hrxb)
              · -- a in place, b by reassignment: the reassignment target must
                -- equal a's key, contradiction
                rcases hcompata b.key hgob with hc | hc
                · exact key_ne_empty b hc
                · exact hne hc.symm
            · rcases hgob with hgob | hgob
              · rcases hcompatb a.key hgoa with hc | hc
                · exact key_ne_empty a hc
                · exact hne hc
              · rw [hgoa] at hgob
                injection hgob with hc
                exact hne hc

theorem keysOf_map_setRelated (apps : List AppEntry) (f : AppEntry → List RelatedFile) :
    (apps.map (fun a => { a with related_files := f a })).map AppEntry.key =
      apps.map AppEntry.key := by
  rw [List.map_map]
  apply List.map_congr_left
  intro a _
  exact key_set_related a (f a)

theorem keysOf_applyRelatedOverrides (nrm : String → String) (ovr : List (String × String))
    (apps : List AppEntry) :
    (applyRelatedOverrides nrm ovr apps).map AppEntry.key = apps.map AppEntry.key := by
  by_cases h1 : ovr = []
  · unfold applyRelatedOverrides
    rw [if_pos h1]
  · by_cases h2 : apps = []
    · subst h2
      unfold applyRelatedOverrides
      rw [if_neg h1]
      simp [appByKey]
    · rw [applyRelatedOverrides_eq nrm ovr apps h1 h2]
      exact keysOf_map_setRelated apps _

theorem ovStep_keys1 (nrm : String → String) (ovr : List (String × String)) (K : String)
    (st : List (String × List RelatedFile) × List (String × List String)) (r : RelatedFile) :
    dictKeys (ovStep nrm ovr K st r).1 = dictKeys st.1 := by
  unfold ovStep
  by_cases hn : normalizeRelatedPath nrm r.path = ""
  · rw [if_pos hn]
  · rw [if_neg hn]
    cases dictGet ovr (normalizeRelatedPath nrm r.path) with
    | some t =>
        dsimp only
        by_cases ht : t ≠ "" ∧ t ≠ K
        · rw [if_pos ht]
        · rw [if_neg ht]
          by_cases hs : ((dictGet st.2 K).getD []).contains (normalizeRelatedPath nrm r.path)
          · rw [if_pos hs]
          · rw [if_neg hs]
            exact dictKeys_bucketAppend _ _ _
    | none =>
        dsimp only
        by_cases hs : ((dictGet st.2 K).getD []).contains (normalizeRelatedPath nrm r.path)
        · rw [if_pos hs]
        · rw [if_neg hs]
          exact dictKeys_bucketAppend _ _ _

theorem keys1_inner (nrm : String → String) (ovr : List (String × String)) (K : String)
    (rs : List RelatedFile)
    (st : List (String × List RelatedFile) × List (String × List String)) :
    dictKeys (rs.foldl (ovStep nrm ovr K) st).1 = dictKeys st.1 := by
  refine foldl_induction _
    (fun st' : List (String × List RelatedFile) × List (String × List String) =>
      dictKeys st'.1 = dictKeys st.1) ?_ rs st rfl
  intro st' r hst
  show dictKeys (ovStep nrm ovr K st' r).1 = dictKeys st.1
  rw [ovStep_keys1]
  exact hst

/-- A file whose normalized path is empty or already seen for `K` is a
no-op of the first loop's step. -/
theorem ovStep_skip {nrm : String → String} {ovr : List (String × String)} {K : String}
    {st : List (String × List RelatedFile) × List (String × List String)} {r : RelatedFile}
    (h : normalizeRelatedPath nrm r.path = "" ∨
      ((dictGet st.2 K).getD []).contains (normalizeRelatedPath nrm r.path) = true) :
    ovStep nrm ovr K st r = st := by
  unfold ovStep
  rcases h with h | h
  · rw [if_pos h]
  · by_cases hn : normalizeRelatedPath nrm r.path = ""
    · rw [if_pos hn]
    · rw [if_neg hn]
      cases dictGet ovr (normalizeRelatedPath nrm r.path) with
      | some t =>
          dsimp only
          by_cases ht : t ≠ "" ∧ t ≠ K
          · rw [if_pos ht]
          · rw [if_neg ht, if_pos h]
      | none =>
          dsimp only
          rw [if_pos h]

/-- Folding the first loop's step over files that are all empty-normed or
already seen leaves the state unchanged. -/
theorem loop1_inner_skip {nrm : String → String} {ovr : List (String × String)} {K : String}
    {rs : List RelatedFile}
    {st : List (String × List RelatedFile) × List (String × List String)}
    (h : ∀ r ∈ rs, normalizeRelatedPath nrm r.path = "" ∨
      ((dictGet st.2 K).getD []).contains (normalizeRelatedPath nrm r.path) = true) :
    rs.foldl (ovStep nrm ovr K) st = st := by
  apply foldl_id_of_steps
  intro r hr
  exact ovStep_skip (h r hr)

/-- Folding the first loop's step over compatible, fresh, duplicate-free
files appends them all to bucket `K`, in order, and touches no other key. -/
theorem loop1_inner_rebuild {nrm : String → String} {ovr : List (String × String)} {K : String} :
    ∀ (rs : List RelatedFile)
      (st : List (String × List RelatedFile) × List (String × List String))
      (B : List RelatedFile),
      dictGet st.1 K = some B →
      dictGet st.2 K = some (B.map (normOf nrm)) →
      ((B ++ rs).map (normOf nrm)).Nodup →
      (∀ r ∈ rs, normOf nrm r ≠ "" ∧
        (∀ t, dictGet ovr (normOf nrm r) = some t → t = "" ∨ t = K)) →
      dictGet (rs.foldl (ovStep nrm ovr K) st).1 K = some (B ++ rs) ∧
      dictGet (rs.foldl (ovStep nrm ovr K) st).2 K = some ((B ++ rs).map (normOf nrm)) ∧
      (∀ K', K' ≠ K →
        dictGet (rs.foldl (ovStep nrm ovr K) st).1 K' = dictGet st.1 K' ∧
        dictGet (rs.foldl (ovStep nrm ovr K) st).2 K' = dictGet st.2 K') := by
  intro rs
  induction rs with
  | nil =>
      intro st B h1 h2 _ _
      refine ⟨?_, ?_, fun K' _ => ⟨rfl, rfl⟩⟩
      · rw [List.foldl_nil, List.append_nil]; exact h1
      · rw [List.foldl_nil, List.append_nil]; exact h2
  | cons r rs ih =>
      intro st B h1 h2 hnodup hconds
      obtain ⟨hn, hcompat⟩ := hconds r (List.mem_cons_self _ _)
      have hfresh : normOf nrm r ∉ B.map (normOf nrm) := by
        intro hc
        rw [show B ++ r :: rs = (B ++ [r]) ++ rs by simp] at hnodup
        rw [List.map_append] at hnodup
        have := List.Nodup.of_append_left hnodup
        rw [List.map_append] at this
        rw [List.nodup_append] at this
        exact this.2.2 hc (by simp)
      have hstep : ovStep nrm ovr K st r =
          (bucketAppend K r st.1, bucketAppend K (normOf nrm r) st.2) := by
        unfold ovStep
        rw [show normalizeRelatedPath nrm r.path = normOf nrm r from rfl]
        rw [if_neg hn]
        have hcont : ¬ ((dictGet st.2 K).getD []).contains (normOf nrm r) = true := by
          rw [h2]
          simp only [Option.getD_some]
          intro hc
          exact hfresh (contains_iff_mem.mp hc)
        cases hov : dictGet ovr (normOf nrm r) with
        | some t =>
            dsimp only
            rcases hcompat t hov with ht | ht
            · rw [if_neg (by rw [ht]; simp), if_neg hcont]
            · rw [if_neg (by rw [ht]; simp), if_neg hcont]
        | none =>
            dsimp only
            rw [if_neg hcont]
      rw [List.foldl_cons, hstep]
      have h1' : dictGet (bucketAppend K r st.1, bucketAppend K (normOf nrm r) st.2).1 K =
          some (B ++ [r]) := by
        show dictGet (bucketAppend K r st.1) K = some (B ++ [r])
        rw [dictGet_bucketAppend_self, h1]
        rfl
      have h2' : dictGet (bucketAppend K r st.1, bucketAppend K (normOf nrm r) st.2).2 K =
          some ((B ++ [r]).map (normOf nrm)) := by
        show dictGet (bucketAppend K (normOf nrm r) st.2) K =
          some ((B ++ [r]).map (normOf nrm))
        rw [dictGet_bucketAppend_self, h2]
        simp
      have hnodup' : (((B ++ [r]) ++ rs).map (normOf nrm)).Nodup := by
        rw [show (B ++ [r]) ++ rs = B ++ r :: rs by simp]
        exact hnodup
      have hconds' : ∀ r' ∈ rs, normOf nrm r' ≠ "" ∧
          (∀ t, dictGet ovr (normOf nrm r') = some t → t = "" ∨ t = K) :=
        fun r' hr' => hconds r' (List.mem_cons_of_mem _ hr')
      obtain ⟨c1, c2, c3⟩ := ih _ (B ++ [r]) h1' h2' hnodup' hconds'
      refine ⟨?_, ?_, ?_⟩
      · rw [c1]; simp
      · rw [c2]; simp
      · intro K' hK'
        obtain ⟨d1, d2⟩ := c3 K' hK'
        rw [d1, d2]
        constructor
        · show dictGet (bucketAppend K r st.1) K' = dictGet st.1 K'
          rw [dictGet_bucketAppend_ne hK']
        · show dictGet (bucketAppend K (normOf nrm r) st.2) K' = dictGet st.2 K'
          rw [dictGet_bucketAppend_ne hK']

/-- Re-running the first loop over applications whose lists are exactly the
final buckets reproduces the final buckets. -/
theorem loop1_rebuild {nrm : String → String} {ovr : List (String × String)}
    {KS : List String} {apps0 : List AppEntry}
    {stF : List (String × List RelatedFile) × List (String × List String)}
    (hF : OvInv nrm ovr KS apps0 stF) :
    ∀ (apps' : List AppEntry)
      (st : List (String × List RelatedFile) × List (String × List String))
      (done : List String),
      (∀ a' ∈ apps', a'.key ∈ KS ∧
        a'.related_files = (dictGet stF.1 a'.key).getD []) →
      dictKeys st.1 = KS → dictKeys st.2 = KS →
      (∀ K ∈ done, dictGet st.1 K = dictGet stF.1 K ∧ dictGet st.2 K = dictGet stF.2 K) →
      (∀ K ∈ KS, K ∉ done → dictGet st.1 K = some [] ∧ dictGet st.2 K = some []) →
      (∀ K, (K ∈ done ∨ K ∈ apps'.map AppEntry.key) →
        dictGet (apps'.foldl
          (fun st a => a.related_files.foldl (ovStep nrm ovr a.key) st) st).1 K
          = dictGet stF.1 K ∧
        dictGet (apps'.foldl
          (fun st a => a.related_files.foldl (ovStep nrm ovr a.key) st) st).2 K
          = dictGet stF.2 K) ∧
      (∀ K ∈ KS, K ∉ done → K ∉ apps'.map AppEntry.key →
        dictGet (apps'.foldl
          (fun st a => a.related_files.foldl (ovStep nrm ovr a.key) st) st).1 K
          = some [] ∧
        dictGet (apps'.foldl
          (fun st a => a.related_files.foldl (ovStep nrm ovr a.key) st) st).2 K
          = some []) := by
  intro apps'
  induction apps' with
  | nil =>
      intro st done _ _ _ hdone hnot
      refine ⟨?_, ?_⟩
      · intro K hK
        rcases hK with hK | hK
        · exact hdone K hK
        · simp at hK
      · intro K hK hK1 _
        exact hnot K hK hK1
  | cons a' rest ih =>
      intro st done happs hk1 hk2 hdone hnot
      obtain ⟨hKKS, hrf⟩ := happs a' (List.mem_cons_self _ _)
      obtain ⟨hFk1, hFk2, hFmain⟩ := hF
      have hFsome : (dictGet stF.1 a'.key).isSome := by
        rw [dictGet_isSome_iff, hFk1]
        exact hKKS
      cases hgetF : dictGet stF.1 a'.key with
      | none => rw [hgetF] at hFsome; simp at hFsome
      | some lF =>
        rw [hgetF] at hrf
        simp only [Option.getD_some] at hrf
        obtain ⟨hFseen, hFnodup, hFall⟩ := hFmain a'.key lF hgetF
        rw [List.foldl_cons]
        by_cases hd : a'.key ∈ done
        · -- every file of this bucket is already seen: the inner fold is a no-op
          have hskip : a'.related_files.foldl (ovStep nrm ovr a'.key) st = st := by
            apply loop1_inner_skip
            intro r hr
            rw [hrf] at hr
            refine Or.inr ?_
            rw [(hdone a'.key hd).2, hFseen]
            simp only [Option.getD_some]
            exact contains_iff_mem.mpr
              (List.mem_map_of_mem _ hr)
          rw [hskip]
          obtain ⟨ihC1, ihC2⟩ := ih st done
            (fun b hb => happs b (List.mem_cons_of_mem _ hb)) hk1 hk2 hdone hnot
          refine ⟨?_, ?_⟩
          · intro K hK
            rcases hK with hK | hK
            · exact ihC1 K (Or.inl hK)
            · rw [List.map_cons, List.mem_cons] at hK
              rcases hK with rfl | hK
              · exact ihC1 _ (Or.inl hd)
              · exact ihC1 K (Or.inr hK)
          · intro K hK hK1 hK2
            rw [List.map_cons, List.mem_cons] at hK2
            push_neg at hK2
            exact ihC2 K hK hK1 hK2.2
        · -- fresh key: the inner fold rebuilds the bucket exactly
          obtain ⟨he1, he2⟩ := hnot a'.key hKKS hd
          have hconds : ∀ r ∈ lF, normOf nrm r ≠ "" ∧
              (∀ t, dictGet ovr (normOf nrm r) = some t → t = "" ∨ t = a'.key) :=
            fun r hr => ⟨(hFall r hr).1, (hFall r hr).2.1⟩
          have hrebuild := loop1_inner_rebuild lF st [] he1
            (by rw [he2]; rfl)
            (by rw [List.nil_append]; exact hFnodup) hconds
          rw [hrf]
          obtain ⟨c1, c2, c3⟩ := hrebuild
          rw [List.nil_append] at c1 c2
          have hst1 : dictKeys (lF.foldl (ovStep nrm ovr a'.key) st).1 = KS := by
            rw [keys1_inner]; exact hk1
          have hst2 : dictKeys (lF.foldl (ovStep nrm ovr a'.key) st).2 = KS := by
            rw [keys2_inner]; exact hk2
          have hdone' : ∀ K ∈ (a'.key :: done),
              dictGet (lF.foldl (ovStep nrm ovr a'.key) st).1 K = dictGet stF.1 K ∧
              dictGet (lF.foldl (ovStep nrm ovr a'.key) st).2 K = dictGet stF.2 K := by
            intro K hK
            rcases List.mem_cons.mp hK with rfl | hK
            · exact ⟨by rw [c1, hgetF], by rw [c2, hFseen]⟩
            · have hne : K ≠ a'.key := fun hc => hd (hc ▸ hK)
              obtain ⟨d1, d2⟩ := c3 K hne
              rw [d1, d2]
              exact hdone K hK
          have hnot' : ∀ K ∈ KS, K ∉ (a'.key :: done) →
              dictGet (lF.foldl (ovStep nrm ovr a'.key) st).1 K = some [] ∧
              dictGet (lF.foldl (ovStep nrm ovr a'.key) st).2 K = some [] := by
            intro K hK hKd
            rw [List.mem_cons] at hKd
            push_neg at hKd
            obtain ⟨d1, d2⟩ := c3 K hKd.1
            rw [d1, d2]
            exact hnot K hK hKd.2
          obtain ⟨ihC1, ihC2⟩ := ih (lF.foldl (ovStep nrm ovr a'.key) st) (a'.key :: done)
            (fun b hb => happs b (List.mem_cons_of_mem _ hb)) hst1 hst2 hdone' hnot'
          refine ⟨?_, ?_⟩
          · intro K hK
            rcases hK with hK | hK
            · exact ihC1 K (Or.inl (List.mem_cons_of_mem _ hK))
            · rw [List.map_cons, List.mem_cons] at hK
              rcases hK with rfl | hK
              · exact ihC1 _ (Or.inl (List.mem_cons_self _ _))
              · exact ihC1 K (Or.inr hK)
          · intro K hK hK1 hK2
            rw [List.map_cons, List.mem_cons] at hK2
            push_neg at hK2
            exact ihC2 K hK
              (by
                rw [List.mem_cons]
                push_neg
                exact ⟨hK2.1, hK1⟩)
              hK2.2

/-- Re-running the second loop against applications holding the final
buckets is a no-op: every reassigned path that exists anywhere is already
recorded under its target key. -/
theorem loop2_rebuild {nrm : String → String} {ovr : List (String × String)}
    {KS : List String} {apps0 : List AppEntry}
    {stF st : List (String × List RelatedFile) × List (String × List String)}
    {apps' : List AppEntry}
    (hF : OvInv nrm ovr KS apps0 stF)
    (hovr : (ovr.map Prod.fst).Nodup)
    (hKSne : ∀ K ∈ KS, K ≠ "")
    (happs : ∀ a' ∈ apps', a'.key ∈ KS ∧
      a'.related_files = (dictGet stF.1 a'.key).getD [])
    (hseen : ∀ K ∈ KS, dictGet st.2 K = dictGet stF.2 K) :
    overridesLoop2 (pathLookup nrm apps') KS ovr st = st := by
  rw [overridesLoop2_eq]
  apply foldl_id_of_steps
  intro p hp
  unfold ovStep2
  by_cases hk : KS.contains p.2
  · rw [if_pos hk]
    cases hpl : dictGet (pathLookup nrm apps') p.1 with
    | none => rfl
    | some r =>
        dsimp only
        obtain ⟨hne, hnorm, a', ha', hra'⟩ :=
          pathLookup_mem nrm apps' (p.1, r) (mem_of_dictGet hpl)
        obtain ⟨hKKS, hrf⟩ := happs a' ha'
        obtain ⟨hFk1, hFk2, hFmain⟩ := hF
        have hFsome : (dictGet stF.1 a'.key).isSome := by
          rw [dictGet_isSome_iff, hFk1]
          exact hKKS
        cases hgetF : dictGet stF.1 a'.key with
        | none => rw [hgetF] at hFsome; simp at hFsome
        | some lF =>
          rw [hgetF] at hrf
          simp only [Option.getD_some] at hrf
          obtain ⟨hFseen, _, hFall⟩ := hFmain a'.key lF hgetF
          have hrlF : r ∈ lF := by rw [← hrf]; exact hra'
          have hget : dictGet ovr p.1 = some p.2 := by
            have hmem : (p.1, p.2) ∈ ovr := by cases p; exact hp
            exact dictGet_of_mem_nodup hmem (by unfold dictKeys; exact hovr)
          have hcompat := (hFall r hrlF).2.1 p.2 (by rw [hnorm]; exact hget)
          have hp2 : p.2 = a'.key := by
            rcases hcompat with hc | hc
            · exact absurd hc (hKSne p.2 (contains_iff_mem.mp hk))
            · exact hc
          have hcont : ((dictGet st.2 p.2).getD []).contains p.1 = true := by
            rw [hp2, hseen a'.key hKKS, hFseen]
            simp only [Option.getD_some]
            exact contains_iff_mem.mpr (hnorm ▸ List.mem_map_of_mem _ hrlF)
          rw [if_pos hcont]
  · rw [if_neg hk]

theorem set_related_self (a : AppEntry) :
    ({ a with related_files := a.related_files } : AppEntry) = a := rfl

/-- `_apply_related_overrides` is idempotent (its record set is a dict, so
its keys are unique). -/
theorem applyRelatedOverrides_idem (nrm : String → String) (ovr : List (String × String))
    (apps : List AppEntry) (hovr : (ovr.map Prod.fst).Nodup) :
    applyRelatedOverrides nrm ovr (applyRelatedOverrides nrm ovr apps) =
      applyRelatedOverrides nrm ovr apps := by
  by_cases h1 : ovr = []
  · conv_lhs => rw [applyRelatedOverrides, if_pos h1]
  · by_cases h2 : apps = []
    · subst h2
      have hnil : applyRelatedOverrides nrm ovr [] = [] := by
        unfold applyRelatedOverrides
        rw [if_neg h1]
        simp [appByKey]
      rw [hnil, hnil]
    · have hy := applyRelatedOverrides_eq nrm ovr apps h1 h2
      have hyne : applyRelatedOverrides nrm ovr apps ≠ [] := by
        rw [hy]
        simp only [ne_eq, List.map_eq_nil_iff]
        exact h2
      have hF := OvInv_final nrm ovr apps hovr
      have hkeysy : (applyRelatedOverrides nrm ovr apps).map AppEntry.key =
          apps.map AppEntry.key := keysOf_applyRelatedOverrides nrm ovr apps
      have hKS : dictKeys (appByKey (applyRelatedOverrides nrm ovr apps)) =
          dictKeys (appByKey apps) := dictKeys_appByKey_congr hkeysy
      have happs : ∀ a' ∈ applyRelatedOverrides nrm ovr apps,
          a'.key ∈ dictKeys (appByKey apps) ∧
          a'.related_files = (dictGet (ovFinal nrm ovr apps).1 a'.key).getD [] := by
        intro a' ha'
        rw [hy] at ha'
        obtain ⟨a, ha, rfl⟩ := List.mem_map.mp ha'
        exact ⟨mem_dictKeys_appByKey.mpr ⟨a, ha, rfl⟩, rfl⟩
      have hcover : ∀ K ∈ dictKeys (appByKey apps),
          K ∈ (applyRelatedOverrides nrm ovr apps).map AppEntry.key := by
        intro K hK
        rw [hkeysy]
        obtain ⟨a, ha, hak⟩ := mem_dictKeys_appByKey.mp hK
        exact hak ▸ List.mem_map_of_mem _ ha
      have hmatch : ∀ K ∈ dictKeys (appByKey apps),
          dictGet (overridesLoop1 nrm ovr (applyRelatedOverrides nrm ovr apps)
            ((dictKeys (appByKey apps)).map (fun k => (k, [])),
             (dictKeys (appByKey apps)).map (fun k => (k, [])))).1 K =
            dictGet (ovFinal nrm ovr apps).1 K ∧
          dictGet (overridesLoop1 nrm ovr (applyRelatedOverrides nrm ovr apps)
            ((dictKeys (appByKey apps)).map (fun k => (k, [])),
             (dictKeys (appByKey apps)).map (fun k => (k, [])))).2 K =
            dictGet (ovFinal nrm ovr apps).2 K := by
        intro K hK
        rw [overridesLoop1_eq]
        refine (loop1_rebuild hF (applyRelatedOverrides nrm ovr apps) _ [] happs
          (dictKeys_const_nil _) (dictKeys_const_nil _)
          (by intro K hK; cases hK)
          ?_).1 K (Or.inr (hcover K hK))
        intro K hK _
        constructor
        · show dictGet ((dictKeys (appByKey apps)).map
            (fun k => (k, ([] : List RelatedFile)))) K = some []
          rw [dictGet_const_nil, if_pos hK]
        · show dictGet ((dictKeys (appByKey apps)).map
            (fun k => (k, ([] : List String)))) K = some []
          rw [dictGet_const_nil, if_pos hK]
      have hKSne : ∀ K ∈ dictKeys (appByKey apps), K ≠ "" := by
        intro K hK
        obtain ⟨a, _, hak⟩ := mem_dictKeys_appByKey.mp hK
        exact hak ▸ key_ne_empty a
      have hloop2 : overridesLoop2
          (pathLookup nrm (applyRelatedOverrides nrm ovr apps))
          (dictKeys (appByKey apps)) ovr
          (overridesLoop1 nrm ovr (applyRelatedOverrides nrm ovr apps)
            ((dictKeys (appByKey apps)).map (fun k => (k, [])),
             (dictKeys (appByKey apps)).map (fun k => (k, [])))) =
          overridesLoop1 nrm ovr (applyRelatedOverrides nrm ovr apps)
            ((dictKeys (appByKey apps)).map (fun k => (k, [])),
             (dictKeys (appByKey apps)).map (fun k => (k, []))) :=
        loop2_rebuild hF hovr hKSne happs (fun K hK => (hmatch K hK).2)
      rw [applyRelatedOverrides_eq nrm ovr (applyRelatedOverrides nrm ovr apps) h1 hyne]
      have hfin : ovFinal nrm ovr (applyRelatedOverrides nrm ovr apps) =
          overridesLoop1 nrm ovr (applyRelatedOverrides nrm ovr apps)
            ((dictKeys (appByKey apps)).map (fun k => (k, [])),
             (dictKeys (appByKey apps)).map (fun k => (k, []))) := by
        unfold ovFinal
        rw [hKS]
        exact hloop2
      have hpt : ∀ b ∈ applyRelatedOverrides nrm ovr apps,
          ({ b with related_files :=
            (dictGet (ovFinal nrm ovr (applyRelatedOverrides nrm ovr apps)).1 b.key).getD [] }
            : AppEntry) = b := by
        intro b hb
        obtain ⟨hbK, hbrf⟩ := happs b hb
        rw [hfin, (hmatch b.key hbK).1, ← hbrf]
      rw [List.map_congr_left (fun b hb => (hpt b hb :
        ({ b with related_files :=
          (dictGet (ovFinal nrm ovr (applyRelatedOverrides nrm ovr apps)).1 b.key).getD [] }
          : AppEntry) = id b))]
      exact List.map_id _

/-! ### The manual layer: positional `lastWith` lemmas and `manual_by_path` -/

theorem find?_congr_mid {α : Type} (p : α → Bool) :
    ∀ (xs : List α) (c c' : α) (ys : List α), p c = false → p c' = false →
      (xs ++ c :: ys).find? p = (xs ++ c' :: ys).find? p := by
  intro xs
  induction xs with
  | nil =>
      intro c c' ys hc hc'
      simp only [List.nil_append, List.find?_cons, hc, hc']
  | cons x xs ih =>
      intro c c' ys hc hc'
      simp only [List.cons_append, List.find?_cons]
      cases p x
      · exact ih c c' ys hc hc'
      · rfl

theorem lastWith_middle {α : Type} (p : α → Bool) (l₁ : List α) (c : α) (l₂ : List α)
    (hc : p c = true) (h₂ : ∀ b ∈ l₂, p b = false) :
    lastWith p (l₁ ++ c :: l₂) = some c := by
  unfold lastWith
  rw [List.reverse_append, List.reverse_cons, List.append_assoc,
    List.singleton_append]
  have : ∀ (xs : List α), (∀ b ∈ xs, p b = false) →
      (xs ++ c :: l₁.reverse).find? p = some c := by
    intro xs
    induction xs with
    | nil =>
        intro _
        simp [List.find?_cons, hc]
    | cons x xs ih =>
        intro h
        simp only [List.cons_append, List.find?_cons,
          h x (List.mem_cons_self _ _)]
        exact ih (fun b hb => h b (List.mem_cons_of_mem _ hb))
  exact this l₂.reverse (fun b hb => h₂ b (List.mem_reverse.mp hb))

theorem lastWith_replace_mid {α : Type} (p : α → Bool) (l₁ : List α) (c c' : α) (l₂ : List α)
    (hc : p c = false) (hc' : p c' = false) :
    lastWith p (l₁ ++ c :: l₂) = lastWith p (l₁ ++ c' :: l₂) := by
  unfold lastWith
  rw [List.reverse_append, List.reverse_cons, List.append_assoc, List.singleton_append,
    List.reverse_append, List.reverse_cons, List.append_assoc, List.singleton_append]
  exact find?_congr_mid p l₂.reverse c c' l₁.reverse hc hc'

/-- `manual_by_path` key-uniqueness and per-record facts: keys are nonempty
normalized paths of the stored raw path, and owners were existing keys. -/
theorem manualByPath_inv (nrm : String → String) (manual : List (String × List ManualItem))
    (appKeys : List String) :
    (dictKeys (manualByPath nrm manual appKeys)).Nodup ∧
    ∀ q ∈ manualByPath nrm manual appKeys,
      q.1 ≠ "" ∧ normalizeRelatedPath nrm q.2.2.2 = q.1 ∧ appKeys.contains q.2.1 = true := by
  unfold manualByPath
  refine foldl_induction _
    (fun d : List (String × (String × String × String)) =>
      (dictKeys d).Nodup ∧
      ∀ q ∈ d, q.1 ≠ "" ∧ normalizeRelatedPath nrm q.2.2.2 = q.1 ∧
        appKeys.contains q.2.1 = true) ?_ manual [] ⟨by simp [dictKeys], by simp⟩
  intro d g hd
  show (fun d : List (String × (String × String × String)) =>
      (dictKeys d).Nodup ∧
      ∀ q ∈ d, q.1 ≠ "" ∧ normalizeRelatedPath nrm q.2.2.2 = q.1 ∧
        appKeys.contains q.2.1 = true)
    (if appKeys.contains g.1 then
      g.2.foldl
        (fun d it =>
          let p := pyStrip it.path
          if p = "" then d
          else
            let norm := normalizeRelatedPath nrm p
            if norm = "" then d else dictInsert norm (g.1, kindEff it.kind, p) d)
        d
      else d)
  by_cases hg : appKeys.contains g.1
  · rw [if_pos hg]
    refine foldl_induction _
      (fun d : List (String × (String × String × String)) =>
        (dictKeys d).Nodup ∧
        ∀ q ∈ d, q.1 ≠ "" ∧ normalizeRelatedPath nrm q.2.2.2 = q.1 ∧
          appKeys.contains q.2.1 = true) ?_ g.2 d hd
    intro d it hd2
    simp only
    by_cases hp : pyStrip it.path = ""
    · rw [if_pos hp]
      exact hd2
    · rw [if_neg hp]
      by_cases hnorm : normalizeRelatedPath nrm (pyStrip it.path) = ""
      · rw [if_pos hnorm]
        exact hd2
      · rw [if_neg hnorm]
        refine ⟨dictKeys_nodup_dictInsert hd2.1 _ _, ?_⟩
        intro q hq
        rcases mem_dictInsert hq with rfl | hq
        · exact ⟨hnorm, rfl, hg⟩
        · exact hd2.2 q hq
  · rw [if_neg hg]
    exact hd

theorem updateLastBy_map {α β : Type} (p : α → Bool) (f : α → α) (g : α → β)
    (hg : ∀ x, g (f x) = g x) (l : List α) :
    (updateLastBy p f l).map g = l.map g := by
  cases h : lastWith p l with
  | none => rw [updateLastBy_of_none f h]
  | some a =>
      obtain ⟨l₁, l₂, hdec, _, hupd⟩ := updateLastBy_of_some f h
      rw [hupd, hdec]
      simp only [List.map_append, List.map_cons, hg]

theorem keysOf_manualAppend (nrm : String → String) (norm : String)
    (rec : String × String × String) (apps : List AppEntry) :
    (manualAppend nrm norm rec apps).map AppEntry.key = apps.map AppEntry.key := by
  unfold manualAppend
  apply updateLastBy_map
  intro x
  by_cases hx : x.related_files.any (fun r => normalizeRelatedPath nrm r.path = norm)
  · rw [if_pos hx]
  · rw [if_neg hx]
    exact key_set_related _ _

theorem keysOf_applyManualRelated (nrm : String → String)
    (manual : List (String × List ManualItem)) (apps : List AppEntry) :
    (applyManualRelated nrm manual apps).map AppEntry.key = apps.map AppEntry.key := by
  simp only [applyManualRelated]
  by_cases h1 : manual = []
  · rw [if_pos h1]
  · rw [if_neg h1]
    by_cases h2 : appByKey apps = []
    · rw [if_pos h2]
    · rw [if_neg h2]
      by_cases h3 : manualByPath nrm manual (dictKeys (appByKey apps)) = []
      · rw [if_pos h3]
      · rw [if_neg h3]
        refine foldl_induction _
          (fun acc : List AppEntry => acc.map AppEntry.key = apps.map AppEntry.key) ?_ _ _
          (keysOf_map_setRelated apps _)
        intro acc p hacc
        show (manualAppend nrm p.1 p.2 acc).map AppEntry.key = apps.map AppEntry.key
        rw [keysOf_manualAppend]
        exact hacc

theorem fold_establish_mem {α β : Type} (f : α → β → α) (P : β → α → Prop) :
    ∀ (l : List β),
      (∀ a, ∀ b ∈ l, P b (f a b)) →
      (∀ a, ∀ b ∈ l, ∀ c ∈ l, P b a → P b (f a c)) →
      ∀ (a : α), ∀ b ∈ l, P b (l.foldl f a) := by
  intro l
  induction l with
  | nil => intro _ _ a b hb; cases hb
  | cons c cs ih =>
      intro hest hpres a b hb
      rw [List.foldl_cons]
      rcases List.mem_cons.mp hb with rfl | hb
      · exact foldl_induction_mem f (P b) cs
          (fun a' c' hc' h =>
            hpres a' b (List.mem_cons_self _ _) c' (List.mem_cons_of_mem _ hc') h)
          _ (hest a b (List.mem_cons_self _ _))
      · exact ih
          (fun a' b' hb' => hest a' b' (List.mem_cons_of_mem _ hb'))
          (fun a' b' hb' c' hc' h =>
            hpres a' b' (List.mem_cons_of_mem _ hb') c' (List.mem_cons_of_mem _ hc') h)
          _ b hb

/-- The fresh `RelatedFile` object appended by `_apply_manual_related` for a
manual record `(app_key, kind, raw)`. -/
def manualEntry (rec : String × String × String) : RelatedFile :=
  { path := rec.2.2, kind := rec.2.1, source := "manual",
    confidence := "High", marked := "keep", score := 0 }

theorem manualAppend_of_none {nrm : String → String} {norm : String}
    {rec : String × String × String} {apps : List AppEntry}
    (h : lastWith (fun x => x.key = rec.1) apps = none) :
    manualAppend nrm norm rec apps = apps :=
  updateLastBy_of_none _ h

theorem manualAppend_of_some {nrm : String → String} {norm : String}
    {rec : String × String × String} {apps : List AppEntry} {a : AppEntry}
    (h : lastWith (fun x => x.key = rec.1) apps = some a) :
    ∃ l₁ l₂, apps = l₁ ++ a :: l₂ ∧
      (∀ b ∈ l₂, (decide (b.key = rec.1)) = false) ∧
      manualAppend nrm norm rec apps = l₁ ++
        (if a.related_files.any (fun r => normalizeRelatedPath nrm r.path = norm) then a
         else { a with related_files := a.related_files ++ [manualEntry rec] }) :: l₂ :=
  updateLastBy_of_some _ h

/-- The per-record update function of the append loop only extends the
normalized-path multiset of the touched application. -/
theorem mAppFn_norms_mono (nrm : String → String) (norm : String)
    (rec : String × String × String) (a : AppEntry) {n : String}
    (h : n ∈ normsOf nrm a) :
    n ∈ normsOf nrm
      (if a.related_files.any (fun r => normalizeRelatedPath nrm r.path = norm) then a
       else { a with related_files := a.related_files ++ [manualEntry rec] }) := by
  by_cases ha : a.related_files.any (fun r => normalizeRelatedPath nrm r.path = norm)
  · rw [if_pos ha]; exact h
  · rw [if_neg ha]
    unfold normsOf at h ⊢
    simp only [List.map_append]
    exact List.mem_append_left _ h

theorem mAppFn_key (nrm : String → String) (norm : String)
    (rec : String × String × String) (a : AppEntry) :
    (if a.related_files.any (fun r => normalizeRelatedPath nrm r.path = norm) then a
     else { a with related_files := a.related_files ++ [manualEntry rec] }).key = a.key := by
  by_cases ha : a.related_files.any (fun r => normalizeRelatedPath nrm r.path = norm)
  · rw [if_pos ha]
  · rw [if_neg ha]
    exact key_set_related _ _

/-- After the append loop of `_apply_manual_related`, the (last) application
carrying each manual owner key holds the record's normalized path. -/
theorem manualFold_presence (nrm : String → String)
    (mbp : List (String × (String × String × String)))
    (hnorm : ∀ q ∈ mbp, normalizeRelatedPath nrm q.2.2.2 = q.1) :
    ∀ (apps : List AppEntry), ∀ q ∈ mbp, ∀ a0,
      lastWith (fun x => x.key = q.2.1)
        (mbp.foldl (fun acc p => manualAppend nrm p.1 p.2 acc) apps) = some a0 →
      q.1 ∈ normsOf nrm a0 := by
  intro apps q hq
  refine fold_establish_mem _
    (fun q acc => ∀ a0, lastWith (fun x => x.key = q.2.1) acc = some a0 →
      q.1 ∈ normsOf nrm a0) mbp ?_ ?_ apps q hq
  · -- the record's own step establishes presence
    intro acc p hp a0 hlast
    cases hl : lastWith (fun x => x.key = p.2.1) acc with
    | none =>
        rw [show manualAppend nrm p.1 p.2 acc = acc from manualAppend_of_none hl] at hlast
        rw [hl] at hlast
        cases hlast
    | some a1 =>
        obtain ⟨l₁, l₂, hdec, hl₂, hupd⟩ := manualAppend_of_some hl
        have ha1k : a1.key = p.2.1 := by
          have := (lastWith_mem hl).2
          simpa using this
        rw [hupd] at hlast
        rw [lastWith_middle _ l₁ _ l₂
          (by rw [mAppFn_key nrm p.1 p.2 a1, ha1k]; simp)
          hl₂] at hlast
        injection hlast with hlast
        subst hlast
        by_cases ha : a1.related_files.any (fun r => normalizeRelatedPath nrm r.path = p.1)
        · rw [if_pos ha]
          simp only [List.any_eq_true, decide_eq_true_eq] at ha
          obtain ⟨r, hr, hrn⟩ := ha
          exact hrn ▸ List.mem_map_of_mem _ hr
        · rw [if_neg ha]
          unfold normsOf
          simp only [List.map_append, List.map_cons, List.map_nil]
          refine List.mem_append_right _ ?_
          rw [show normOf nrm (manualEntry p.2) = normalizeRelatedPath nrm p.2.2.2 from rfl,
            hnorm p hp]
          exact List.mem_singleton.mpr rfl
  · -- every other step preserves presence
    intro acc p hp c hc hP a0 hlast
    cases hl : lastWith (fun x => x.key = c.2.1) acc with
    | none =>
        rw [show manualAppend nrm c.1 c.2 acc = acc from manualAppend_of_none hl] at hlast
        exact hP a0 hlast
    | some a1 =>
        obtain ⟨l₁, l₂, hdec, hl₂, hupd⟩ := manualAppend_of_some hl
        have ha1k : a1.key = c.2.1 := by
          have := (lastWith_mem hl).2
          simpa using this
        rw [hupd] at hlast
        by_cases hk : p.2.1 = c.2.1
        · rw [lastWith_middle _ l₁ _ l₂
            (by rw [mAppFn_key nrm c.1 c.2 a1, ha1k, hk]; simp)
            (by
              intro b hb
              rw [← hk] at hl₂
              exact hl₂ b hb)] at hlast
          injection hlast with hlast
          subst hlast
          refine mAppFn_norms_mono nrm c.1 c.2 a1 (hP a1 ?_)
          rw [hdec] at hl ⊢
          rw [← hk] at hl
          exact hl
        · rw [lastWith_replace_mid _ l₁ _ a1 l₂
            (by
              rw [decide_eq_false_iff_not, mAppFn_key nrm c.1 c.2 a1, ha1k]
              exact fun hcon => hk hcon.symm)
            (by
              rw [decide_eq_false_iff_not, ha1k]
              exact fun hcon => hk hcon.symm), ← hdec] at hlast
          exact hP a0 hlast

/-- The shape of an application list on which `_apply_manual_related`'s keep
filter is the identity: duplicate-free nonempty normalized paths, and every
manually-owned path is held by its owner with source `"manual"`. -/
def KeptOK (nrm : String → String) (mbp : List (String × (String × String × String)))
    (a : AppEntry) : Prop :=
  (a.related_files.map (normOf nrm)).Nodup ∧
  ∀ r ∈ a.related_files, normOf nrm r ≠ "" ∧
    ∀ rec, dictGet mbp (normOf nrm r) = some rec → rec.1 = a.key ∧ r.source = "manual"

theorem KeptOK_manualKeep (nrm : String → String)
    (mbp : List (String × (String × String × String))) (a : AppEntry) :
    KeptOK nrm mbp
      { a with related_files := manualKeep nrm mbp a.key [] a.related_files } := by
  constructor
  · exact manualKeep_nodup nrm mbp a.key a.related_files []
  · intro r hr
    obtain ⟨_, hne, _, hown⟩ := manualKeep_mem nrm mbp a.key a.related_files [] r hr
    exact ⟨hne, hown⟩

theorem KeptOK_manualAppend {nrm : String → String}
    {mbp : List (String × (String × String × String))}
    (hnodup : (dictKeys mbp).Nodup)
    (hnormInv : ∀ q ∈ mbp, q.1 ≠ "" ∧ normalizeRelatedPath nrm q.2.2.2 = q.1)
    {q : String × (String × String × String)} (hq : q ∈ mbp)
    {apps : List AppEntry} (h : ∀ a ∈ apps, KeptOK nrm mbp a) :
    ∀ a ∈ manualAppend nrm q.1 q.2 apps, KeptOK nrm mbp a := by
  cases hl : lastWith (fun x => x.key = q.2.1) apps with
  | none =>
      rw [manualAppend_of_none hl]
      exact h
  | some a1 =>
      obtain ⟨l₁, l₂, hdec, _, hupd⟩ := manualAppend_of_some hl
      have ha1k : a1.key = q.2.1 := by
        have := (lastWith_mem hl).2
        simpa using this
      have ha1 : a1 ∈ apps := (lastWith_mem hl).1
      rw [hupd]
      intro a ha
      rcases List.mem_append.mp ha with ha | ha
      · exact h a (by rw [hdec]; exact List.mem_append_left _ ha)
      · rcases List.mem_cons.mp ha with rfl | ha
        · by_cases hany : a1.related_files.any
              (fun r => normalizeRelatedPath nrm r.path = q.1)
          · rw [if_pos hany]
            exact h a1 ha1
          · rw [if_neg hany]
            obtain ⟨hnd1, hall1⟩ := h a1 ha1
            have hfresh : q.1 ∉ a1.related_files.map (normOf nrm) := by
              intro hc
              obtain ⟨r, hr, hrn⟩ := List.mem_map.mp hc
              exact hany (List.any_eq_true.mpr ⟨r, hr, by
                simp only [decide_eq_true_eq]
                exact hrn⟩)
            have hqget : dictGet mbp q.1 = some q.2 := by
              cases q
              exact dictGet_of_mem_nodup hq hnodup
            constructor
            · show ((a1.related_files ++ [manualEntry q.2]).map (normOf nrm)).Nodup
              rw [List.map_append]
              rw [List.nodup_append]
              refine ⟨hnd1, by simp, ?_⟩
              intro x hx hx1
              simp only [List.map_cons, List.map_nil, List.mem_singleton] at hx1
              rw [show normOf nrm (manualEntry q.2) = normalizeRelatedPath nrm q.2.2.2
                from rfl, (hnormInv q hq).2] at hx1
              exact hfresh (hx1 ▸ hx)
            · intro r hr
              rcases List.mem_append.mp hr with hr | hr
              · obtain ⟨hne, hown⟩ := hall1 r hr
                refine ⟨hne, ?_⟩
                intro rec hrec
                obtain ⟨h1, h2⟩ := hown rec hrec
                exact ⟨by rw [key_set_related]; exact h1, h2⟩
              · simp only [List.mem_singleton] at hr
                subst hr
                have hen : normOf nrm (manualEntry q.2) = q.1 := by
                  rw [show normOf nrm (manualEntry q.2) =
                    normalizeRelatedPath nrm q.2.2.2 from rfl, (hnormInv q hq).2]
                rw [hen]
                refine ⟨(hnormInv q hq).1, ?_⟩
                intro rec hrec
                rw [hqget] at hrec
                injection hrec with hrec
                subst hrec
                exact ⟨by rw [key_set_related]; exact ha1k.symm, rfl⟩
        · exact h a (by rw [hdec]; exact List.mem_append_right _ (List.mem_cons_of_mem _ ha))

theorem KeptOK_fold {nrm : String → String}
    {mbp : List (String × (String × String × String))}
    (hnodup : (dictKeys mbp).Nodup)
    (hnormInv : ∀ q ∈ mbp, q.1 ≠ "" ∧ normalizeRelatedPath nrm q.2.2.2 = q.1)
    {apps : List AppEntry} (h : ∀ a ∈ apps, KeptOK nrm mbp a) :
    ∀ a ∈ mbp.foldl (fun acc p => manualAppend nrm p.1 p.2 acc) apps,
      KeptOK nrm mbp a := by
  refine foldl_induction_mem _
    (fun acc : List AppEntry => ∀ a ∈ acc, KeptOK nrm mbp a) mbp ?_ apps h
  intro acc p hp hacc
  exact KeptOK_manualAppend hnodup hnormInv hp hacc

/-- The keep phase of `_apply_manual_related`, per application. -/
def keepFn (nrm : String → String) (mbp : List (String × (String × String × String)))
    (a : AppEntry) : AppEntry :=
  { a with related_files := manualKeep nrm mbp a.key [] a.related_files }

theorem applyManualRelated_eq (nrm : String → String)
    (manual : List (String × List ManualItem)) (apps : List AppEntry)
    (h1 : manual ≠ []) (h2 : appByKey apps ≠ [])
    (h3 : manualByPath nrm manual (dictKeys (appByKey apps)) ≠ []) :
    applyManualRelated nrm manual apps =
      (manualByPath nrm manual (dictKeys (appByKey apps))).foldl
        (fun acc p => manualAppend nrm p.1 p.2 acc)
        (apps.map (keepFn nrm (manualByPath nrm manual (dictKeys (appByKey apps))))) := by
  simp only [applyManualRelated]
  rw [if_neg h1, if_neg h2, if_neg h3]
  rfl

/-- `_apply_manual_related` is idempotent. -/
theorem applyManualRelated_idem (nrm : String → String)
    (manual : List (String × List ManualItem)) (apps : List AppEntry) :
    applyManualRelated nrm manual (applyManualRelated nrm manual apps) =
      applyManualRelated nrm manual apps := by
  by_cases h1 : manual = []
  · have hid : ∀ z, applyManualRelated nrm manual z = z := by
      intro z
      simp only [applyManualRelated]
      rw [if_pos h1]
    rw [hid, hid]
  · by_cases h2 : appByKey apps = []
    · have happs : apps = [] := by
        by_contra hc
        exact appByKey_ne_nil hc h2
      subst happs
      have hid : applyManualRelated nrm manual [] = [] := by
        simp only [applyManualRelated]
        rw [if_neg h1]
        simp [appByKey]
      rw [hid, hid]
    · by_cases h3 : manualByPath nrm manual (dictKeys (appByKey apps)) = []
      · have hid : applyManualRelated nrm manual apps = apps := by
          simp only [applyManualRelated]
          rw [if_neg h1, if_neg h2, if_pos h3]
        rw [hid, hid]
      · have happsne : apps ≠ [] := by
          intro hc
          subst hc
          exact h2 rfl
        have hyne : applyManualRelated nrm manual apps ≠ [] := by
          intro hc
          have hk := keysOf_applyManualRelated nrm manual apps
          rw [hc] at hk
          cases apps with
          | nil => exact happsne rfl
          | cons a as => simp at hk
        have hKS : dictKeys (appByKey (applyManualRelated nrm manual apps)) =
            dictKeys (appByKey apps) :=
          dictKeys_appByKey_congr (keysOf_applyManualRelated nrm manual apps)
        obtain ⟨hmbpnd, hmbpinv⟩ := manualByPath_inv nrm manual (dictKeys (appByKey apps))
        have hnormInv : ∀ q ∈ manualByPath nrm manual (dictKeys (appByKey apps)),
            q.1 ≠ "" ∧ normalizeRelatedPath nrm q.2.2.2 = q.1 :=
          fun q hq => ⟨(hmbpinv q hq).1, (hmbpinv q hq).2.1⟩
        have hchar := applyManualRelated_eq nrm manual apps h1 h2 h3
        have hkept : ∀ a' ∈ applyManualRelated nrm manual apps,
            KeptOK nrm (manualByPath nrm manual (dictKeys (appByKey apps))) a' := by
          rw [hchar]
          apply KeptOK_fold hmbpnd hnormInv
          intro a ha
          obtain ⟨a0, _, rfl⟩ := List.mem_map.mp ha
          exact KeptOK_manualKeep nrm _ a0
        have hkeepid : ∀ a' ∈ applyManualRelated nrm manual apps,
            keepFn nrm (manualByPath nrm manual (dictKeys (appByKey apps))) a' = a' := by
          intro a' ha'
          obtain ⟨hnd, hall⟩ := hkept a' ha'
          unfold keepFn
          rw [manualKeep_fix nrm _ a'.key a'.related_files []
            (by
              intro r hr
              obtain ⟨hne, hown⟩ := hall r hr
              exact ⟨hne, by simp, hown⟩)
            hnd]
        have hpres : ∀ q ∈ manualByPath nrm manual (dictKeys (appByKey apps)), ∀ a0,
            lastWith (fun x => x.key = q.2.1) (applyManualRelated nrm manual apps) =
              some a0 → q.1 ∈ normsOf nrm a0 := by
          rw [hchar]
          exact manualFold_presence nrm _ (fun q hq => (hmbpinv q hq).2.1) _
        rw [applyManualRelated_eq nrm manual (applyManualRelated nrm manual apps) h1
          (appByKey_ne_nil hyne) (by rw [hKS]; exact h3)]
        rw [hKS]
        have hmapid : (applyManualRelated nrm manual apps).map
            (keepFn nrm (manualByPath nrm manual (dictKeys (appByKey apps)))) =
            applyManualRelated nrm manual apps := by
          rw [List.map_congr_left (fun a' ha' => (hkeepid a' ha' :
            keepFn nrm (manualByPath nrm manual (dictKeys (appByKey apps))) a' = id a'))]
          exact List.map_id _
        rw [hmapid]
        apply foldl_id_of_steps
        intro p hp
        cases hl : lastWith (fun x => x.key = p.2.1) (applyManualRelated nrm manual apps) with
        | none => exact manualAppend_of_none hl
        | some a0 =>
            obtain ⟨l₁, l₂, hdec, _, hupd⟩ := manualAppend_of_some hl
            have hmem := hpres p hp a0 hl
            have hany : a0.related_files.any
                (fun r => normalizeRelatedPath nrm r.path = p.1) = true := by
              obtain ⟨r, hr, hrn⟩ := List.mem_map.mp hmem
              exact List.any_eq_true.mpr ⟨r, hr, by
                simp only [decide_eq_true_eq]
                exact hrn⟩
            rw [hupd, if_pos hany, ← hdec]

/-- `_apply_related_ignores` is idempotent. -/
theorem applyRelatedIgnores_idem (nrm : String → String)
    (g : List (String × List String)) (apps : List AppEntry) :
    applyRelatedIgnores nrm g (applyRelatedIgnores nrm g apps) =
      applyRelatedIgnores nrm g apps := by
  rw [applyRelatedIgnores_eq_map nrm g apps, applyRelatedIgnores_eq_map nrm g]
  rw [List.map_map]
  apply List.map_congr_left
  intro a _
  show removeApp nrm (removeDict nrm g) (removeApp nrm (removeDict nrm g) a) =
    removeApp nrm (removeDict nrm g) a
  exact removeApp_idem nrm _ a

/-- `_apply_related_unassigned` is idempotent. -/
theorem applyRelatedUnassigned_idem (nrm : String → String)
    (u : List (String × List String)) (apps : List AppEntry) :
    applyRelatedUnassigned nrm u (applyRelatedUnassigned nrm u apps) =
      applyRelatedUnassigned nrm u apps := by
  rw [applyRelatedUnassigned_eq_map nrm u apps, applyRelatedUnassigned_eq_map nrm u]
  rw [List.map_map]
  apply List.map_congr_left
  intro a _
  show removeApp nrm (removeDict nrm u) (removeApp nrm (removeDict nrm u) a) =
    removeApp nrm (removeDict nrm u) a
  exact removeApp_idem nrm _ a

/-! ### Concrete session data used by counterexamples and witnesses.
`idNorm` is a legitimate session normalizer: on the already-canonical path
strings used below, `os.path.normcase(os.path.abspath(p))` is the identity. -/

/-- Identity path normalizer for concrete scenarios over canonical paths. -/
def idNorm : String → String := fun s => s

/-- Concrete application `A 1.0` holding one heuristic claim on path `P`. -/
def exAppA : AppEntry :=
  { name := "A", version := "1",
    related_files := [{ path := "P", source := "install_location", confidence := "High", score := 130 }] }

/-- Concrete application `B 1.0` with no heuristic claims. -/
def exAppB : AppEntry := { name := "B", version := "1" }

/-! ### C5 — layer order of the override compositor -/

/-- C5 (counterexample): the compositor does not apply the layers in the
claimed order (manual, then ignores, then unassignments, then reassignments
last).  With a reassignment of `P` to `B` and an ignore record of `P` for
`B`, the code's pipeline first moves `P` to `B` and then ignores it (final
lists: both empty), while the claimed order would ignore nothing (since `P`
still belongs to `A` at ignore time) and end with `P` owned by `B`. -/
theorem applyScanPipeline_not_spec_order :
    applyScanPipeline idNorm [] [("P", exAppB.key)] [(exAppB.key, ["P"])] [] [exAppA, exAppB] ≠
      applyRelatedOverrides idNorm [("P", exAppB.key)]
        (applyRelatedUnassigned idNorm []
          (applyRelatedIgnores idNorm [(exAppB.key, ["P"])]
            (applyManualRelated idNorm [] [exAppA, exAppB]))) := by decide

/-- C5 (amended): the compositor applies its four layers in this fixed order
on top of the deduplicated heuristic result: manual additions first, then
explicit reassignments, then ignore lists, then unassignment records last
(`_apply_scan_results` lines 572–575, `on_related_add_files` lines
1578–1581). -/
theorem applyScanPipeline_order (nrm : String → String)
    (manual : List (String × List ManualItem)) (ovr : List (String × String))
    (ignore unassigned : List (String × List String)) (apps : List AppEntry) :
    applyScanPipeline nrm manual ovr ignore unassigned apps =
      applyRelatedUnassigned nrm unassigned
        (applyRelatedIgnores nrm ignore
          (applyRelatedOverrides nrm ovr
            (applyManualRelated nrm manual apps))) := rfl

/-! ### C10 — manual records for absent applications have no effect -/

/-- C10: a manual override record `(K, items)` whose application key `K`
matches no application in the list being composed has no effect on the
manual layer: the output is the same as if the record were absent — no
entry is created for its paths and no other application's claims on the
same normalized paths are removed on its account. -/
theorem applyManualRelated_nil (nrm : String → String)
    (manual : List (String × List ManualItem)) :
    applyManualRelated nrm manual [] = [] := by
  unfold applyManualRelated appByKey
  simp

theorem applyManualRelated_absent_key_no_effect
    (nrm : String → String) (K : String) (items : List ManualItem)
    (manual₁ manual₂ : List (String × List ManualItem)) (apps : List AppEntry)
    (h : ∀ a ∈ apps, a.key ≠ K) :
    applyManualRelated nrm (manual₁ ++ (K, items) :: manual₂) apps =
      applyManualRelated nrm (manual₁ ++ manual₂) apps := by
  rcases eq_or_ne apps [] with rfl | happs
  · rw [applyManualRelated_nil, applyManualRelated_nil]
  · have habk : appByKey apps ≠ [] := appByKey_ne_nil happs
    have hKmem : K ∉ dictKeys (appByKey apps) := by
      intro hK
      obtain ⟨a, ha, hak⟩ := mem_dictKeys_appByKey.mp hK
      exact h a ha hak
    have hKc : (dictKeys (appByKey apps)).contains K = false := by
      simpa using hKmem
    have hmbp :
        manualByPath nrm (manual₁ ++ (K, items) :: manual₂) (dictKeys (appByKey apps)) =
          manualByPath nrm (manual₁ ++ manual₂) (dictKeys (appByKey apps)) := by
      unfold manualByPath
      rw [List.foldl_append, List.foldl_append, List.foldl_cons]
      congr 1
      rw [hKc]
      simp
    simp only [applyManualRelated]
    rw [if_neg (show ¬(manual₁ ++ (K, items) :: manual₂ = []) by simp)]
    rw [if_neg habk]
    rw [hmbp]
    rcases eq_or_ne (manual₁ ++ manual₂) [] with hm | hm
    · rw [if_pos hm, hm]
      have : manualByPath nrm [] (dictKeys (appByKey apps)) = [] := rfl
      rw [this]
      simp
    · rw [if_neg hm, if_neg habk]

/-! ### `related_scanner._fuzzy_score` (deep-scan similarity scorer) -/

/-- `related_scanner._fuzzy_score`.  `ratio` is
`difflib.SequenceMatcher(None, ·, ·).ratio()`, a library call modelled as a
function into ℚ (float arithmetic modelled exactly); `0.9` is the
publisher discount factor and `int(best * 100)` truncates toward zero,
which on the rational `best * 100 = (best.num * 100) / best.den` is
`Int.tdiv` of numerator by denominator. -/
def fuzzyScore (ratio : String → String → ℚ) (candidate name_full : String)
    (name_tokens : List String) (pub_full : String) (pub_tokens : List String) : ℤ :=
  if candidate = "" then 0
  else
    let best := name_tokens.foldl
      (fun b t => if t = "" then b else max b (ratio candidate t)) 0
    let best := if name_full ≠ "" then max best (ratio candidate name_full) else best
    let pub_best := pub_tokens.foldl
      (fun b t => if t = "" then b else max b (ratio candidate t)) 0
    let pub_best := if pub_full ≠ "" then max pub_best (ratio candidate pub_full) else pub_best
    let best := if pub_best ≠ 0 then max best (pub_best * (9 / 10)) else best
    Int.tdiv (best.num * 100) best.den

/-- `related_scanner._confidence_from_score`. -/
def confidenceFromScore (score : Int) : String :=
  if score ≥ 85 then "High"
  else if score ≥ 72 then "Medium"
  else if score ≥ 60 then "Low"
  else ""

/-- The specification's formula for the deep-scan similarity score (spec
§4.2): the integer truncation of 100 times the maximum (with base 0) over
the ratio of the candidate against each name token and against the full
cleaned name, and 0.9 times the best ratio against each publisher token and
against the full cleaned publisher. -/
def fuzzyScoreSpec (ratio : String → String → ℚ) (candidate name_full : String)
    (name_tokens : List String) (pub_full : String) (pub_tokens : List String) : ℤ :=
  let nameRatios :=
    ((name_tokens.filter (fun t => t ≠ "")).map (fun t => ratio candidate t)) ++
      (if name_full ≠ "" then [ratio candidate name_full] else [])
  let pubRatios :=
    ((pub_tokens.filter (fun t => t ≠ "")).map (fun t => ratio candidate t)) ++
      (if pub_full ≠ "" then [ratio candidate pub_full] else [])
  let pubBest := pubRatios.foldl max 0
  let best := (nameRatios ++ [(9 / 10) * pubBest]).foldl max 0
  Int.tdiv (best.num * 100) best.den

theorem foldl_max_skip_empty (r : String → ℚ) (l : List String) (b : ℚ) :
    l.foldl (fun b t => if t = "" then b else max b (r t)) b =
      ((l.filter (fun t => t ≠ "")).map r).foldl max b := by
  induction l generalizing b with
  | nil => rfl
  | cons t ts ih =>
      by_cases ht : t = ""
      · simp [ht, ih]
      · simp [ht, ih]

theorem le_foldl_max (l : List ℚ) (b : ℚ) : b ≤ l.foldl max b := by
  induction l generalizing b with
  | nil => exact le_refl b
  | cons x xs ih => exact le_trans (le_max_left b x) (ih (max b x))

theorem foldl_max_le (l : List ℚ) (b c : ℚ) (hb : b ≤ c) (h : ∀ x ∈ l, x ≤ c) :
    l.foldl max b ≤ c := by
  induction l generalizing b with
  | nil => exact hb
  | cons x xs ih =>
      exact ih (max b x) (max_le hb (h x (List.mem_cons_self _ _)))
        (fun y hy => h y (List.mem_cons_of_mem _ hy))

theorem code_eq_spec_max (B P : ℚ) (hB : 0 ≤ B) :
    (if P ≠ 0 then max B (P * (9 / 10)) else B) = max B ((9 / 10) * P) := by
  by_cases h : P ≠ 0
  · rw [if_pos h, mul_comm]
  · push_neg at h
    rw [if_neg (by simp [h]), h, mul_zero, max_eq_left hB]

/-- C9: for every candidate name (the empty one included) and application
identity, the deep-scan similarity score equals the truncation to an integer
percentage of the maximum over the ratio of the candidate against each name
token and the full cleaned name and 0.9 times the best ratio against each
publisher token and the full cleaned publisher; and the score lies in
`[0, 100]`.  `ratio` is axiomatized as `difflib.SequenceMatcher.ratio`:
valued in `[0, 1]`, and `0` whenever the first string is empty and the
second is not (no characters can match). -/
theorem fuzzyScore_eq_spec_and_range (ratio : String → String → ℚ)
    (candidate name_full pub_full : String) (name_tokens pub_tokens : List String)
    (hr : ∀ x y, 0 ≤ ratio x y ∧ ratio x y ≤ 1)
    (hr0 : ∀ y, y ≠ "" → ratio "" y = 0) :
    fuzzyScore ratio candidate name_full name_tokens pub_full pub_tokens =
      fuzzyScoreSpec ratio candidate name_full name_tokens pub_full pub_tokens ∧
    0 ≤ fuzzyScore ratio candidate name_full name_tokens pub_full pub_tokens ∧
    fuzzyScore ratio candidate name_full name_tokens pub_full pub_tokens ≤ 100 := by
  by_cases hc : candidate = ""
  · subst hc
    have hfold0 : ∀ L : List ℚ, (∀ x ∈ L, x = 0) → L.foldl max 0 = (0 : ℚ) := by
      intro L hL
      exact le_antisymm
        (foldl_max_le _ _ _ le_rfl (fun x hx => le_of_eq (hL x hx)))
        (le_foldl_max _ _)
    have hallN : ∀ x ∈ (name_tokens.filter (fun t => t ≠ "")).map (fun t => ratio "" t) ++
        (if name_full ≠ "" then [ratio "" name_full] else []), x = (0 : ℚ) := by
      intro x hx
      rcases List.mem_append.mp hx with hx | hx
      · obtain ⟨t, ht, rfl⟩ := List.mem_map.mp hx
        exact hr0 t (by simpa using (List.mem_filter.mp ht).2)
      · by_cases hnf : name_full ≠ ""
        · rw [if_pos hnf] at hx
          simp only [List.mem_singleton] at hx
          subst hx
          exact hr0 _ hnf
        · rw [if_neg hnf] at hx
          cases hx
    have hallP : ∀ x ∈ (pub_tokens.filter (fun t => t ≠ "")).map (fun t => ratio "" t) ++
        (if pub_full ≠ "" then [ratio "" pub_full] else []), x = (0 : ℚ) := by
      intro x hx
      rcases List.mem_append.mp hx with hx | hx
      · obtain ⟨t, ht, rfl⟩ := List.mem_map.mp hx
        exact hr0 t (by simpa using (List.mem_filter.mp ht).2)
      · by_cases hpf : pub_full ≠ ""
        · rw [if_pos hpf] at hx
          simp only [List.mem_singleton] at hx
          subst hx
          exact hr0 _ hpf
        · rw [if_neg hpf] at hx
          cases hx
    have hspec : fuzzyScoreSpec ratio "" name_full name_tokens pub_full pub_tokens = 0 := by
      simp only [fuzzyScoreSpec]
      rw [hfold0 _ hallP, mul_zero]
      rw [hfold0 _ (by
        intro x hx
        rcases List.mem_append.mp hx with hx | hx
        · exact hallN x hx
        · simp only [List.mem_singleton] at hx
          exact hx)]
      decide
    have hcode : fuzzyScore ratio "" name_full name_tokens pub_full pub_tokens = 0 := by
      simp only [fuzzyScore]
      rw [if_pos trivial]
    rw [hcode, hspec]
    norm_num
  · simp only [fuzzyScore, fuzzyScoreSpec, if_neg hc]
    rw [foldl_max_skip_empty, foldl_max_skip_empty]
    set nb := ((name_tokens.filter (fun t => t ≠ "")).map (fun t => ratio candidate t)).foldl max (0 : ℚ) with hnbdef
    set pb := ((pub_tokens.filter (fun t => t ≠ "")).map (fun t => ratio candidate t)).foldl max (0 : ℚ) with hpbdef
    have hnb0 : (0 : ℚ) ≤ nb := le_foldl_max _ _
    have hpb0 : (0 : ℚ) ≤ pb := le_foldl_max _ _
    have hnb1 : nb ≤ 1 := by
      rw [hnbdef]
      refine foldl_max_le _ _ _ (by norm_num) ?_
      intro x hx
      obtain ⟨t, _, rfl⟩ := List.mem_map.mp hx
      exact (hr candidate t).2
    have hpb1 : pb ≤ 1 := by
      rw [hpbdef]
      refine foldl_max_le _ _ _ (by norm_num) ?_
      intro x hx
      obtain ⟨t, _, rfl⟩ := List.mem_map.mp hx
      exact (hr candidate t).2
    set B := if name_full ≠ "" then max nb (ratio candidate name_full) else nb with hBdef
    set P := if pub_full ≠ "" then max pb (ratio candidate pub_full) else pb with hPdef
    have hB0 : (0 : ℚ) ≤ B := by
      rw [hBdef]; split
      · exact le_trans hnb0 (le_max_left _ _)
      · exact hnb0
    have hB1 : B ≤ 1 := by
      rw [hBdef]; split
      · exact max_le hnb1 (hr candidate name_full).2
      · exact hnb1
    have hP0 : (0 : ℚ) ≤ P := by
      rw [hPdef]; split
      · exact le_trans hpb0 (le_max_left _ _)
      · exact hpb0
    have hP1 : P ≤ 1 := by
      rw [hPdef]; split
      · exact max_le hpb1 (hr candidate pub_full).2
      · exact hpb1
    have hspec :
        (((name_tokens.filter (fun t => t ≠ "")).map (fun t => ratio candidate t) ++
            (if name_full ≠ "" then [ratio candidate name_full] else [])) ++
          [(9 / 10) * P]).foldl max (0 : ℚ) = max B ((9 / 10) * P) := by
      rw [List.foldl_append, List.foldl_append]
      simp only [List.foldl_cons, List.foldl_nil]
      congr 1
      rw [hBdef]
      split
      · simp only [List.foldl_cons, List.foldl_nil]
      · simp only [List.foldl_nil]
    have hcode : (if P ≠ 0 then max B (P * (9 / 10)) else B) = max B ((9 / 10) * P) :=
      code_eq_spec_max B P hB0
    have hbest0 : (0 : ℚ) ≤ max B ((9 / 10) * P) := le_trans hB0 (le_max_left _ _)
    have hbest1 : max B ((9 / 10) * P) ≤ 1 := by
      refine max_le hB1 ?_
      calc (9 / 10 : ℚ) * P ≤ (9 / 10) * 1 := by
            exact mul_le_mul_of_nonneg_left hP1 (by norm_num)
      _ ≤ 1 := by norm_num
    have hP2 : ((pub_tokens.filter (fun t => t ≠ "")).map (fun t => ratio candidate t) ++
        (if pub_full ≠ "" then [ratio candidate pub_full] else [])).foldl max (0 : ℚ) = P := by
      rw [List.foldl_append, hPdef]
      split
      · simp only [List.foldl_cons, List.foldl_nil]
      · simp only [List.foldl_nil]
    rw [hP2, hspec, hcode]
    set q := B ⊔ 9 / 10 * P with hq
    have hnum0 : (0 : ℤ) ≤ q.num := Rat.num_nonneg.mpr hbest0
    have hden0 : (0 : ℤ) ≤ (q.den : ℤ) := Int.ofNat_nonneg _
    have hdenpos : (0 : ℤ) < (q.den : ℤ) := by exact_mod_cast q.den_pos
    refine ⟨rfl, ?_, ?_⟩
    · exact Int.tdiv_nonneg (by positivity) hden0
    · have hnumden : q.num ≤ (q.den : ℤ) := by
        have h1 : ((q.num : ℚ) / (q.den : ℚ)) ≤ 1 := by
          rw [Rat.num_div_den]
          exact hbest1
        rw [div_le_one (by exact_mod_cast q.den_pos)] at h1
        exact_mod_cast h1
      rw [Int.tdiv_eq_ediv (by positivity) hden0]
      have hle : q.num * 100 ≤ 100 * (q.den : ℤ) := by nlinarith
      calc q.num * 100 / (q.den : ℤ) ≤ 100 * (q.den : ℤ) / (q.den : ℤ) :=
            Int.ediv_le_ediv hdenpos hle
      _ = 100 := Int.mul_ediv_cancel 100 (by positivity)

/-- C9 witness: the theorem applied to a concrete similarity function that
is `0` on an empty first argument (as difflib's ratio) and `1/2` otherwise. -/
theorem fuzzyScore_eq_spec_and_range_witness :
    ((∀ x y : String, 0 ≤ (fun x _ => if x = "" then (0 : ℚ) else 1 / 2) x y ∧
        (fun x _ => if x = "" then (0 : ℚ) else 1 / 2) x y ≤ 1) ∧
      (∀ y : String, y ≠ "" → (fun x _ => if x = "" then (0 : ℚ) else 1 / 2) "" y = 0)) ∧
    (fuzzyScore (fun x _ => if x = "" then (0 : ℚ) else 1 / 2) "foobar" "foo bar"
        ["foo bar", "foo", "bar"] "acme" ["acme"] =
      fuzzyScoreSpec (fun x _ => if x = "" then (0 : ℚ) else 1 / 2) "foobar" "foo bar"
        ["foo bar", "foo", "bar"] "acme" ["acme"] ∧
    0 ≤ fuzzyScore (fun x _ => if x = "" then (0 : ℚ) else 1 / 2) "foobar" "foo bar"
        ["foo bar", "foo", "bar"] "acme" ["acme"] ∧
    fuzzyScore (fun x _ => if x = "" then (0 : ℚ) else 1 / 2) "foobar" "foo bar"
        ["foo bar", "foo", "bar"] "acme" ["acme"] ≤ 100) :=
  ⟨⟨fun x y => by
      dsimp only
      split <;> norm_num,
    fun y _ => by
      dsimp only
      rw [if_pos rfl]⟩,
    fuzzyScore_eq_spec_and_range (fun x _ => if x = "" then (0 : ℚ) else 1 / 2)
      "foobar" "foo bar" "acme" ["foo bar", "foo", "bar"] ["acme"]
      (fun x y => by
        dsimp only
        split <;> norm_num)
      (fun y _ => by
        dsimp only
        rw [if_pos rfl])⟩

/-! ### `scanner.py` — install-size computation (`_normalize_install_location`,
`_dir_size_bytes`, `_compute_install_size_mb`) -/

/-- ASCII model of Python `str.casefold()` / `str.lower()` (they agree on
ASCII, which is all the source's comparisons use). -/
def asciiLower (s : String) : String := String.mk (s.toList.map Char.toLower)

/-- `needle` starts the list `hay`. -/
def listStarts : List Char → List Char → Bool
  | [], _ => true
  | _ :: _, [] => false
  | c :: cs, d :: ds => c = d && listStarts cs ds

/-- Python `haystack.find(needle)` on character lists (first index, `none`
when absent; `in` is `(findSub ..).isSome`). -/
def findSub (needle : List Char) : List Char → Option Nat
  | [] => if listStarts needle [] then some 0 else none
  | c :: cs =>
      if listStarts needle (c :: cs) then some 0
      else (findSub needle cs).map (· + 1)

/-- Python `s.endswith(t)`. -/
def strEnds (needle s : String) : Bool :=
  listStarts needle.toList.reverse s.toList.reverse

/-- `scanner.AppScanner._normalize_install_location`.  `expand` models
`os.path.expandvars(os.path.expanduser(·))`. -/
def normalizeInstallLocation (expand : String → String) (raw : String) : String :=
  if raw = "" then ""
  else
    let path := stripQuotes (pyStrip raw)
    if path = "" then ""
    else
      let lower := asciiLower path
      if lower = "unknown" ∨ lower = "n/a" ∨ lower = "na" ∨ lower = "none" ∨ lower = "null" then ""
      else if listStarts "unknown".toList lower.toList then ""
      else
        let path :=
          match findSub ".exe".toList lower.toList with
          | some idx => pyStrip (String.mk (path.toList.take (idx + 4)))
          | none => path
        expand path

/-- A filesystem node as seen by `os.scandir` during `_dir_size_bytes`:
regular file with its `st_size`; file whose `stat` raises `OSError` (the
count was already incremented when the exception hits); directory with an
`ok` flag (`false`: `os.scandir` on it raises `OSError` and it is skipped)
and its listed entries; symlink (skipped); entry whose `is_symlink`/`is_dir`
check raises `OSError` (skipped). -/
inductive FsNode where
  | file (size : Nat)
  | fileStatErr
  | dir (ok : Bool) (entries : List FsNode)
  | symlink
  | entryErr

mutual
/-- Upper bound on the number of stack pops a node can cause. -/
def nodeCost : FsNode → Nat
  | .dir _ es => 1 + listCost es
  | _ => 1
/-- Sum of `nodeCost` over a listing. -/
def listCost : List FsNode → Nat
  | [] => 0
  | e :: es => nodeCost e + listCost es
end

/-- `scanner.SizeScanLimits` (float seconds modelled as `Nat` clock units). -/
structure SizeScanLimits where
  maxFiles : Nat := 20000
  maxDepth : Nat := 6
  maxSeconds : Nat := 2
  deriving Repr, DecidableEq

/-- The `for entry in entries:` body of `_dir_size_bytes`: count and sum
regular files (returning `None` when the file ceiling is already reached),
push non-pruned subdirectories onto the stack (`stack.append`, with the top
of the stack at the head here), skip symlinks and erroring entries. -/
def sizeEntriesPass (maxFiles maxDepth : Option Nat) (depth : Nat) :
    List FsNode → Nat × Nat × List (FsNode × Nat) → Option (Nat × Nat × List (FsNode × Nat))
  | [], st => some st
  | e :: es, (fc, tot, stk) =>
    match e with
    | .symlink => sizeEntriesPass maxFiles maxDepth depth es (fc, tot, stk)
    | .entryErr => sizeEntriesPass maxFiles maxDepth depth es (fc, tot, stk)
    | .dir ok cs =>
        (match maxDepth with
        | some md =>
            if depth + 1 > md then sizeEntriesPass maxFiles maxDepth depth es (fc, tot, stk)
            else sizeEntriesPass maxFiles maxDepth depth es (fc, tot, (FsNode.dir ok cs, depth + 1) :: stk)
        | none => sizeEntriesPass maxFiles maxDepth depth es (fc, tot, (FsNode.dir ok cs, depth + 1) :: stk))
    | .file sz =>
        (match maxFiles with
        | some mf =>
            if fc ≥ mf then none
            else sizeEntriesPass maxFiles maxDepth depth es (fc + 1, tot + sz, stk)
        | none => sizeEntriesPass maxFiles maxDepth depth es (fc + 1, tot + sz, stk))
    | .fileStatErr =>
        (match maxFiles with
        | some mf =>
            if fc ≥ mf then none
            else sizeEntriesPass maxFiles maxDepth depth es (fc + 1, tot, stk)
        | none => sizeEntriesPass maxFiles maxDepth depth es (fc + 1, tot, stk))

/-- The `while stack:` loop of `_dir_size_bytes`.  `fuel` strictly exceeds
the number of possible pops (`nodeCost` of everything on the stack), so the
`fuel = 0` sentinel is unreachable; it exists only to make the loop
structurally recursive.  The deadline is sampled through `clock` once per
pop, exactly as `time.monotonic()` is. -/
def dirSizeLoop (clock : Nat → Nat) (maxFiles maxDepth deadline : Option Nat) :
    Nat → Nat → Nat → Nat → List (FsNode × Nat) → Option Nat
  | _, _, _, tot, [] => some tot
  | 0, _, _, _, _ :: _ => none
  | fuel + 1, tick, fc, tot, (node, depth) :: rest =>
    if deadline.isSome ∧ clock tick ≥ deadline.getD 0 then none
    else
      let tick' := if deadline.isSome then tick + 1 else tick
      match node with
      | .dir true es =>
          match sizeEntriesPass maxFiles maxDepth depth es (fc, tot, rest) with
          | none => none
          | some (fc', tot', stk') => dirSizeLoop clock maxFiles maxDepth deadline fuel tick' fc' tot' stk'
      | _ => dirSizeLoop clock maxFiles maxDepth deadline fuel tick' fc tot rest

/-- `scanner.AppScanner._dir_size_bytes` on the directory node of the root
path. -/
def dirSizeBytes (clock : Nat → Nat) (root : FsNode) (limits : Option SizeScanLimits) :
    Option Nat :=
  let maxFiles := limits.map (fun l => l.maxFiles)
  let maxDepth := limits.map (fun l => l.maxDepth)
  let deadline :=
    match limits with
    | some l => if l.maxSeconds ≠ 0 then some (clock 0 + l.maxSeconds) else none
    | none => none
  let tick0 := if deadline.isSome then 1 else 0
  dirSizeLoop clock maxFiles maxDepth deadline (nodeCost root + 1) tick0 0 0 [(root, 0)]

/-- The filesystem/OS environment `_compute_install_size_mb` consults. -/
structure SizeEnv where
  expand : String → String
  pathExists : String → Bool
  isfile : String → Bool
  getsize : String → Option Nat
  dirname : String → String
  node : String → FsNode
  clock : Nat → Nat

/-- `scanner.AppScanner._compute_install_size_mb`. -/
def computeInstallSizeMb (env : SizeEnv) (raw : String) (limits : Option SizeScanLimits) :
    Option Nat :=
  let path := normalizeInstallLocation env.expand raw
  if path = "" ∨ ¬ env.pathExists path then none
  else if env.isfile path then
    if strEnds ".exe" (asciiLower path) then
      let path2 := env.dirname path
      if path2 = "" ∨ ¬ env.pathExists path2 then none
      else
        match dirSizeBytes env.clock (env.node path2) limits with
        | some sz => some (max (sz / (1024 * 1024)) 0)
        | none => none
    else
      match env.getsize path with
      | some sz => some (max (sz / (1024 * 1024)) 0)
      | none => none
  else
    match dirSizeBytes env.clock (env.node path) limits with
    | some sz => some (max (sz / (1024 * 1024)) 0)
    | none => none

/-! ### `related_scanner.py` — tokens, cleaning, config-file scan,
`scan_for_app` -/

/-- `related_scanner._cleaned` minus the final `casefold`/strip: replace
every run of non-alphanumeric characters by one space
(`re.sub(r"[^a-zA-Z0-9]+", " ", text)`). -/
def squeezeSpaces : List Char → List Char
  | [] => []
  | [c] => [c]
  | c :: d :: rest =>
      if c = ' ' ∧ d = ' ' then squeezeSpaces (d :: rest)
      else c :: squeezeSpaces (d :: rest)

/-- `related_scanner._cleaned`: strip non-alphanumerics to single spaces,
strip, casefold (ASCII model). -/
def cleanedOf (text : String) : String :=
  if text = "" then ""
  else
    asciiLower (pyStrip (String.mk (squeezeSpaces
      (text.toList.map (fun c => if c.isAlpha ∨ c.isDigit then c else ' ')))))

/-- Split on spaces, dropping empty chunks (Python `str.split()` on a
single-space-separated string). -/
def splitSp : List Char → List Char → List String
  | [], acc => if acc = [] then [] else [String.mk acc.reverse]
  | c :: cs, acc =>
      if c = ' ' then
        (if acc = [] then splitSp cs [] else String.mk acc.reverse :: splitSp cs [])
      else splitSp cs (c :: acc)

/-- First-occurrence de-duplication (`dict.fromkeys`). -/
def dedupList : List String → List String :=
  go []
where
  go (seen : List String) : List String → List String
    | [] => []
    | s :: ss => if seen.contains s then go seen ss else s :: go (s :: seen) ss

/-- `related_scanner._tokens`: the whole cleaned string plus each chunk of
length ≥ 3, de-duplicated in order. -/
def tokensOf (text : String) : List String :=
  if text = "" then []
  else
    let cleaned := cleanedOf text
    if cleaned = "" then []
    else dedupList (cleaned :: (splitSp cleaned.toList []).filter (fun c => c.length ≥ 3))

/-- `related_scanner._clean_path`: strip whitespace, then quotes, then
`os.path.expandvars` (the parameter `expand`). -/
def cleanPath (expand : String → String) (path : String) : String :=
  let text := pyStrip path
  if text = "" then "" else expand (stripQuotes text)

/-- `related_scanner.CONFIG_EXTENSIONS`. -/
def CONFIG_EXTENSIONS : List String :=
  [".cfg", ".config", ".dat", ".db", ".ini", ".json", ".sqlite", ".xml", ".yaml", ".yml"]

/-- `os.path.splitext(name)[1]`: the extension from the last dot, unless
that dot belongs to the leading run of dots. -/
def splitExtExt (name : String) : String :=
  let cs := name.toList
  let afterRev := cs.reverse.takeWhile (fun c => c ≠ '.')
  if afterRev.length = cs.length then ""
  else
    let headLen := cs.length - afterRev.length - 1
    if (cs.take headLen).all (fun c => c = '.') then ""
    else String.mk ('.' :: afterRev.reverse)

/-- `os.path.basename` (fixed `/` separator model). -/
def baseName (p : String) : String :=
  String.mk ((p.toList.reverse.takeWhile (fun c => c ≠ '/')).reverse)

/-- `os.path.join(current, filename)` (fixed `/` separator model). -/
def joinPath (current filename : String) : String := current ++ "/" ++ filename

/-- `norm.count(os.sep)` (fixed `/` separator model). -/
def countSep (s : String) : Nat := s.toList.count '/'

/-- A directory tree as yielded by `os.walk(root, topdown=True)`: the
directory's path, its subdirectories and its plain file names. -/
inductive WTree where
  | node (path : String) (subdirs : List WTree) (files : List String)

/-- The filename loop of `related_scanner._scan_config_files`: collect
config-extension files up to `max_files`, de-duplicated by normalized path;
the `Bool` is true when `len(results) >= max_files` fired (the whole scan
returns). -/
def cfgFilesLoop (nrm : String → String) (maxFiles : Nat) (current : String) :
    List String → List String → List String → Bool × List String × List String
  | [], results, seen => (false, results, seen)
  | f :: fs, results, seen =>
    if results.length ≥ maxFiles then (true, results, seen)
    else
      let ext := asciiLower (splitExtExt f)
      if ¬ CONFIG_EXTENSIONS.contains ext then cfgFilesLoop nrm maxFiles current fs results seen
      else
        let path := joinPath current f
        let norm := nrm path
        if seen.contains norm then cfgFilesLoop nrm maxFiles current fs results seen
        else cfgFilesLoop nrm maxFiles current fs (results ++ [path]) (norm :: seen)

mutual
/-- One `os.walk` step of `_scan_config_files` at a directory node: gather
its config files, then (unless the depth ceiling prunes `dirs[:]`) descend
into its subdirectories; a `true` flag aborts the whole walk, returning the
results gathered so far. -/
def scanCfgNode (nrm : String → String) (maxDepth maxFiles rootDepth : Nat) :
    WTree → List String → List String → Bool × List String × List String
  | .node path subdirs files, results, seen =>
    let depth := countSep (nrm path) - rootDepth
    match cfgFilesLoop nrm maxFiles path files results seen with
    | (true, results, seen) => (true, results, seen)
    | (false, results, seen) =>
        if depth ≥ maxDepth then (false, results, seen)
        else scanCfgList nrm maxDepth maxFiles rootDepth subdirs results seen

/-- Walk a list of sibling subdirectories in order. -/
def scanCfgList (nrm : String → String) (maxDepth maxFiles rootDepth : Nat) :
    List WTree → List String → List String → Bool × List String × List String
  | [], results, seen => (false, results, seen)
  | t :: ts, results, seen =>
    match scanCfgNode nrm maxDepth maxFiles rootDepth t results seen with
    | (true, results, seen) => (true, results, seen)
    | (false, results, seen) => scanCfgList nrm maxDepth maxFiles rootDepth ts results seen
end

/-- `related_scanner._scan_config_files` on the tree rooted at the given
directory. -/
def scanConfigFiles (nrm : String → String) (tree : WTree) (maxDepth maxFiles : Nat) :
    List String :=
  match tree with
  | .node path _ _ =>
      (scanCfgNode nrm maxDepth maxFiles (countSep (nrm path)) tree [] []).2.1

/-- The filesystem/OS environment consulted by `scan_for_app`. -/
structure ScanEnv where
  nrm : String → String           -- `related_scanner._normalize_path`
  expandvars : String → String
  isfile : String → Bool
  isdir : String → Bool
  dirname : String → String
  tree : String → Option WTree    -- `os.walk` tree of a directory (none: unreadable/missing)

/-- `_config_files_for_root` (its per-root cache is semantically
transparent: it memoizes the pure function below). -/
def configFilesForRoot (env : ScanEnv) (root : String) (maxDepth maxFiles : Nat) :
    List String :=
  match env.tree root with
  | none => []
  | some t => scanConfigFiles env.nrm t maxDepth maxFiles

/-- `related_scanner.RelatedFileScanner._source_scores` (`.get(source, 0)`). -/
def sourceScores (s : String) : Int :=
  if s = "install_location" then 100
  else if s = "appdata" then 70
  else if s = "localappdata" then 70
  else if s = "localappdata_low" then 60
  else if s = "programdata" then 60
  else if s = "documents" then 50
  else if s = "saved_games" then 50
  else if s = "drive" then 40
  else 0

/-- `RelatedFileScanner._confidence_scores` (`.get(confidence, 0)`). -/
def confidenceScores (c : String) : Int :=
  if c = "High" then 30
  else if c = "Medium" then 20
  else if c = "Low" then 10
  else 0

/-- `RelatedFileScanner._score_related`. -/
def scoreRelated (source confidence : String) (isFile : Bool) : Int :=
  sourceScores source + confidenceScores confidence - (if isFile then 5 else 0)

/-- The shallow root-index classification of `scan_for_app` (spec §4.2's
shallow rule): exact cleaned-name match → High, name-token substring →
Medium, exact publisher match or publisher-token substring → Low. -/
def classifyRoot (cleaned_name cleaned_pub : String)
    (tokens_name tokens_pub : List String) (name_cf : String) : Option String :=
  let name_clean := cleanedOf name_cf
  let exact_name := cleaned_name ≠ "" ∧ name_clean = cleaned_name
  let exact_pub := cleaned_pub ≠ "" ∧ name_clean = cleaned_pub
  if exact_name then some "High"
  else if tokens_name.any (fun t => (findSub t.toList name_cf.toList).isSome) then some "Medium"
  else if exact_pub ∨ tokens_pub.any (fun t => (findSub t.toList name_cf.toList).isSome) then
    some "Low"
  else none

/-- The root-index candidate loop of `scan_for_app` (capped at `max_dirs`,
de-duplicated by normalized path). -/
def rootIndexLoop (env : ScanEnv) (cleaned_name cleaned_pub : String)
    (tokens_name tokens_pub : List String) (maxDirs : Nat) :
    List (String × String × String) → List (String × String × String) → List String →
      List (String × String × String) × List String
  | [], cands, seen => (cands, seen)
  | (path, source, name_cf) :: rest, cands, seen =>
    match classifyRoot cleaned_name cleaned_pub tokens_name tokens_pub name_cf with
    | none => rootIndexLoop env cleaned_name cleaned_pub tokens_name tokens_pub maxDirs rest cands seen
    | some conf =>
        let norm := env.nrm path
        if seen.contains norm then
          rootIndexLoop env cleaned_name cleaned_pub tokens_name tokens_pub maxDirs rest cands seen
        else
          let cands' := cands ++ [(path, source, conf)]
          if cands'.length ≥ maxDirs then (cands', norm :: seen)
          else rootIndexLoop env cleaned_name cleaned_pub tokens_name tokens_pub maxDirs rest cands' (norm :: seen)

/-- The per-candidate config-file loop of `scan_for_app`: each surfaced file
is recorded with source `"config_file"` and confidence equal to the parent
candidate's confidence when that is `"High"`, and `"Medium"` otherwise. -/
def candFilesLoop (env : ScanEnv) (maxFiles : Nat) (source confidence : String) :
    List String → List RelatedFile → List String → List RelatedFile × List String
  | [], rel, seen => (rel, seen)
  | fp :: fps, rel, seen =>
    if seen.length ≥ maxFiles then (rel, seen)
    else
      let norm := env.nrm fp
      if seen.contains norm then candFilesLoop env maxFiles source confidence fps rel seen
      else
        let fconf := if confidence = "High" then confidence else "Medium"
        let fscore := scoreRelated source fconf true
        candFilesLoop env maxFiles source confidence fps
          (rel ++ [{ path := fp, kind := "file", source := "config_file",
                     confidence := fconf, marked := "", score := fscore }])
          (norm :: seen)

/-- The candidate expansion loop of `scan_for_app`: one `dir` record per
candidate, then (when `include_files`) its config files. -/
def candsLoop (env : ScanEnv) (includeFiles : Bool) (maxFiles maxDepth : Nat) :
    List (String × String × String) → List RelatedFile → List String → List RelatedFile
  | [], rel, _ => rel
  | (path, source, confidence) :: rest, rel, seen =>
    let dirScore := scoreRelated source confidence false
    let rel := rel ++ [{ path := path, kind := "dir", source := source,
                         confidence := confidence, marked := "", score := dirScore }]
    if ¬ includeFiles then candsLoop env includeFiles maxFiles maxDepth rest rel seen
    else
      let cfg := configFilesForRoot env path maxDepth maxFiles
      match candFilesLoop env maxFiles source confidence cfg rel seen with
      | (rel', seen') =>
        if seen'.length ≥ maxFiles then rel'
        else candsLoop env includeFiles maxFiles maxDepth rest rel' seen'

/-- `related_scanner.RelatedFileScanner.scan_for_app` (`root_index` already
built; `extraRootsGiven` models the truthiness of the `extra_roots`
argument in `if deep_scan or extra_roots:`). -/
def scanForApp (env : ScanEnv) (maxDirs maxFiles maxDepth : Nat) (app : AppEntry)
    (deepScan includeFiles : Bool) (rootIndex : List (String × String × String))
    (extraRootsGiven : Bool) : List RelatedFile :=
  let tokens_name := tokensOf app.name
  let tokens_pub := tokensOf app.publisher
  let cleaned_name := cleanedOf app.name
  let cleaned_pub := cleanedOf app.publisher
  if tokens_name = [] ∧ tokens_pub = [] then []
  else
    let il0 := cleanPath env.expandvars app.install_location
    let il := if il0 ≠ "" ∧ env.isfile il0 then env.dirname il0 else il0
    let cs0 : List (String × String × String) × List String :=
      if il ≠ "" ∧ env.isdir il then ([(il, "install_location", "High")], [env.nrm il])
      else ([], [])
    let cs1 :=
      if deepScan ∨ extraRootsGiven then
        rootIndexLoop env cleaned_name cleaned_pub tokens_name tokens_pub maxDirs
          rootIndex cs0.1 cs0.2
      else cs0
    candsLoop env includeFiles maxFiles maxDepth cs1.1 [] []

/-! ### C3 — config-file confidence -/

/-- Environment for the spec's §8 example: declared install location
`C:/Apps/Foo` containing `settings.ini`. -/
def envFoo : ScanEnv :=
  { nrm := fun s => s,
    expandvars := fun s => s,
    isfile := fun _ => false,
    isdir := fun p => p = "C:/Apps/Foo",
    dirname := fun _ => "",
    tree := fun p =>
      if p = "C:/Apps/Foo" then some (.node "C:/Apps/Foo" [] ["settings.ini"]) else none }

/-- Application `Foo` declared at `C:/Apps/Foo`. -/
def appFoo : AppEntry := { name := "Foo", install_location := "C:/Apps/Foo" }

/-- C3 (counterexample): scanning `Foo` (no deep scan) over a declared
install location containing `settings.ini` yields the file entry with
source `config_file` but confidence **High** (inherited unchanged from the
High-confidence parent), not Medium as claimed: the code
(`related_scanner.py` line 172) keeps `"High"` and downgrades everything
*else* to `"Medium"`. -/
theorem scanForApp_settings_ini_high :
    scanForApp envFoo 25 200 3 appFoo false true [] false =
      [{ path := "C:/Apps/Foo", kind := "dir", source := "install_location",
         confidence := "High", marked := "", score := 130 },
       { path := "C:/Apps/Foo/settings.ini", kind := "file", source := "config_file",
         confidence := "High", marked := "", score := 125 }] ∧
    ¬ ∃ r ∈ scanForApp envFoo 25 200 3 appFoo false true [] false,
        r.kind = "file" ∧ r.confidence = "Medium" := by
  refine ⟨by decide, by decide⟩

theorem candFilesLoop_spec (env : ScanEnv) (mf : Nat) (src conf : String) :
    ∀ (fps : List String) (rel : List RelatedFile) (seen : List String),
      ∀ r ∈ (candFilesLoop env mf src conf fps rel seen).1,
        r ∈ rel ∨
          (r.kind = "file" ∧ r.source = "config_file" ∧
            r.confidence = (if conf = "High" then conf else "Medium") ∧
            r.score = scoreRelated src (if conf = "High" then conf else "Medium") true) := by
  intro fps
  induction fps with
  | nil => intro rel seen r hr; exact Or.inl hr
  | cons fp fps ih =>
      intro rel seen r hr
      rw [candFilesLoop] at hr
      by_cases hcap : seen.length ≥ mf
      · rw [if_pos hcap] at hr
        exact Or.inl hr
      · rw [if_neg hcap] at hr
        by_cases hseen : seen.contains (env.nrm fp)
        · rw [if_pos hseen] at hr
          exact ih _ _ r hr
        · rw [if_neg hseen] at hr
          rcases ih _ _ r hr with hmem | hnew
          · rcases List.mem_append.mp hmem with hmem | hmem
            · exact Or.inl hmem
            · simp only [List.mem_singleton] at hmem
              subst hmem
              exact Or.inr ⟨rfl, rfl, rfl, rfl⟩
          · exact Or.inr hnew

/-- C3 (amended): for every directory candidate included for an
application, each file surfaced by the config-file sub-scan is recorded
with source `config_file` and a confidence equal to the parent directory
candidate's confidence when that confidence is High, and `Medium` in every
other case (the code keeps High and upgrades/downgrades everything else to
Medium); in particular, scanning an application whose declared install
location (a High-confidence candidate) contains `settings.ini` yields a
file entry for `settings.ini` with source `config_file` and confidence
High. -/
theorem scanForApp_config_file_confidence :
    (∀ (env : ScanEnv) (mf : Nat) (src conf : String) (fps : List String)
        (rel : List RelatedFile) (seen : List String),
      ∀ r ∈ (candFilesLoop env mf src conf fps rel seen).1,
        r ∈ rel ∨
          (r.kind = "file" ∧ r.source = "config_file" ∧
            r.confidence = (if conf = "High" then conf else "Medium"))) ∧
    (∀ (env : ScanEnv) (incl : Bool) (mf md : Nat)
        (cands : List (String × String × String)) (rel : List RelatedFile)
        (seen : List String),
      ∀ r ∈ candsLoop env incl mf md cands rel seen,
        r ∈ rel ∨ r.kind = "dir" ∨
          (r.kind = "file" ∧ r.source = "config_file" ∧
            ∃ c ∈ cands, r.confidence = (if c.2.2 = "High" then c.2.2 else "Medium"))) ∧
    ((scanForApp envFoo 25 200 3 appFoo false true [] false).map
        (fun r => (r.path, r.kind, r.source, r.confidence)) =
      [("C:/Apps/Foo", "dir", "install_location", "High"),
       ("C:/Apps/Foo/settings.ini", "file", "config_file", "High")]) := by
  refine ⟨?_, ?_, by decide⟩
  · intro env mf src conf fps rel seen r hr
    rcases candFilesLoop_spec env mf src conf fps rel seen r hr with h | h
    · exact Or.inl h
    · exact Or.inr ⟨h.1, h.2.1, h.2.2.1⟩
  · intro env incl mf md cands
    induction cands with
    | nil => intro rel seen r hr; exact Or.inl hr
    | cons c cs ih =>
        intro rel seen r hr
        obtain ⟨path, source, confidence⟩ := c
        rw [candsLoop] at hr
        cases incl with
        | false =>
            rw [if_pos (by simp)] at hr
            rcases ih _ seen r hr with hmem | hrest
            · rcases List.mem_append.mp hmem with hmem | hmem
              · exact Or.inl hmem
              · simp only [List.mem_singleton] at hmem
                subst hmem
                exact Or.inr (Or.inl rfl)
            · rcases hrest with hdir | ⟨hk, hs, c', hc', hconf⟩
              · exact Or.inr (Or.inl hdir)
              · exact Or.inr (Or.inr ⟨hk, hs, c', List.mem_cons_of_mem _ hc', hconf⟩)
        | true =>
            rw [if_neg (by simp)] at hr
            dsimp only at hr
            rcases hr' : candFilesLoop env mf source confidence
                (configFilesForRoot env path md mf)
                (rel ++ [{ path := path, kind := "dir", source := source,
                           confidence := confidence, marked := "", score :=
                             scoreRelated source confidence false }]) seen with ⟨rel', seen'⟩
            rw [hr'] at hr
            simp only at hr
            by_cases hcap : seen'.length ≥ mf
            · rw [if_pos hcap] at hr
              rcases candFilesLoop_spec env mf source confidence _ _ _ r
                  (by rw [hr']; exact hr) with hmem | hnew
              · rcases List.mem_append.mp hmem with hmem | hmem
                · exact Or.inl hmem
                · simp only [List.mem_singleton] at hmem
                  subst hmem
                  exact Or.inr (Or.inl rfl)
              · exact Or.inr (Or.inr ⟨hnew.1, hnew.2.1,
                  ⟨(path, source, confidence), List.mem_cons_self _ _, hnew.2.2.1⟩⟩)
            · rw [if_neg hcap] at hr
              rcases ih rel' seen' r hr with hmem | hrest
              · rcases candFilesLoop_spec env mf source confidence _ _ _ r
                    (by rw [hr']; exact hmem) with hmem2 | hnew
                · rcases List.mem_append.mp hmem2 with hmem2 | hmem2
                  · exact Or.inl hmem2
                  · simp only [List.mem_singleton] at hmem2
                    subst hmem2
                    exact Or.inr (Or.inl rfl)
                · exact Or.inr (Or.inr ⟨hnew.1, hnew.2.1,
                    ⟨(path, source, confidence), List.mem_cons_self _ _, hnew.2.2.1⟩⟩)
              · rcases hrest with hdir | ⟨hk, hs, c', hc', hconf⟩
                · exact Or.inr (Or.inl hdir)
                · exact Or.inr (Or.inr ⟨hk, hs, c', List.mem_cons_of_mem _ hc', hconf⟩)

/-! ### `related_scanner.deep_scan_for_app` -/

/-- `related_scanner.DeepScanLimits` (float seconds as `Nat` clock units). -/
structure DeepScanLimits where
  maxDirs : Nat := 2000
  maxFiles : Nat := 5000
  maxDepth : Nat := 5
  maxSeconds : Nat := 8
  dirThreshold : Int := 68
  fileThreshold : Int := 72
  deriving Repr, DecidableEq

/-- The OS environment consulted by `deep_scan_for_app`. -/
structure DeepEnv where
  ratio : String → String → ℚ   -- difflib.SequenceMatcher ratio
  nrm : String → String
  isdir : String → Bool
  tree : String → Option WTree
  clock : Nat → Nat

/-- The filename loop of `deep_scan_for_app` inside a matched directory:
before each candidate file, `len(results) >= max_files` aborts the whole
scan (`return results`, flag `true`); config/exe extensions whose own
filename similarity clears the file threshold are recorded with source
`deep_scan`. -/
def deepFilesLoop (env : DeepEnv) (L : DeepScanLimits) (cn cp : String)
    (tn tp : List String) (ignoredSet : List String) (current : String) :
    List String → List RelatedFile → List String → Bool × List RelatedFile × List String
  | [], results, seen => (false, results, seen)
  | f :: fs, results, seen =>
    if results.length ≥ L.maxFiles then (true, results, seen)
    else
      let ext := asciiLower (splitExtExt f)
      if ¬ CONFIG_EXTENSIONS.contains ext ∧ ext ≠ ".exe" then
        deepFilesLoop env L cn cp tn tp ignoredSet current fs results seen
      else
        let file_name := cleanedOf f
        let fscore := fuzzyScore env.ratio file_name cn tn cp tp
        if fscore < L.fileThreshold then
          deepFilesLoop env L cn cp tn tp ignoredSet current fs results seen
        else
          let path := joinPath current f
          let norm := env.nrm path
          if ignoredSet.contains norm ∨ seen.contains norm then
            deepFilesLoop env L cn cp tn tp ignoredSet current fs results seen
          else
            deepFilesLoop env L cn cp tn tp ignoredSet current fs
              (results ++ [{ path := path, kind := "file", source := "deep_scan",
                             confidence := confidenceFromScore fscore, marked := "",
                             score := fscore }])
              (norm :: seen)

mutual
/-- One `os.walk` step of `deep_scan_for_app` at a directory: deadline check
(one `time.monotonic()` sample), ignore-set pruning, depth pruning, fuzzy
scoring of the basename, optional recording plus file inspection, then
descent; flag `true` aborts the whole scan returning the accumulated
results. -/
def deepVisit (env : DeepEnv) (L : DeepScanLimits) (deadline : Option Nat)
    (cn cp : String) (tn tp : List String) (ignoredSet : List String) (rootDepth : Nat) :
    WTree → Nat × List RelatedFile × List String → Bool × Nat × List RelatedFile × List String
  | .node current subdirs files, (tick, results, seen) =>
    if deadline.isSome ∧ env.clock tick ≥ deadline.getD 0 then (true, tick, results, seen)
    else
      let tick := if deadline.isSome then tick + 1 else tick
      let current_norm := env.nrm current
      if ignoredSet.contains current_norm then (false, tick, results, seen)
      else
        let depth := countSep current_norm - rootDepth
        let pruned := depth ≥ L.maxDepth
        let name_cf := cleanedOf (baseName current)
        let score := fuzzyScore env.ratio name_cf cn tn cp tp
        if score ≥ L.dirThreshold then
          let (results, seen, full) :=
            if ¬ seen.contains current_norm then
              let results' := results ++
                [{ path := current, kind := "dir", source := "deep_scan",
                   confidence := confidenceFromScore score, marked := "", score := score }]
              (results', current_norm :: seen, decide (results'.length ≥ L.maxDirs))
            else (results, seen, false)
          if full then (true, tick, results, seen)
          else
            match deepFilesLoop env L cn cp tn tp ignoredSet current files results seen with
            | (true, results, seen) => (true, tick, results, seen)
            | (false, results, seen) =>
                if pruned then (false, tick, results, seen)
                else deepVisitList env L deadline cn cp tn tp ignoredSet rootDepth subdirs
                  (tick, results, seen)
        else
          if pruned then (false, tick, results, seen)
          else deepVisitList env L deadline cn cp tn tp ignoredSet rootDepth subdirs
            (tick, results, seen)

/-- Visit sibling subdirectories in order, propagating an abort. -/
def deepVisitList (env : DeepEnv) (L : DeepScanLimits) (deadline : Option Nat)
    (cn cp : String) (tn tp : List String) (ignoredSet : List String) (rootDepth : Nat) :
    List WTree → Nat × List RelatedFile × List String → Bool × Nat × List RelatedFile × List String
  | [], st => (false, st.1, st.2.1, st.2.2)
  | t :: ts, st =>
    match deepVisit env L deadline cn cp tn tp ignoredSet rootDepth t st with
    | (true, tick, results, seen) => (true, tick, results, seen)
    | (false, tick, results, seen) =>
        deepVisitList env L deadline cn cp tn tp ignoredSet rootDepth ts (tick, results, seen)
end

/-- The per-root loop of `deep_scan_for_app`, with the shared deadline
re-sampled after each walked root (`break` keeps accumulated results). -/
def deepRootsLoop (env : DeepEnv) (L : DeepScanLimits) (deadline : Option Nat)
    (cn cp : String) (tn tp : List String) (ignoredSet : List String) :
    List String → Nat × List RelatedFile × List String → List RelatedFile
  | [], st => st.2.1
  | root :: rest, (tick, results, seen) =>
    if root = "" ∨ ¬ env.isdir root then
      deepRootsLoop env L deadline cn cp tn tp ignoredSet rest (tick, results, seen)
    else
      let rootDepth := countSep (env.nrm root)
      match
        (match env.tree root with
        | none => (false, tick, results, seen)
        | some t => deepVisit env L deadline cn cp tn tp ignoredSet rootDepth t
            (tick, results, seen)) with
      | (true, _, results, _) => results
      | (false, tick, results, seen) =>
          match deadline with
          | some dl =>
              if env.clock tick ≥ dl then results
              else deepRootsLoop env L deadline cn cp tn tp ignoredSet rest
                (tick + 1, results, seen)
          | none => deepRootsLoop env L deadline cn cp tn tp ignoredSet rest (tick, results, seen)

/-- `related_scanner.RelatedFileScanner.deep_scan_for_app`. -/
def deepScanForApp (env : DeepEnv) (app : AppEntry) (roots : List String)
    (L : DeepScanLimits) (ignored : List String) : List RelatedFile :=
  if roots = [] then []
  else
    let tn := tokensOf app.name
    let tp := tokensOf app.publisher
    let cn := cleanedOf app.name
    let cp := cleanedOf app.publisher
    if tn = [] ∧ tp = [] ∧ cn = "" ∧ cp = "" then []
    else
      let ignoredSet := (ignored.filter (fun p => p ≠ "")).map env.nrm
      let deadline := if L.maxSeconds ≠ 0 then some (env.clock 0 + L.maxSeconds) else none
      let tick0 := if deadline.isSome then 1 else 0
      deepRootsLoop env L deadline cn cp tn tp ignoredSet roots (tick0, [], [])

/-! ### C4 — deep-scan budgets -/

/-- Deep-scan environment: root `C:/data/foo` holding 100 files
`f0.ini … f99.ini`, with a similarity function that matches everything
(every file clears the file threshold). -/
def envBudget : DeepEnv :=
  { ratio := fun _ _ => 1,
    nrm := fun s => s,
    isdir := fun p => p = "C:/data/foo",
    tree := fun p =>
      if p = "C:/data/foo" then
        some (.node "C:/data/foo" [] ((List.range 100).map (fun i => "f" ++ toString i ++ ".ini")))
      else none,
    clock := fun _ => 0 }

/-- `envBudget` with an advancing monotonic clock. -/
def envBudgetTicking : DeepEnv := { envBudget with clock := fun t => t }

/-- Application `foo` for the budget scenario. -/
def appBudget : AppEntry := { name := "foo" }

/-- `max_files = 5`, no deadline. -/
def limBudget : DeepScanLimits :=
  { maxDirs := 2000, maxFiles := 5, maxDepth := 5, maxSeconds := 0,
    dirThreshold := 68, fileThreshold := 72 }

/-- C4 (counterexample): a deep scan with `max_files = 5` over a tree with
100 files clearing the file threshold does *not* return 5 file entries: the
`len(results) >= max_files` ceiling counts the combined results list
(directories included), so the matched root directory occupies one slot and
only 4 file entries are returned. -/
theorem deepScanForApp_four_files :
    ((deepScanForApp envBudget appBudget ["C:/data/foo"] limBudget []).filter
        (fun r => r.kind = "file")).length = 4 ∧
    (4 : Nat) ≠ 5 := by
  refine ⟨by decide, by decide⟩

/-- C4 (amended): a deep scan invoked with `max_files = 5` over a tree
containing 100 files that clear the file similarity threshold returns
exactly 5 entries *in total* — the file ceiling applies to the combined
results list, here 1 matched directory plus 4 file entries — and terminates
without error; when the shared deadline has already passed at the first
directory visited, the walk stops immediately and returns the (empty)
results accumulated so far. -/
theorem deepScanForApp_budget :
    (deepScanForApp envBudget appBudget ["C:/data/foo"] limBudget []).length = 5 ∧
    ((deepScanForApp envBudget appBudget ["C:/data/foo"] limBudget []).filter
        (fun r => r.kind = "dir")).length = 1 ∧
    ((deepScanForApp envBudget appBudget ["C:/data/foo"] limBudget []).filter
        (fun r => r.kind = "file")).length = 4 ∧
    deepScanForApp envBudgetTicking appBudget ["C:/data/foo"]
      { limBudget with maxSeconds := 1 } [] = [] := by
  refine ⟨by decide, by decide, by decide, by decide⟩

/-! ### `related_scanner.build_root_index` (C6) -/

/-- The OS environment consulted by `build_root_index`: `abspath` may raise
(`none`), `scandirDirs` yields the subdirectory entries `(entry.path,
entry.name.casefold())` of a readable directory (`none`: `OSError`, skipped
silently), `defaultRoots` is `_default_roots()` (environment-dependent). -/
structure RootIndexEnv where
  abspath : String → Option String
  isdir : String → Bool
  scandirDirs : String → Option (List (String × String))
  defaultRoots : List (String × String)

/-- The mutable cache fields `_root_index` / `_root_index_key`. -/
structure RootIndexState where
  rootIndex : List (String × String × String)
  rootIndexKey : Option (Bool × List String)
  deriving DecidableEq, Repr

/-- The `roots` filter of `build_root_index`: drop empty entries, entries
whose `abspath` raises, and entries that are not directories; the surviving
absolute paths keep their argument order. -/
def filterRoots (env : RootIndexEnv) (extraRoots : List String) : List String :=
  extraRoots.foldl
    (fun acc root =>
      if root = "" then acc
      else
        match env.abspath root with
        | none => acc
        | some cand => if env.isdir cand then acc ++ [cand] else acc)
    []

/-- `related_scanner.RelatedFileScanner.build_root_index` as a state
function; the `Bool` result records whether the index was rebuilt (the
filesystem re-enumerated) rather than served from the cache. -/
def buildRootIndex (env : RootIndexEnv) (deepScan : Bool) (extraRoots : List String)
    (st : RootIndexState) :
    List (String × String × String) × RootIndexState × Bool :=
  let roots := filterRoots env extraRoots
  let key := (deepScan, roots)
  if st.rootIndex ≠ [] ∧ st.rootIndexKey = some key then (st.rootIndex, st, false)
  else
    let index1 :=
      if deepScan then
        env.defaultRoots.foldl
          (fun acc rs =>
            match env.scandirDirs rs.1 with
            | none => acc
            | some entries => acc ++ entries.map (fun e => (e.1, rs.2, e.2)))
          []
      else []
    let index :=
      roots.foldl
        (fun acc root =>
          match env.scandirDirs root with
          | none => acc
          | some entries => acc ++ entries.map (fun e => (e.1, "drive", e.2)))
        index1
    (index, { rootIndex := index, rootIndexKey := some key }, true)

/-- Concrete root-index environment with two extra roots `r1`, `r2`. -/
def envRoots : RootIndexEnv :=
  { abspath := fun s => some s,
    isdir := fun p => p = "r1" || p = "r2",
    scandirDirs := fun p =>
      if p = "r1" then some [("r1/a", "a")]
      else if p = "r2" then some [("r2/b", "b")]
      else none,
    defaultRoots := [] }

/-- C6 (counterexample): the cache key uses the extra roots in *argument
order*, not sorted: after building the index for `[r1, r2]`, a second call
with the same set in the order `[r2, r1]` misses the cache and re-enumerates
the filesystem (`rebuilt = true`), and even returns a differently-ordered
index. -/
theorem buildRootIndex_order_sensitive :
    (buildRootIndex envRoots false ["r1", "r2"] ⟨[], none⟩).2.2 = true ∧
    (buildRootIndex envRoots false ["r2", "r1"]
        (buildRootIndex envRoots false ["r1", "r2"] ⟨[], none⟩).2.1).2.2 = true ∧
    (buildRootIndex envRoots false ["r2", "r1"]
        (buildRootIndex envRoots false ["r1", "r2"] ⟨[], none⟩).2.1).1 ≠
      (buildRootIndex envRoots false ["r1", "r2"] ⟨[], none⟩).1 := by
  refine ⟨by decide, by decide, by decide⟩

/-- C6 (amended): `build_root_index` caches its result keyed by the pair
(deep-scan flag, extra roots filtered to existing directories *in argument
order*): a second call with the same flag and the same ordered list returns
the cached index without re-enumerating the filesystem, provided the cached
index is nonempty; and any call whose key (flag, filtered ordered roots)
differs from the cached key rebuilds the index. -/
theorem buildRootIndex_cache (env : RootIndexEnv) (deepScan : Bool)
    (extraRoots : List String) (st : RootIndexState)
    (hne : (buildRootIndex env deepScan extraRoots st).1 ≠ []) :
    (buildRootIndex env deepScan extraRoots
        (buildRootIndex env deepScan extraRoots st).2.1) =
      ((buildRootIndex env deepScan extraRoots st).1,
        (buildRootIndex env deepScan extraRoots st).2.1, false) ∧
    (∀ (deepScan₂ : Bool) (extraRoots₂ : List String),
      (deepScan₂, filterRoots env extraRoots₂) ≠ (deepScan, filterRoots env extraRoots) →
      (buildRootIndex env deepScan₂ extraRoots₂
          (buildRootIndex env deepScan extraRoots st).2.1).2.2 = true) := by
  unfold buildRootIndex at *
  by_cases hit : st.rootIndex ≠ [] ∧ st.rootIndexKey = some (deepScan, filterRoots env extraRoots)
  · rw [if_pos hit] at *
    constructor
    · rw [if_pos hit]
    · intro d2 r2 hk
      rw [if_neg ?_]
      intro hcontra
      rw [hit.2] at hcontra
      have h2 := hcontra.2
      simp only [Option.some_inj, Prod.mk.injEq] at h2
      exact hk (by rw [Prod.mk.injEq]; exact ⟨h2.1.symm, h2.2.symm⟩)
  · rw [if_neg hit] at *
    constructor
    · rw [if_pos ⟨hne, rfl⟩]
    · intro d2 r2 hk
      rw [if_neg ?_]
      intro hcontra
      have h2 := hcontra.2
      simp only [Option.some_inj, Prod.mk.injEq] at h2
      exact hk (by rw [Prod.mk.injEq]; exact ⟨h2.1.symm, h2.2.symm⟩)

/-- C6 witness: the amended theorem applied at the concrete environment. -/
theorem buildRootIndex_cache_witness :
    ((buildRootIndex envRoots false ["r1", "r2"] ⟨[], none⟩).1 ≠ [] ∧
      (buildRootIndex envRoots false ["r1", "r2"]
          (buildRootIndex envRoots false ["r1", "r2"] ⟨[], none⟩).2.1) =
        ((buildRootIndex envRoots false ["r1", "r2"] ⟨[], none⟩).1,
          (buildRootIndex envRoots false ["r1", "r2"] ⟨[], none⟩).2.1, false)) := by
  refine ⟨by decide, (buildRootIndex_cache envRoots false ["r1", "r2"] ⟨[], none⟩ (by decide)).1⟩

/-! ### C7 / C8 — install-size concrete environments -/

/-- Environment: `C:/X/app.exe` is a 1 MiB file inside `C:/X`, which also
holds a 5 MiB sibling file. -/
def envExe : SizeEnv :=
  { expand := fun s => s,
    pathExists := fun p => p = "C:/X/app.exe" || p = "C:/X",
    isfile := fun p => p = "C:/X/app.exe",
    getsize := fun p => if p = "C:/X/app.exe" then some 1048576 else none,
    dirname := fun p => if p = "C:/X/app.exe" then "C:/X" else "",
    node := fun p => if p = "C:/X" then .dir true [.file 5242880, .file 1048576] else .dir false [],
    clock := fun _ => 0 }

/-- Environment: directory `C:/D` holding a 1 MiB file and a subdirectory
with a 5 MiB file. -/
def envDeep : SizeEnv :=
  { expand := fun s => s,
    pathExists := fun p => p = "C:/D",
    isfile := fun _ => false,
    getsize := fun _ => none,
    dirname := fun _ => "",
    node := fun p => if p = "C:/D" then .dir true [.file 1048576, .dir true [.file 5242880]] else .dir false [],
    clock := fun _ => 0 }

/-- Environment: directory `C:/D` holding a 1 MiB and a 0.5 MiB file. -/
def envTwoFiles : SizeEnv :=
  { envDeep with node := fun p => if p = "C:/D" then .dir true [.file 1048576, .file 524288] else .dir false [] }

/-- `envTwoFiles` with an advancing monotonic clock. -/
def envTicking : SizeEnv := { envTwoFiles with clock := fun t => t }

/-- C7 (counterexample): exceeding the depth ceiling does *not* make
install-size computation return "unavailable" — sizing `C:/D` (a 1 MiB file
plus a subdirectory holding a 5 MiB file) with `max_depth = 0` prunes the
subdirectory and returns the partial sum `1` MiB (the full sum, computed
with an adequate depth budget, is `6` MiB), contradicting "stops and
returns unavailable whenever … the depth ceiling … is exceeded — it never
returns a partial sum". -/
theorem computeInstallSizeMb_depth_partial_sum :
    computeInstallSizeMb envDeep "C:/D" (some ⟨20000, 0, 0⟩) = some 1 ∧
    computeInstallSizeMb envDeep "C:/D" (some ⟨20000, 6, 0⟩) = some 6 ∧
    computeInstallSizeMb envDeep "C:/D" (some ⟨20000, 0, 0⟩) ≠ none := by
  refine ⟨by decide, by decide, by decide⟩

/-- C7 (amended): install-size computation returns "unavailable" (`None`)
when the file-count ceiling would be exceeded (two files with
`max_files = 1`) or when the wall-clock deadline has passed, but a directory
deeper than the depth ceiling is silently pruned (its contents excluded)
and the traversal returns the partial sum of what remains. -/
theorem computeInstallSizeMb_budgets :
    computeInstallSizeMb envTwoFiles "C:/D" (some ⟨1, 6, 0⟩) = none ∧
    computeInstallSizeMb envTicking "C:/D" (some ⟨20000, 6, 1⟩) = none ∧
    computeInstallSizeMb envTwoFiles "C:/D" (some ⟨20000, 6, 0⟩) = some 1 ∧
    computeInstallSizeMb envDeep "C:/D" (some ⟨20000, 0, 0⟩) = some 1 := by
  refine ⟨by decide, by decide, by decide, by decide⟩

/-- C8 (counterexample): an install path resolving to a single existing
`.exe` file is *not* sized by its own file size: `C:/X/app.exe` is a 1 MiB
file (own size `1` MiB) but the computation sizes its parent directory
(1 MiB + 5 MiB sibling = `6` MiB). -/
theorem computeInstallSizeMb_exe_not_own_size :
    envExe.getsize "C:/X/app.exe" = some 1048576 ∧
    computeInstallSizeMb envExe "C:/X/app.exe" none = some 6 ∧
    computeInstallSizeMb envExe "C:/X/app.exe" none ≠
      some (max (1048576 / (1024 * 1024)) 0) := by
  refine ⟨by decide, by decide, by decide⟩

/-- C8 (amended): for every declared install path that resolves to a single
existing file whose (case-folded) name does not end in `.exe`, install-size
computation returns that file's own size in whole MiB (integer division)
without traversing any directory; `.exe` files are instead sized through
their parent directory. -/
theorem computeInstallSizeMb_single_file (env : SizeEnv) (raw : String)
    (limits : Option SizeScanLimits) (sz : Nat)
    (hp : normalizeInstallLocation env.expand raw ≠ "")
    (hex : env.pathExists (normalizeInstallLocation env.expand raw) = true)
    (hf : env.isfile (normalizeInstallLocation env.expand raw) = true)
    (hexe : strEnds ".exe" (asciiLower (normalizeInstallLocation env.expand raw)) = false)
    (hsz : env.getsize (normalizeInstallLocation env.expand raw) = some sz) :
    computeInstallSizeMb env raw limits = some (max (sz / (1024 * 1024)) 0) := by
  unfold computeInstallSizeMb
  rw [if_neg (by simp [hp, hex])]
  rw [if_pos hf, if_neg (by simp [hexe]), hsz]

/-- Environment: `C:/X/notes.txt` is a single existing 3 MiB regular file. -/
def envTxt : SizeEnv :=
  { envExe with
    pathExists := fun p => p = "C:/X/notes.txt",
    isfile := fun p => p = "C:/X/notes.txt",
    getsize := fun p => if p = "C:/X/notes.txt" then some 3145728 else none }

/-- C8 witness: the amended theorem applied at a concrete non-`.exe` file. -/
theorem computeInstallSizeMb_single_file_witness :
    normalizeInstallLocation envTxt.expand "C:/X/notes.txt" ≠ "" ∧
    computeInstallSizeMb envTxt "C:/X/notes.txt" none = some (max (3145728 / (1024 * 1024)) 0) :=
  ⟨by decide,
    computeInstallSizeMb_single_file envTxt "C:/X/notes.txt" none 3145728
      (by decide) (by decide) (by decide) (by decide) (by decide)⟩

/-- C10 witness: the theorem applied at a concrete input. -/
theorem applyManualRelated_absent_key_no_effect_witness :
    applyManualRelated idNorm ([] ++ ("nokey", [⟨"P", "file"⟩]) :: []) [exAppA, exAppB] =
      applyManualRelated idNorm ([] ++ []) [exAppA, exAppB] :=
  applyManualRelated_absent_key_no_effect idNorm "nokey" [⟨"P", "file"⟩] [] [] [exAppA, exAppB]
    (by decide)

/-! ### Removal layers: exclusivity and manual-entry preservation -/

theorem removeApp_entries (nrm : String → String) (d : List (String × List String))
    (a : AppEntry) : ∀ r ∈ (removeApp nrm d a).related_files, r ∈ a.related_files := by
  intro r hr
  cases h : dictGet d a.key with
  | none => rw [removeApp_of_none h] at hr; exact hr
  | some ns =>
      rw [removeApp_of_some nrm h] at hr
      simp only at hr
      exact List.mem_of_mem_filter hr

theorem DisjointNorms_map_removeApp {nrm : String → String}
    {d : List (String × List String)} {apps : List AppEntry}
    (h : DisjointNorms nrm apps) :
    DisjointNorms nrm (apps.map (removeApp nrm d)) := by
  intro a' ha' b' hb' hne n hn hna hnb
  obtain ⟨a, ha, rfl⟩ := List.mem_map.mp ha'
  obtain ⟨b, hb, rfl⟩ := List.mem_map.mp hb'
  rw [removeApp_key, removeApp_key] at hne
  obtain ⟨ra, hra, hran⟩ := List.mem_map.mp hna
  obtain ⟨rb, hrb, hrbn⟩ := List.mem_map.mp hnb
  exact h a ha b hb hne n hn
    (hran ▸ List.mem_map_of_mem _ (removeApp_entries nrm d a ra hra))
    (hrbn ▸ List.mem_map_of_mem _ (removeApp_entries nrm d b rb hrb))

theorem removeApp_keeps_manual {nrm : String → String} {d : List (String × List String)}
    {a : AppEntry} {r : RelatedFile} (hr : r ∈ a.related_files)
    (hs : r.source = "manual") : r ∈ (removeApp nrm d a).related_files := by
  cases h : dictGet d a.key with
  | none => rw [removeApp_of_none h]; exact hr
  | some ns =>
      rw [removeApp_of_some nrm h]
      simp only
      refine List.mem_filter.mpr ⟨hr, ?_⟩
      simp only [decide_eq_true_eq]
      intro hc
      exact hc.2.2 hs

/-- Normalized paths held only by `"manual"`-source entries. -/
def ManualAt (nrm : String → String) (n : String) (apps : List AppEntry) : Prop :=
  ∀ a ∈ apps, ∀ r ∈ a.related_files, normOf nrm r = n → r.source = "manual"

theorem ManualAt_map_removeApp {nrm : String → String} {d : List (String × List String)}
    {apps : List AppEntry} {n : String} (h : ManualAt nrm n apps) :
    ManualAt nrm n (apps.map (removeApp nrm d)) := by
  intro a' ha' r hr hrn
  obtain ⟨a, ha, rfl⟩ := List.mem_map.mp ha'
  exact h a ha r (removeApp_entries nrm d a r hr) hrn

theorem removal_presence {nrm : String → String} {d : List (String × List String)}
    {apps : List AppEntry} {n kA : String}
    (h : ∃ a ∈ apps, a.key = kA ∧ n ∈ normsOf nrm a)
    (hman : ManualAt nrm n apps) :
    ∃ a' ∈ apps.map (removeApp nrm d), a'.key = kA ∧ n ∈ normsOf nrm a' := by
  obtain ⟨a, ha, hk, hn⟩ := h
  refine ⟨removeApp nrm d a, List.mem_map_of_mem _ ha, by rw [removeApp_key]; exact hk, ?_⟩
  obtain ⟨r, hr, hrn⟩ := List.mem_map.mp hn
  exact hrn ▸ List.mem_map_of_mem _
    (removeApp_keeps_manual hr (hman a ha r hr hrn))

/-- `ManualAt` survives the reassignment layer: its output entries all stem
from input entries. -/
theorem ManualAt_applyRelatedOverrides {nrm : String → String}
    {ovr : List (String × String)} {apps : List AppEntry} {n : String}
    (hovr : (ovr.map Prod.fst).Nodup) (h : ManualAt nrm n apps) :
    ManualAt nrm n (applyRelatedOverrides nrm ovr apps) := by
  intro a' ha' r hr hrn
  obtain ⟨a, ha, hra⟩ := applyRelatedOverrides_entries hovr a' ha' r hr
  exact h a ha r hra hrn

/-! ### The manual layer: exclusivity, presence and source facts -/

theorem norms_keepFn_subset (nrm : String → String)
    (mbp : List (String × (String × String × String))) (a : AppEntry) {n : String}
    (h : n ∈ normsOf nrm (keepFn nrm mbp a)) : n ∈ normsOf nrm a := by
  obtain ⟨r, hr, hrn⟩ := List.mem_map.mp h
  have hsub := manualKeep_sublist nrm mbp a.key a.related_files []
  exact hrn ▸ List.mem_map_of_mem _ (hsub.mem hr)

/-- `_apply_manual_related` preserves cross-application path exclusivity. -/
theorem applyManualRelated_disjoint {nrm : String → String}
    {manual : List (String × List ManualItem)} {apps : List AppEntry}
    (hdisj : DisjointNorms nrm apps) :
    DisjointNorms nrm (applyManualRelated nrm manual apps) := by
  by_cases h1 : manual = []
  · simp only [applyManualRelated]
    rw [if_pos h1]
    exact hdisj
  · by_cases h2 : appByKey apps = []
    · simp only [applyManualRelated]
      rw [if_neg h1, if_pos h2]
      exact hdisj
    · by_cases h3 : manualByPath nrm manual (dictKeys (appByKey apps)) = []
      · simp only [applyManualRelated]
        rw [if_neg h1, if_neg h2, if_pos h3]
        exact hdisj
      · rw [applyManualRelated_eq nrm manual apps h1 h2 h3]
        obtain ⟨hmbpnd, hmbpinv⟩ := manualByPath_inv nrm manual (dictKeys (appByKey apps))
        have hnormInv : ∀ q ∈ manualByPath nrm manual (dictKeys (appByKey apps)),
            q.1 ≠ "" ∧ normalizeRelatedPath nrm q.2.2.2 = q.1 :=
          fun q hq => ⟨(hmbpinv q hq).1, (hmbpinv q hq).2.1⟩
        refine (foldl_induction_mem _
          (fun acc : List AppEntry =>
            (∀ x ∈ acc, KeptOK nrm (manualByPath nrm manual (dictKeys (appByKey apps))) x) ∧
            DisjointNorms nrm acc)
          (manualByPath nrm manual (dictKeys (appByKey apps))) ?_ _ ⟨?_, ?_⟩).2
        · -- one append step preserves both clauses
          intro acc q hq hP
          obtain ⟨hkept, hD⟩ := hP
          refine ⟨KeptOK_manualAppend hmbpnd hnormInv hq hkept, ?_⟩
          cases hl : lastWith (fun x => x.key = q.2.1) acc with
          | none =>
              rw [show manualAppend nrm q.1 q.2 acc = acc from manualAppend_of_none hl]
              exact hD
          | some a1 =>
              obtain ⟨l₁, l₂, hdec, _, hupd⟩ := manualAppend_of_some hl
              have ha1k : a1.key = q.2.1 := by
                have := (lastWith_mem hl).2
                simpa using this
              have ha1 : a1 ∈ acc := (lastWith_mem hl).1
              rw [hupd]
              have hqget : dictGet (manualByPath nrm manual (dictKeys (appByKey apps))) q.1 =
                  some q.2 := by
                cases q
                exact dictGet_of_mem_nodup hq hmbpnd
              -- every element of the new list projects to an element of `acc`
              -- with the same key whose paths cover it, up to the appended one
              have hproj : ∀ x' ∈ l₁ ++
                  (if a1.related_files.any (fun r => normalizeRelatedPath nrm r.path = q.1)
                   then a1
                   else { a1 with related_files := a1.related_files ++ [manualEntry q.2] }) :: l₂,
                  ∃ x ∈ acc, x.key = x'.key ∧ ∀ n, n ∈ normsOf nrm x' →
                    (n ∈ normsOf nrm x ∨ (n = q.1 ∧ x'.key = q.2.1)) := by
                intro x' hx'
                rcases List.mem_append.mp hx' with hx' | hx'
                · exact ⟨x', by rw [hdec]; exact List.mem_append_left _ hx', rfl,
                    fun n hn => Or.inl hn⟩
                · rcases List.mem_cons.mp hx' with rfl | hx'
                  · refine ⟨a1, ha1, (mAppFn_key nrm q.1 q.2 a1).symm, ?_⟩
                    · intro n hn
                      by_cases hany : a1.related_files.any
                          (fun r => normalizeRelatedPath nrm r.path = q.1)
                      · rw [if_pos hany] at hn
                        exact Or.inl hn
                      · rw [if_neg hany] at hn
                        unfold normsOf at hn
                        simp only [List.map_append, List.map_cons, List.map_nil] at hn
                        rcases List.mem_append.mp hn with hn | hn
                        · exact Or.inl hn
                        · simp only [List.mem_singleton] at hn
                          refine Or.inr ⟨?_, ?_⟩
                          · rw [hn, show normOf nrm (manualEntry q.2) =
                              normalizeRelatedPath nrm q.2.2.2 from rfl,
                              (hnormInv q hq).2]
                          · rw [mAppFn_key nrm q.1 q.2 a1]
                            exact ha1k
                  · refine ⟨x', ?_, rfl, fun n hn => Or.inl hn⟩
                    rw [hdec]
                    exact List.mem_append_right _ (List.mem_cons_of_mem _ hx')
              intro a' ha' b' hb' hne n hn hna hnb
              obtain ⟨xa, hxa, hxak, hca⟩ := hproj a' ha'
              obtain ⟨xb, hxb, hxbk, hcb⟩ := hproj b' hb'
              rcases hca n hna with hA | ⟨hnq, hak⟩
              · rcases hcb n hnb with hB | ⟨hnq, hbk⟩
                · exact hD xa hxa xb hxb (by rw [hxak, hxbk]; exact hne) n hn hA hB
                · -- xa holds q.1, but its manual owner is b''s key
                  obtain ⟨ra, hra, hran⟩ := List.mem_map.mp hA
                  obtain ⟨_, hown⟩ := (hkept xa hxa).2 ra hra
                  have := (hown q.2 (by rw [hran, hnq]; exact hqget)).1
                  rw [hxak] at this
                  exact hne (this.symm.trans hbk.symm)
              · rcases hcb n hnb with hB | ⟨_, hbk⟩
                · obtain ⟨rb, hrb, hrbn⟩ := List.mem_map.mp hB
                  obtain ⟨_, hown⟩ := (hkept xb hxb).2 rb hrb
                  have := (hown q.2 (by rw [hrbn, hnq]; exact hqget)).1
                  rw [hxbk] at this
                  exact hne (hak.trans this)
                · exact hne (by rw [hak, hbk])
        · -- base: the keep phase satisfies `KeptOK`
          intro x hx
          obtain ⟨a, _, rfl⟩ := List.mem_map.mp hx
          exact KeptOK_manualKeep nrm _ a
        · -- base: the keep phase only shrinks lists
          intro a' ha' b' hb' hne n hn hna hnb
          obtain ⟨a, ha, rfl⟩ := List.mem_map.mp ha'
          obtain ⟨b, hb, rfl⟩ := List.mem_map.mp hb'
          have hkeya : (keepFn nrm (manualByPath nrm manual (dictKeys (appByKey apps))) a).key
              = a.key := key_set_related _ _
          have hkeyb : (keepFn nrm (manualByPath nrm manual (dictKeys (appByKey apps))) b).key
              = b.key := key_set_related _ _
          rw [hkeya, hkeyb] at hne
          exact hdisj a ha b hb hne n hn
            (norms_keepFn_subset nrm _ a hna)
            (norms_keepFn_subset nrm _ b hnb)

/-- `_apply_manual_related` materializes every manual record on (the last
application carrying) its owner key. -/
theorem applyManualRelated_presence {nrm : String → String}
    {manual : List (String × List ManualItem)} {apps : List AppEntry}
    {nP : String} {rec : String × String × String}
    (hget : dictGet (manualByPath nrm manual (dictKeys (appByKey apps))) nP = some rec) :
    ∃ a' ∈ applyManualRelated nrm manual apps, a'.key = rec.1 ∧ nP ∈ normsOf nrm a' := by
  have hmem : (nP, rec) ∈ manualByPath nrm manual (dictKeys (appByKey apps)) :=
    mem_of_dictGet hget
  have h3 : manualByPath nrm manual (dictKeys (appByKey apps)) ≠ [] := by
    intro hc
    rw [hc] at hmem
    cases hmem
  have h1 : manual ≠ [] := by
    intro hc
    subst hc
    exact h3 rfl
  have h2 : appByKey apps ≠ [] := by
    intro hc
    apply h3
    unfold manualByPath
    rw [hc]
    show manual.foldl _ [] = []
    apply foldl_id_of_steps
    intro g _
    show (if (dictKeys ([] : List (String × AppEntry))).contains g.1 then _ else _) = _
    rw [if_neg (by simp [dictKeys])]
  obtain ⟨_, hmbpinv⟩ := manualByPath_inv nrm manual (dictKeys (appByKey apps))
  have hrecKS : rec.1 ∈ dictKeys (appByKey apps) :=
    contains_iff_mem.mp (hmbpinv (nP, rec) hmem).2.2
  have hchar := applyManualRelated_eq nrm manual apps h1 h2 h3
  have hkeys := keysOf_applyManualRelated nrm manual apps
  have hexists : ∃ a' ∈ applyManualRelated nrm manual apps, a'.key = rec.1 := by
    obtain ⟨a, ha, hak⟩ := mem_dictKeys_appByKey.mp hrecKS
    have : rec.1 ∈ (applyManualRelated nrm manual apps).map AppEntry.key := by
      rw [hkeys]
      exact hak ▸ List.mem_map_of_mem _ ha
    obtain ⟨a', ha', hak'⟩ := List.mem_map.mp this
    exact ⟨a', ha', hak'⟩
  have hsome : (lastWith (fun x => x.key = rec.1)
      (applyManualRelated nrm manual apps)).isSome := by
    apply lastWith_isSome
    obtain ⟨a', ha', hak'⟩ := hexists
    exact ⟨a', ha', by simp [hak']⟩
  cases hl : lastWith (fun x => x.key = rec.1) (applyManualRelated nrm manual apps) with
  | none => rw [hl] at hsome; simp at hsome
  | some a0 =>
      refine ⟨a0, (lastWith_mem hl).1, by
        have := (lastWith_mem hl).2
        simpa using this, ?_⟩
      have hpres : nP ∈ normsOf nrm a0 := by
        rw [hchar] at hl
        exact manualFold_presence nrm _ (fun q hq => (hmbpinv q hq).2.1) _
          (nP, rec) hmem a0 hl
      exact hpres

/-- After `_apply_manual_related`, every entry at a manually recorded
normalized path carries source `"manual"`. -/
theorem applyManualRelated_manualAt {nrm : String → String}
    {manual : List (String × List ManualItem)} {apps : List AppEntry}
    {nP : String} {rec : String × String × String}
    (hget : dictGet (manualByPath nrm manual (dictKeys (appByKey apps))) nP = some rec) :
    ManualAt nrm nP (applyManualRelated nrm manual apps) := by
  have hmem : (nP, rec) ∈ manualByPath nrm manual (dictKeys (appByKey apps)) :=
    mem_of_dictGet hget
  have h3 : manualByPath nrm manual (dictKeys (appByKey apps)) ≠ [] := by
    intro hc
    rw [hc] at hmem
    cases hmem
  have h1 : manual ≠ [] := by
    intro hc
    subst hc
    exact h3 rfl
  have h2 : appByKey apps ≠ [] := by
    intro hc
    apply h3
    unfold manualByPath
    rw [hc]
    show manual.foldl _ [] = []
    apply foldl_id_of_steps
    intro g _
    show (if (dictKeys ([] : List (String × AppEntry))).contains g.1 then _ else _) = _
    rw [if_neg (by simp [dictKeys])]
  obtain ⟨hmbpnd, hmbpinv⟩ := manualByPath_inv nrm manual (dictKeys (appByKey apps))
  have hkept : ∀ a' ∈ applyManualRelated nrm manual apps,
      KeptOK nrm (manualByPath nrm manual (dictKeys (appByKey apps))) a' := by
    rw [applyManualRelated_eq nrm manual apps h1 h2 h3]
    apply KeptOK_fold hmbpnd (fun q hq => ⟨(hmbpinv q hq).1, (hmbpinv q hq).2.1⟩)
    intro a ha
    obtain ⟨a0, _, rfl⟩ := List.mem_map.mp ha
    exact KeptOK_manualKeep nrm _ a0
  intro a' ha' r hr hrn
  obtain ⟨_, hown⟩ := (hkept a' ha').2 r hr
  exact (hown rec (by rw [hrn]; exact hget)).2

/-! ### `related_scanner._dedupe_related_files` -/

/-- The effective score of a record during dedupe:
`related.score or self._score_related(path, source, confidence, kind != "dir")`
(Python `or` falls back when the stored score is `0`). -/
def scoreEff (r : RelatedFile) : Int :=
  if r.score ≠ 0 then r.score
  else scoreRelated r.source r.confidence (r.kind ≠ "dir")

/-- One record step of the `best_by_path` arbitration pass for the
application key `K`: strictly better scores steal the path. -/
def bestStep (dnrm : String → String) (K : String)
    (d : List (String × (Int × String))) (r : RelatedFile) :
    List (String × (Int × String)) :=
  if r.path = "" then d
  else
    let norm := dnrm r.path
    let score := scoreEff r
    match dictGet d norm with
    | none => dictInsert norm (score, K) d
    | some best => if score > best.1 then dictInsert norm (score, K) d else d

/-- The `best_by_path` dict of `_dedupe_related_files`. -/
def bestByPath (dnrm : String → String) (apps : List AppEntry) :
    List (String × (Int × String)) :=
  apps.foldl (fun d a => a.related_files.foldl (bestStep dnrm a.key) d) []

/-- The keep pass of `_dedupe_related_files` over one application's records:
drop blank paths, drop paths whose arbitration winner is another
application, collapse duplicates. -/
def dedupeKeep (dnrm : String → String) (bbp : List (String × (Int × String)))
    (appKey : String) (seen : List String) : List RelatedFile → List RelatedFile
  | [] => []
  | r :: rs =>
    if r.path = "" then dedupeKeep dnrm bbp appKey seen rs
    else
      let norm := dnrm r.path
      match dictGet bbp norm with
      | none => dedupeKeep dnrm bbp appKey seen rs
      | some best =>
          if best.2 ≠ appKey then dedupeKeep dnrm bbp appKey seen rs
          else if seen.contains norm then dedupeKeep dnrm bbp appKey seen rs
          else r :: dedupeKeep dnrm bbp appKey (norm :: seen) rs

/-- `related_scanner._dedupe_related_files` as a pure function (`_normalize_path`
is the session normalizer `dnrm`; its `except OSError` casefold fallback is
part of that total function). -/
def dedupeRelatedFiles (dnrm : String → String) (apps : List AppEntry) : List AppEntry :=
  let bbp := bestByPath dnrm apps
  if bbp = [] then apps
  else apps.map (fun a =>
    { a with related_files := dedupeKeep dnrm bbp a.key [] a.related_files })

theorem dedupeKeep_mem (dnrm : String → String) (bbp : List (String × (Int × String)))
    (appKey : String) :
    ∀ (l : List RelatedFile) (seen : List String) (r : RelatedFile),
      r ∈ dedupeKeep dnrm bbp appKey seen l →
      r ∈ l ∧ r.path ≠ "" ∧
        ∃ best, dictGet bbp (dnrm r.path) = some best ∧ best.2 = appKey := by
  intro l
  induction l with
  | nil => intro seen r hr; cases hr
  | cons x xs ih =>
      intro seen r hr
      rw [dedupeKeep] at hr
      by_cases hp : x.path = ""
      · rw [if_pos hp] at hr
        obtain ⟨h1, h2, h3⟩ := ih seen r hr
        exact ⟨List.mem_cons_of_mem _ h1, h2, h3⟩
      · rw [if_neg hp] at hr
        dsimp only at hr
        cases hb : dictGet bbp (dnrm x.path) with
        | none =>
            rw [hb] at hr
            obtain ⟨h1, h2, h3⟩ := ih seen r hr
            exact ⟨List.mem_cons_of_mem _ h1, h2, h3⟩
        | some best =>
            rw [hb] at hr
            dsimp only at hr
            by_cases h1 : best.2 ≠ appKey
            · rw [if_pos h1] at hr
              obtain ⟨ha, hbq, hc⟩ := ih seen r hr
              exact ⟨List.mem_cons_of_mem _ ha, hbq, hc⟩
            · rw [if_neg h1] at hr
              by_cases h2 : seen.contains (dnrm x.path)
              · rw [if_pos h2] at hr
                obtain ⟨ha, hbq, hc⟩ := ih seen r hr
                exact ⟨List.mem_cons_of_mem _ ha, hbq, hc⟩
              · rw [if_neg h2] at hr
                rcases List.mem_cons.mp hr with rfl | hr
                · push_neg at h1
                  exact ⟨List.mem_cons_self _ _, hp, best, hb, h1⟩
                · obtain ⟨ha, hbq, hc⟩ := ih _ r hr
                  exact ⟨List.mem_cons_of_mem _ ha, hbq, hc⟩

theorem dictGet_dictInsert_isSome_mono {α : Type} {d : List (String × α)} {k' : String}
    (k : String) (v : α) (h : (dictGet d k').isSome) :
    (dictGet (dictInsert k v d) k').isSome := by
  by_cases hk : k' = k
  · subst hk
    rw [dictGet_dictInsert_self]
    rfl
  · rw [dictGet_dictInsert_ne hk]
    exact h

theorem bestStep_isSome_mono {dnrm : String → String} {K : String}
    {d : List (String × (Int × String))} {r : RelatedFile} {n : String}
    (h : (dictGet d n).isSome) : (dictGet (bestStep dnrm K d r) n).isSome := by
  unfold bestStep
  by_cases hp : r.path = ""
  · rw [if_pos hp]; exact h
  · rw [if_neg hp]
    dsimp only
    cases hd : dictGet d (dnrm r.path) with
    | none => exact dictGet_dictInsert_isSome_mono _ _ h
    | some best =>
        dsimp only
        by_cases hs : scoreEff r > best.1
        · rw [if_pos hs]; exact dictGet_dictInsert_isSome_mono _ _ h
        · rw [if_neg hs]; exact h

theorem bestStep_covers {dnrm : String → String} {K : String}
    {d : List (String × (Int × String))} {r : RelatedFile} (hp : r.path ≠ "") :
    (dictGet (bestStep dnrm K d r) (dnrm r.path)).isSome := by
  unfold bestStep
  rw [if_neg hp]
  dsimp only
  cases hd : dictGet d (dnrm r.path) with
  | none =>
      rw [dictGet_dictInsert_self]
      rfl
  | some best =>
      dsimp only
      by_cases hs : scoreEff r > best.1
      · rw [if_pos hs, dictGet_dictInsert_self]
        rfl
      · rw [if_neg hs, hd]
        rfl

theorem bestByPath_covers (dnrm : String → String) (apps : List AppEntry) :
    ∀ a ∈ apps, ∀ r ∈ a.related_files, r.path ≠ "" →
      (dictGet (bestByPath dnrm apps) (dnrm r.path)).isSome := by
  intro a ha r hr hp
  unfold bestByPath
  refine fold_establish_mem _
    (fun a (d : List (String × (Int × String))) =>
      ∀ r ∈ a.related_files, r.path ≠ "" → (dictGet d (dnrm r.path)).isSome)
    apps ?_ ?_ [] a ha r hr hp
  · intro d a' ha' r' hr' hp'
    refine fold_establish_mem _
      (fun (r' : RelatedFile) (d : List (String × (Int × String))) =>
        r'.path ≠ "" → (dictGet d (dnrm r'.path)).isSome)
      a'.related_files ?_ ?_ d r' hr' hp'
    · intro d r'' _ hp''
      exact bestStep_covers hp''
    · intro d r'' _ r''' _ h hp''
      exact bestStep_isSome_mono (h hp'')
  · intro d a' _ c _ h r' hr' hp'
    refine foldl_induction _
      (fun d : List (String × (Int × String)) => (dictGet d (dnrm r'.path)).isSome)
      ?_ c.related_files d (h r' hr' hp')
    intro d' r'' hd'
    exact bestStep_isSome_mono hd'

theorem keysOf_dedupeRelatedFiles (dnrm : String → String) (apps : List AppEntry) :
    (dedupeRelatedFiles dnrm apps).map AppEntry.key = apps.map AppEntry.key := by
  simp only [dedupeRelatedFiles]
  by_cases hb : bestByPath dnrm apps = []
  · rw [if_pos hb]
  · rw [if_neg hb]
    exact keysOf_map_setRelated apps _

theorem normOf_clean {nrm : String → String} {r : RelatedFile}
    (hclean : stripQuotes (pyStrip r.path) = r.path) (hne : r.path ≠ "") :
    normOf nrm r = nrm r.path := by
  show normalizeRelatedPath nrm r.path = nrm r.path
  simp only [normalizeRelatedPath]
  rw [hclean, if_neg hne]

theorem normOf_empty (nrm : String → String) {r : RelatedFile} (h : r.path = "") :
    normOf nrm r = "" := by
  show normalizeRelatedPath nrm r.path = ""
  rw [h]
  rfl

/-- The deduplicated heuristic result grants each nonempty normalized path to
at most one application: the arbitration winner recorded in `best_by_path`. -/
theorem dedupeRelatedFiles_disjoint {nrm : String → String} {apps : List AppEntry}
    (hclean : ∀ a ∈ apps, ∀ r ∈ a.related_files, stripQuotes (pyStrip r.path) = r.path) :
    DisjointNorms nrm (dedupeRelatedFiles nrm apps) := by
  simp only [dedupeRelatedFiles]
  by_cases hb : bestByPath nrm apps = []
  · rw [if_pos hb]
    intro a ha b hbm hne n hn hna hnb
    obtain ⟨r, hr, hrn⟩ := List.mem_map.mp hna
    have hrp : r.path ≠ "" := by
      intro hc
      exact hn (by rw [← hrn, normOf_empty nrm hc])
    have := bestByPath_covers nrm apps a ha r hr hrp
    rw [hb] at this
    simp [dictGet] at this
  · rw [if_neg hb]
    intro a' ha' b' hb' hne n hn hna hnb
    obtain ⟨a, ha, rfl⟩ := List.mem_map.mp ha'
    obtain ⟨b, hbm, rfl⟩ := List.mem_map.mp hb'
    obtain ⟨ra, hra, hrna⟩ := List.mem_map.mp hna
    obtain ⟨rb, hrb, hrnb⟩ := List.mem_map.mp hnb
    obtain ⟨hraa, hrap, besta, hgeta, hba⟩ :=
      dedupeKeep_mem nrm (bestByPath nrm apps) a.key a.related_files [] ra hra
    obtain ⟨hrbb, hrbp, bestb, hgetb, hbb⟩ :=
      dedupeKeep_mem nrm (bestByPath nrm apps) b.key b.related_files [] rb hrb
    have hna' : nrm ra.path = n := by
      rw [← hrna, normOf_clean (hclean a ha ra hraa) hrap]
    have hnb' : nrm rb.path = n := by
      rw [← hrnb, normOf_clean (hclean b hbm rb hrbb) hrbp]
    rw [hna'] at hgeta
    rw [hnb'] at hgetb
    rw [hgeta] at hgetb
    injection hgetb with hgetb
    exact hne (show a.key = b.key by rw [← hba, ← hbb, hgetb])

/-- The full related-file pipeline of one re-materialization: heuristic
results already on the applications, cross-application deduplication, then
the override compositor in code order. -/
def fullPipeline (nrm : String → String)
    (manual : List (String × List ManualItem)) (ovr : List (String × String))
    (ignore unassigned : List (String × List String))
    (apps : List AppEntry) : List AppEntry :=
  applyScanPipeline nrm manual ovr ignore unassigned (dedupeRelatedFiles nrm apps)

/-! ### C2 — idempotence of the override compositor -/

/-- Application `A 1` of the idempotence scenario (manual owner of `p`). -/
def c2A : AppEntry := { name := "A", version := "1" }

/-- Application `B 1` of the idempotence scenario (reassignment target). -/
def c2B : AppEntry := { name := "B", version := "1" }

/-- Application `C 1` of the idempotence scenario, holding a heuristic claim
on `q`. -/
def c2C : AppEntry :=
  { name := "C", version := "1",
    related_files := [{ path := "q", source := "drive", confidence := "Low", score := 50 }] }

/-- Manual override records: `p` is a manual entry of `A`. -/
def c2Manual : List (String × List ManualItem) := [(c2A.key, [{ path := "p" }])]

/-- Reassignment records: `p` and `q` are both reassigned to `B`. -/
def c2Ovr : List (String × String) := [("p", c2B.key), ("q", c2B.key)]

/-- C2 (counterexample): re-running the override compositor on its own output
with unchanged override records does not reproduce the output.  With `p` a
manual entry of `A` reassigned to `B` and `q` a heuristic entry of `C`
reassigned to `B`, the first run leaves `B` with `[p, q]` (both attached by
the reassignment loop, in record order), while the second run's first loop
re-attaches `q` before the reassignment loop adds `p` back, leaving `B` with
`[q, p]` — the same set in a different order, so the output is not
byte-identical. -/
theorem applyScanPipeline_not_idempotent :
    applyScanPipeline idNorm c2Manual c2Ovr [] []
        (applyScanPipeline idNorm c2Manual c2Ovr [] [] [c2A, c2B, c2C]) ≠
      applyScanPipeline idNorm c2Manual c2Ovr [] [] [c2A, c2B, c2C] := by
  decide

/-- C2 (amended): each individual layer of the override compositor is
idempotent — re-applying the manual layer, the reassignment layer (whose
records form a dict, hence have unique keys), the ignore layer or the
unassignment layer to its own output yields that output unchanged.  (The
counterexample above shows the composite of the four layers is nevertheless
not idempotent: a reassignment onto a manually owned path flips list
order across runs.) -/
theorem compositorLayers_idempotent (nrm : String → String)
    (manual : List (String × List ManualItem)) (ovr : List (String × String))
    (g u : List (String × List String)) (apps : List AppEntry)
    (hovr : (ovr.map Prod.fst).Nodup) :
    applyManualRelated nrm manual (applyManualRelated nrm manual apps) =
      applyManualRelated nrm manual apps ∧
    applyRelatedOverrides nrm ovr (applyRelatedOverrides nrm ovr apps) =
      applyRelatedOverrides nrm ovr apps ∧
    applyRelatedIgnores nrm g (applyRelatedIgnores nrm g apps) =
      applyRelatedIgnores nrm g apps ∧
    applyRelatedUnassigned nrm u (applyRelatedUnassigned nrm u apps) =
      applyRelatedUnassigned nrm u apps :=
  ⟨applyManualRelated_idem nrm manual apps,
   applyRelatedOverrides_idem nrm ovr apps hovr,
   applyRelatedIgnores_idem nrm g apps,
   applyRelatedUnassigned_idem nrm u apps⟩

/-- Witness for C2's amended theorem at the concrete idempotence scenario:
its unique-override-keys hypothesis holds there and the four layer
idempotence equations follow. -/
theorem compositorLayers_idempotent_witness :
    ((c2Ovr.map Prod.fst).Nodup) ∧
    (applyManualRelated idNorm c2Manual (applyManualRelated idNorm c2Manual [c2A, c2B, c2C]) =
      applyManualRelated idNorm c2Manual [c2A, c2B, c2C] ∧
    applyRelatedOverrides idNorm c2Ovr (applyRelatedOverrides idNorm c2Ovr [c2A, c2B, c2C]) =
      applyRelatedOverrides idNorm c2Ovr [c2A, c2B, c2C] ∧
    applyRelatedIgnores idNorm [(c2B.key, ["q"])]
        (applyRelatedIgnores idNorm [(c2B.key, ["q"])] [c2A, c2B, c2C]) =
      applyRelatedIgnores idNorm [(c2B.key, ["q"])] [c2A, c2B, c2C] ∧
    applyRelatedUnassigned idNorm [(c2B.key, ["q"])]
        (applyRelatedUnassigned idNorm [(c2B.key, ["q"])] [c2A, c2B, c2C]) =
      applyRelatedUnassigned idNorm [(c2B.key, ["q"])] [c2A, c2B, c2C]) :=
  ⟨by decide,
   compositorLayers_idempotent idNorm c2Manual c2Ovr
     [(c2B.key, ["q"])] [(c2B.key, ["q"])] [c2A, c2B, c2C] (by decide)⟩

/-! ### C1 — path exclusivity and manual ownership across the pipeline -/

/-- C1 (counterexample): a manual entry does not always stay on its declared
owner.  With `p` recorded as a manual entry of `A` (it is in `manual_by_path`,
owned by `A`) but explicitly reassigned to `B`, the full pipeline (dedupe,
then the compositor) ends with `p` on `B` and absent from `A`'s list:
`_apply_related_overrides` carries no manual-source exemption. -/
theorem fullPipeline_manual_moved_by_override :
    dictGet (manualByPath idNorm [(c2A.key, [{ path := "p" }])]
        (dictKeys (appByKey (dedupeRelatedFiles idNorm [c2A, c2B])))) "p" =
      some (c2A.key, "file", "p") ∧
    (∃ a ∈ fullPipeline idNorm [(c2A.key, [{ path := "p" }])] [("p", c2B.key)] [] []
        [c2A, c2B], a.key = c2A.key ∧ "p" ∉ normsOf idNorm a) ∧
    (∃ b ∈ fullPipeline idNorm [(c2A.key, [{ path := "p" }])] [("p", c2B.key)] [] []
        [c2A, c2B], b.key = c2B.key ∧ "p" ∈ normsOf idNorm b) := by
  decide

/-- C1 (amended): after the full pipeline — deduplicated heuristic results
followed by the override compositor — no nonempty normalized path appears in
the lists of two applications with different keys, provided the reassignment
records form a dict (unique keys) and the heuristic paths carry no
surrounding whitespace or quotes; and a path recorded in `manual_by_path`
whose normalized form no reassignment record targets does appear on (the
last application carrying) its owner key. -/
theorem fullPipeline_disjoint_and_manual (nrm : String → String)
    (manual : List (String × List ManualItem)) (ovr : List (String × String))
    (g u : List (String × List String)) (base : List AppEntry)
    (hovr : (ovr.map Prod.fst).Nodup)
    (hclean : ∀ a ∈ base, ∀ r ∈ a.related_files, stripQuotes (pyStrip r.path) = r.path) :
    (∀ a ∈ fullPipeline nrm manual ovr g u base,
      ∀ b ∈ fullPipeline nrm manual ovr g u base,
      a.key ≠ b.key → ∀ n, n ≠ "" → n ∈ normsOf nrm a → n ∉ normsOf nrm b) ∧
    (∀ nP rec,
      dictGet (manualByPath nrm manual
        (dictKeys (appByKey (dedupeRelatedFiles nrm base)))) nP = some rec →
      dictGet ovr nP = none →
      ∃ a ∈ fullPipeline nrm manual ovr g u base, a.key = rec.1 ∧ nP ∈ normsOf nrm a) := by
  have hpipe : fullPipeline nrm manual ovr g u base =
      applyRelatedUnassigned nrm u
        (applyRelatedIgnores nrm g
          (applyRelatedOverrides nrm ovr
            (applyManualRelated nrm manual (dedupeRelatedFiles nrm base)))) := rfl
  constructor
  · rw [hpipe, applyRelatedUnassigned_eq_map, applyRelatedIgnores_eq_map]
    exact DisjointNorms_map_removeApp
      (DisjointNorms_map_removeApp
        (applyRelatedOverrides_disjoint hovr
          (applyManualRelated_disjoint
            (dedupeRelatedFiles_disjoint hclean))))
  · intro nP rec hget hov
    have hnP : nP ≠ "" :=
      ((manualByPath_inv nrm manual
        (dictKeys (appByKey (dedupeRelatedFiles nrm base)))).2
        (nP, rec) (mem_of_dictGet hget)).1
    obtain ⟨a1, h1mem, h1key, h1n⟩ := applyManualRelated_presence hget
    have hman1 : ManualAt nrm nP
        (applyManualRelated nrm manual (dedupeRelatedFiles nrm base)) :=
      applyManualRelated_manualAt hget
    obtain ⟨a2, h2mem, h2key, h2n⟩ := O_presence hovr h1mem hnP h1n hov
    have hman2 := ManualAt_applyRelatedOverrides hovr hman1
    rw [hpipe, applyRelatedUnassigned_eq_map, applyRelatedIgnores_eq_map]
    have h3 := removal_presence (d := removeDict nrm g)
      ⟨a2, h2mem, h2key.trans h1key, h2n⟩ hman2
    have hman3 := ManualAt_map_removeApp (d := removeDict nrm g) hman2
    exact removal_presence (d := removeDict nrm u) h3 hman3

/-- Witness for C1's amended theorem: a concrete session (manual record `p`
for `A`, reassignment of `q` to `B` only, heuristic claim `q` on `C`)
satisfying both hypotheses, to which the theorem applies. -/
theorem fullPipeline_disjoint_and_manual_witness :
    (([("q", c2B.key)].map Prod.fst).Nodup ∧
      (∀ a ∈ [c2A, c2B, c2C], ∀ r ∈ a.related_files,
        stripQuotes (pyStrip r.path) = r.path)) ∧
    ((∀ a ∈ fullPipeline idNorm c2Manual [("q", c2B.key)] [] [] [c2A, c2B, c2C],
      ∀ b ∈ fullPipeline idNorm c2Manual [("q", c2B.key)] [] [] [c2A, c2B, c2C],
      a.key ≠ b.key → ∀ n, n ≠ "" → n ∈ normsOf idNorm a → n ∉ normsOf idNorm b) ∧
    (∀ nP rec,
      dictGet (manualByPath idNorm c2Manual
        (dictKeys (appByKey (dedupeRelatedFiles idNorm [c2A, c2B, c2C])))) nP = some rec →
      dictGet [("q", c2B.key)] nP = none →
      ∃ a ∈ fullPipeline idNorm c2Manual [("q", c2B.key)] [] [] [c2A, c2B, c2C],
        a.key = rec.1 ∧ nP ∈ normsOf idNorm a)) :=
  ⟨⟨by decide, by decide⟩,
   fullPipeline_disjoint_and_manual idNorm c2Manual [("q", c2B.key)] [] [] [c2A, c2B, c2C]
     (by decide) (by decide)⟩

end SysMapper
